import Mathlib

/-!
# One Billion Row Challenge, Go entry `pjgg`: a verification development

This file embeds `src/main/go/pjgg/main.go` and proves properties of it.

Modelling conventions.

* A Go `string` is a sequence of bytes.  It is represented by `List Char`, one `Char`
  per byte, so `len(s)` is `List.length` and the byte-wise order of Go strings is the
  lexicographic order of `List Char`.
* `float64` is modelled twice.  The exact model (`StationSummary`, `processLines`,
  `reduceSummaries`, `round`, `mainOutput` and the definitions around them) computes with
  exact rationals (`ℚ`): `min`, `max`, `+`, `/` and `math.Floor` are the exact operations.
  It carries the statements that are made about exact arithmetic, and the statements on
  keys, counts, chunks and the order of the output, which do not depend on the values.
  The binary64 model (`F64`, `StationSummary64`, `processLines64`, `reduceSummaries64`,
  `round64`, `mainOutput64` and the definitions around them) computes what the program
  computes: every value is an IEEE 754 binary64 value (a NaN, an infinity, a signed zero
  or a finite number), and every operation rounds to nearest, ties to even.
* `map[string]StationSummary` is a finite map (`Finmap`): an unordered key/value store
  with at most one value per key.  A `range` loop over a map is a fold whose result does
  not depend on the iteration order.
* `int` is the 64-bit signed integer of the platforms the program is written for.  The
  chunk limit and the byte counter of `readChunk` wrap at 64 bits; the field `Count` is an
  unbounded integer, because a count never exceeds the number of lines processed.
* Channels and goroutines are represented by the data that flows through them: the
  sequence of sub-batches each worker receives and the sequence in which the local
  tables arrive at the reducer.  Both are parameters of the model (a `Schedule`).
* Library code (`strings.Split`, `strconv.ParseFloat`, `bufio.Scanner`, `os.File.Read`,
  `fmt.Sprintf`, `sort.Strings`, `strings.Join`) is modelled by the definitions below that
  carry the library function's name.
-/

namespace Onebrc

/-- A Go string: a sequence of bytes, one `Char` per byte. -/
abbrev GoString := List Char

/-- The struct `StationSummary` (main.go lines 27-32). -/
structure StationSummary where
  Min : ℚ
  Max : ℚ
  Sum : ℚ
  Count : Int
deriving DecidableEq

/-- The Go type `map[string]StationSummary`. -/
abbrev Table := Finmap (fun _ : GoString => StationSummary)

/-- The constant `chunkSizeMB` (main.go line 36). -/
def chunkSizeMB : Int := 3072

/-- The constant `numWorkers` (main.go line 37). -/
def numWorkers : Nat := 8

/-! ## Library: `strings.Split` and `strconv.ParseFloat` -/

/-- The call `strings.Split(s, sep)` for a one-byte separator: the substrings of `s`
between the occurrences of `sep`; `n` occurrences give `n + 1` substrings. -/
def Split (sep : Char) : GoString → List GoString
  | [] => [[]]
  | c :: cs =>
    if c = sep then [] :: Split sep cs
    else
      match Split sep cs with
      | [] => [[c]]
      | p :: ps => (c :: p) :: ps

/-- The value of a string of decimal digits. -/
def digitsValue (ds : List Char) : Nat :=
  ds.foldl (fun n c => 10 * n + (c.toNat - 48)) 0

/-- An unsigned decimal literal `digits`, `digits.`, `.digits` or `digits.digits` with at
least one digit, and its exact value. -/
def parseUnsigned (s : List Char) : Option ℚ :=
  let ip := s.takeWhile Char.isDigit
  match s.dropWhile Char.isDigit with
  | [] => if ip = [] then none else some (digitsValue ip)
  | c :: fp =>
    if c = '.' ∧ fp.all Char.isDigit = true ∧ (ip ≠ [] ∨ fp ≠ []) then
      some (digitsValue ip + (digitsValue fp : ℚ) / 10 ^ fp.length)
    else none

/-- The call `strconv.ParseFloat(s, 64)` on plain decimal literals (optional sign, digits,
optional fraction), with the exact value of the literal; `none` is `err != nil`.
Exponents, hexadecimal literals, underscores, `Inf` and `NaN`, which the library also
accepts, are not covered: the general theorems below take the parser as a parameter and
hold for every parser, and this one serves the concrete examples. -/
def parseFloat (s : GoString) : Option ℚ :=
  match s with
  | '-' :: r => (parseUnsigned r).map (fun v => -v)
  | '+' :: r => parseUnsigned r
  | _ => parseUnsigned s

/-! ## `processLines` (main.go lines 183-207) -/

/-- The zero value of `StationSummary`, which `localSummary[station]` yields for an
absent key. -/
def StationSummary.zero : StationSummary := ⟨0, 0, 0, 0⟩

/-- Lines 195-204: fold one value into the summary read from the map. -/
def foldValue (stat : StationSummary) (value : ℚ) : StationSummary :=
  if stat.Count = 0 then
    ⟨value, value, value, 1⟩
  else
    ⟨min stat.Min value, max stat.Max value, stat.Sum + value, stat.Count + 1⟩

/-- One iteration of the loop of `processLines` (lines 185-205); `ParseFloat` is the
parser in use. -/
def processLine (ParseFloat : GoString → Option ℚ) (localSummary : Table) (line : GoString) :
    Table :=
  match Split ';' line with
  | [station, field] =>
    match ParseFloat field with
    | none => localSummary
    | some value =>
      let stat := (localSummary.lookup station).getD StationSummary.zero
      localSummary.insert station (foldValue stat value)
  | _ => localSummary

/-- The function `processLines`: the map after the loop over `lines`. -/
def processLines (ParseFloat : GoString → Option ℚ) (lines : List GoString)
    (localSummary : Table) : Table :=
  lines.foldl (processLine ParseFloat) localSummary

/-! ## `reduceSummaries` (main.go lines 209-227) -/

/-- Lines 215-218: the merge of an entry already in the final table with an incoming
one. -/
def mergeSummary (existing stat : StationSummary) : StationSummary :=
  ⟨min existing.Min stat.Min, max existing.Max stat.Max, existing.Sum + stat.Sum,
    existing.Count + stat.Count⟩

/-- Lines 214-222: the body of the inner loop of `reduceSummaries`. -/
def mergeEntry (finalSummary : Table) (station : GoString) (stat : StationSummary) : Table :=
  match finalSummary.lookup station with
  | some existing => finalSummary.insert station (mergeSummary existing stat)
  | none => finalSummary.insert station stat

/-- Lines 213-223: the inner loop `for station, stat := range summary`.  The iteration
order of a Go map is unspecified; the fold is well defined because the body commutes
with itself (exact arithmetic). -/
def mergeTable (finalSummary summary : Table) : Table :=
  Finmap.foldl mergeEntry
    (by
      intro d a₁ b₁ a₂ b₂
      by_cases h : a₁ = a₂
      · subst h
        cases hd : d.lookup a₁ with
        | none =>
          simp only [mergeEntry, hd, Finmap.lookup_insert, Finmap.insert_insert, mergeSummary]
          congr 2
          · exact min_comm _ _
          · exact max_comm _ _
          · exact add_comm _ _
          · exact add_comm _ _
        | some e =>
          simp only [mergeEntry, hd, Finmap.lookup_insert, Finmap.insert_insert, mergeSummary]
          congr 2
          · exact min_right_comm _ _ _
          · rw [max_assoc, max_assoc, max_comm b₁.Max]
          · exact add_right_comm _ _ _
          · exact add_right_comm _ _ _
      · have h' : a₂ ≠ a₁ := fun e => h e.symm
        have e1 : ∀ x, (Finmap.insert a₁ x d).lookup a₂ = d.lookup a₂ :=
          fun x => Finmap.lookup_insert_of_ne d h'
        have e2 : ∀ x, (Finmap.insert a₂ x d).lookup a₁ = d.lookup a₁ :=
          fun x => Finmap.lookup_insert_of_ne d h
        cases h1 : d.lookup a₁ <;> cases h2 : d.lookup a₂ <;>
          simp only [mergeEntry, h1, h2, e1, e2] <;>
          exact Finmap.insert_insert_of_ne d h)
    finalSummary summary

/-- The function `reduceSummaries`: the tables received on `summaryChannel`, in their
order of arrival, folded into a table that starts empty. -/
def reduceSummaries (summaryChannel : List Table) : Table :=
  summaryChannel.foldl mergeTable ∅

/-! ## `round` (main.go lines 229-232) -/

/-- The function `round`: `math.Floor((x+0.06)*10) / 10`. -/
def round (x : ℚ) : ℚ := (⌊(x + 0.06) * 10⌋ : ℚ) / 10

/-! ## Library: `os.File` and `bufio.Scanner` -/

/-- The errors a scanner can hold in `s.err`. -/
inductive IOErr where
  | EOF
  | ErrTooLong
  | ErrRead
  | ErrNoProgress
deriving DecidableEq

/-- An open regular file (`*os.File`): its bytes, the offset of the handle, and, when the
device is faulty, the offset from which reading fails. -/
structure File where
  content : List Char
  pos : Nat
  failAt : Option Nat
deriving DecidableEq

/-- The offset up to which bytes can be read. -/
def File.readable (f : File) : Nat :=
  match f.failAt with
  | some k => min k f.content.length
  | none => f.content.length

/-- The call `f.Read(b)` with `len(b) = n`: the bytes read, the error, and the file with
its offset advanced.  A regular file delivers as many bytes as are asked for and
available; at the end of the file it returns `0, io.EOF`. -/
def File.Read (f : File) (n : Nat) : List Char × Option IOErr × File :=
  if n = 0 then ([], none, f)
  else if f.pos < f.readable then
    let bytes := (f.content.drop f.pos).take (min n (f.readable - f.pos))
    (bytes, none, { f with pos := f.pos + bytes.length })
  else if f.readable < f.content.length then ([], some IOErr.ErrRead, f)
  else ([], some IOErr.EOF, f)

/-- The constant `bufio.startBufSize`. -/
def startBufSize : Nat := 4096

/-- The constant `bufio.MaxScanTokenSize`. -/
def maxTokenSize : Nat := 64 * 1024

/-- The state of a `bufio.Scanner`: `len(s.buf)`, `s.start`, the bytes `s.buf[s.start:s.end]`
and `s.err`. -/
structure Scanner where
  bufLen : Nat
  start : Nat
  data : List Char
  err : Option IOErr
deriving DecidableEq

/-- The call `bufio.NewScanner(file)`: no buffer yet, no error. -/
def NewScanner : Scanner := ⟨0, 0, [], none⟩

/-- The function `bufio.dropCR`: drop one trailing carriage return. -/
def dropCR (data : List Char) : List Char :=
  if data.getLast? = some '\r' then data.dropLast else data

/-- The split function `bufio.ScanLines`: the number of bytes to advance and the token,
if there is one. -/
def ScanLines (data : List Char) (atEOF : Bool) : Nat × Option GoString :=
  if atEOF = true ∧ data = [] then (0, none)
  else if data.indexOf '\n' < data.length then
    (data.indexOf '\n' + 1, some (dropCR (data.take (data.indexOf '\n'))))
  else if atEOF = true then (data.length, some (dropCR data))
  else (0, none)

/-- The method `(*Scanner).Scan`: the token (`none` when `Scan` returns false), the
scanner and the file afterwards.  One iteration of its loop: (1) when the buffer holds
bytes or an error is recorded, the split function is called, and a token ends the call;
(2) without a token, a recorded error ends the call; (3) the bytes are shifted to the
start of the buffer when that frees space; (4) a full buffer is replaced by one of twice
the size, the first of `startBufSize` bytes, and a full buffer of `maxTokenSize` bytes
ends the call with `ErrTooLong`; (5) one `Read` fills the free part of the buffer and
records its error.  The bytes read ahead stay in the scanner, not in the file.  The
first argument bounds the number of iterations; when it is used up the scanner stops
with `ErrNoProgress`. -/
def Scanner.Scan : Nat → Scanner → File → Option GoString × Scanner × File
  | 0, s, f => (none, { s with err := some IOErr.ErrNoProgress }, f)
  | fuel + 1, s, f =>
    let tok := if s.data ≠ [] ∨ s.err.isSome = true then ScanLines s.data s.err.isSome
               else (0, none)
    match tok.2 with
    | some token =>
      (some token, { s with start := s.start + tok.1, data := s.data.drop tok.1 }, f)
    | none =>
      if s.err.isSome = true then (none, { s with start := 0, data := [] }, f)
      else
        -- shift the data to the beginning of the buffer
        let s1 : Scanner :=
          if 0 < s.start ∧ (s.start + s.data.length = s.bufLen ∨ s.bufLen / 2 < s.start)
          then { s with start := 0 } else s
        if s1.start + s1.data.length = s1.bufLen then
          -- the buffer is full: resize
          if maxTokenSize ≤ s1.bufLen then
            (none, { s1 with err := some IOErr.ErrTooLong }, f)
          else
            let newSize := min (if s1.bufLen * 2 = 0 then startBufSize else s1.bufLen * 2)
              maxTokenSize
            let r := f.Read (newSize - s1.data.length)
            Scanner.Scan fuel ⟨newSize, 0, s1.data ++ r.1, r.2.1⟩ r.2.2
        else
          let r := f.Read (s1.bufLen - (s1.start + s1.data.length))
          Scanner.Scan fuel { s1 with data := s1.data ++ r.1, err := r.2.1 } r.2.2

/-- The method `(*Scanner).Err`: `nil` when the error is `io.EOF`. -/
def Scanner.Err (s : Scanner) : Option IOErr :=
  if s.err = some IOErr.EOF then none else s.err

/-! ## `readChunk` (main.go lines 162-181) -/

/-- The 64-bit signed integer an exact integer wraps to. -/
def wrapInt (x : Int) : Int := (x + 2 ^ 63) % 2 ^ 64 - 2 ^ 63

/-- Lines 169-176: the loop `for scanner.Scan()`, from the state `lines`, `readBytes`.
The first argument bounds the number of iterations. -/
def readChunkLoop (chunkLimit : Int) :
    Nat → Scanner → File → List GoString → Int → List GoString × Scanner × File
  | 0, s, f, lines, _ => (lines, { s with err := some IOErr.ErrNoProgress }, f)
  | fuel + 1, s, f, lines, readBytes =>
    match s.Scan (f.content.length + 3) f with
    | (none, s1, f1) => (lines, s1, f1)
    | (some line, s1, f1) =>
      if chunkLimit ≤ wrapInt (readBytes + (line.length + 1)) then (lines ++ [line], s1, f1)
      else readChunkLoop chunkLimit fuel s1 f1 (lines ++ [line])
        (wrapInt (readBytes + (line.length + 1)))

/-- The function `readChunk`: the returned pair `(lines, err)` and the file afterwards. -/
def readChunk (file : File) (chunkSizeMB : Int) : (List GoString × Option IOErr) × File :=
  let chunkLimit := wrapInt (chunkSizeMB * 1024 * 1024)
  let r := readChunkLoop chunkLimit (file.content.length + 1) NewScanner file [] 0
  match r.2.1.Err with
  | some err => (([], some err), r.2.2)
  | none => ((r.1, none), r.2.2)

/-! ## `main` (main.go lines 104-157) -/

/-- Lines 114-118: the chunks that the loop of `main` obtains from `readChunk` until one is
empty (the error is discarded, as in `lines, _ := readChunk(...)`).  The first argument
bounds the number of iterations. -/
def readChunks (chunkSizeMB : Int) : Nat → File → List (List GoString)
  | 0, _ => []
  | fuel + 1, file =>
    let r := readChunk file chunkSizeMB
    if r.1.1.length = 0 then [] else r.1.1 :: readChunks chunkSizeMB fuel r.2

/-- Lines 134-137: the sub-batches `lines[i:end]` sent on `linesChannel`, from index `i`.
The first argument bounds the number of iterations. -/
def dispatch (lines : List GoString) (smallChunkSize : Nat) : Nat → Nat → List (List GoString)
  | 0, _ => []
  | fuel + 1, i =>
    if i < lines.length then
      ((lines.take (min (i + smallChunkSize) lines.length)).drop i) ::
        dispatch lines smallChunkSize fuel (i + smallChunkSize)
    else []

/-- Lines 133-137: the sub-batches of one chunk. -/
def subBatches (lines : List GoString) : List (List GoString) :=
  dispatch lines ((lines.length + numWorkers - 1) / numWorkers) lines.length 0

/-- Lines 125-129: a worker folds the sub-batches it receives, in the order it receives
them, into its own table, which starts empty. -/
def workerTable (ParseFloat : GoString → Option ℚ) (received : List (List GoString)) : Table :=
  received.foldl (fun localSummary lines => processLines ParseFloat lines localSummary) ∅

/-- The tables of `W` workers, when each sub-batch is tagged with the index of the worker
that receives it. -/
def workerTables (ParseFloat : GoString → Option ℚ) (W : Nat)
    (tagged : List (Nat × List GoString)) : List Table :=
  (List.range W).map fun w =>
    workerTable ParseFloat ((tagged.filter fun b => b.1 = w).map Prod.snd)

/-- The interleaving of one run: which worker receives the `j`-th sub-batch of the `c`-th
chunk (`assign c j`, taken modulo `numWorkers`), and the order in which the emitted
tables arrive at the reducer. -/
structure Schedule where
  assign : Nat → Nat → Nat
  arrival : List Table → List Table

/-- A schedule delivers every emitted table to the reducer exactly once. -/
def Schedule.Valid (sched : Schedule) : Prop :=
  ∀ tables, (sched.arrival tables).Perm tables

/-- Lines 120-138: the tables emitted by the `numWorkers` workers started for the `c`-th
chunk. -/
def chunkTables (ParseFloat : GoString → Option ℚ) (sched : Schedule) (c : Nat)
    (lines : List GoString) : List Table :=
  workerTables ParseFloat numWorkers
    ((subBatches lines).enum.map fun b => (sched.assign c b.1 % numWorkers, b.2))

/-- All tables sent on `summaryChannel` during a run, chunk by chunk. -/
def emittedTables (ParseFloat : GoString → Option ℚ) (chunkSizeMB : Int) (sched : Schedule)
    (file : File) : List Table :=
  (readChunks chunkSizeMB (file.content.length + 1) file).enum.flatMap fun cl =>
    chunkTables ParseFloat sched cl.1 cl.2

/-- Line 146: `finalSummary`. -/
def finalSummary (ParseFloat : GoString → Option ℚ) (chunkSizeMB : Int) (sched : Schedule)
    (file : File) : Table :=
  reduceSummaries (sched.arrival (emittedTables ParseFloat chunkSizeMB sched file))

/-! ## Output (main.go lines 148-157) -/

/-- The integer nearest to `10 * x`, ties to even: the digits that `%.1f` prints. -/
def tenths (x : ℚ) : Int :=
  let y := x * 10
  if y - ⌊y⌋ < 1 / 2 then ⌊y⌋
  else if 1 / 2 < y - ⌊y⌋ then ⌊y⌋ + 1
  else if ⌊y⌋ % 2 = 0 then ⌊y⌋ else ⌊y⌋ + 1

/-- The verb `%.1f` of `fmt.Sprintf`: sign, integer digits, a point, one fractional
digit. -/
def formatFloat1 (x : ℚ) : GoString :=
  (if x < 0 then ['-'] else []) ++ Nat.toDigits 10 ((tenths x).natAbs / 10) ++ ['.'] ++
    Nat.toDigits 10 ((tenths x).natAbs % 10)

/-- Lines 150-154: the text appended to `output` for one entry of the final map. -/
def formatEntry (station : GoString) (stat : StationSummary) : GoString :=
  let mean := stat.Sum / (stat.Count : ℚ)
  let roundedMin := round stat.Min
  let roundedMean := round mean
  let roundedMax := round stat.Max
  station ++ ['='] ++ formatFloat1 roundedMin ++ ['/'] ++ formatFloat1 roundedMean ++ ['/'] ++
    formatFloat1 roundedMax

/-- Lines 148-156: `output` after `sort.Strings(output)`.  The loop appends one text per
entry in the map's iteration order; the sorted slice does not depend on that order. -/
def outputLines (finalSummary : Table) : List GoString :=
  Multiset.sort (fun a b : GoString => a ≤ b)
    (finalSummary.entries.map fun e => formatEntry e.1 e.2)

/-- The call `strings.Join(elems, sep)`. -/
def Join (elems : List GoString) (sep : GoString) : GoString :=
  sep.intercalate elems

/-- Line 157: the text printed by `fmt.Printf("{%s}\n", strings.Join(output, ", "))`. -/
def render (finalSummary : Table) : GoString :=
  ['{'] ++ Join (outputLines finalSummary) [',', ' '] ++ ['}', '\n']

/-- The text `main` prints for a file that could be opened, for a chunk size and a
schedule. -/
def mainOutput (ParseFloat : GoString → Option ℚ) (chunkSizeMB : Int) (sched : Schedule)
    (file : File) : GoString :=
  render (finalSummary ParseFloat chunkSizeMB sched file)

/-- The schedule in which the `j`-th sub-batch goes to worker `j` and the tables arrive in
the order of emission. -/
def Schedule.roundRobin : Schedule := ⟨fun _ j => j, fun tables => tables⟩

/-! ## Specification-side definitions

These definitions are not translations of code: they state what the claims speak about
(the values of the well-formed lines of a key, the merge of two optional summaries). -/

/-- The value a line contributes to key `k`: the line splits on `;` into exactly two
fields, the first is `k` and the second parses as a number. -/
def wellFormedValue (ParseFloat : GoString → Option ℚ) (k : GoString) (line : GoString) :
    Option ℚ :=
  match Split ';' line with
  | [station, field] => if station = k then ParseFloat field else none
  | _ => none

/-- The values of the well-formed lines of `lines` with station `k`, in order. -/
def valuesOf (ParseFloat : GoString → Option ℚ) (k : GoString) (lines : List GoString) :
    List ℚ :=
  lines.filterMap (wellFormedValue ParseFloat k)

/-- A line is malformed: it does not split on `;` into exactly two fields, or its second
field does not parse as a number. -/
def Malformed (ParseFloat : GoString → Option ℚ) (line : GoString) : Prop :=
  (Split ';' line).length ≠ 2 ∨
    ∃ station field, Split ';' line = [station, field] ∧ ParseFloat field = none

/-- The entry of a key after the values `vs` are folded, one by one, into the entry `o`
(`none`: the key is absent). -/
def foldValues (o : Option StationSummary) (vs : List ℚ) : Option StationSummary :=
  vs.foldl (fun o v => some (foldValue (o.getD StationSummary.zero) v)) o

/-- The key-wise merge of section 4.4 on optional entries: an absent entry is the
identity. -/
def mergeOpt : Option StationSummary → Option StationSummary → Option StationSummary
  | none, b => b
  | a, none => a
  | some a, some b => some (mergeSummary a b)

/-- The summary `s` is the summary of the non-empty list of values `vs`. -/
def Summarizes (s : StationSummary) (vs : List ℚ) : Prop :=
  vs ≠ [] ∧ s.Min ∈ vs ∧ (∀ v ∈ vs, s.Min ≤ v) ∧ s.Max ∈ vs ∧ (∀ v ∈ vs, v ≤ s.Max) ∧
    s.Sum = vs.sum ∧ s.Count = (vs.length : Int)

/-- An optional entry, when present, counts at least one value. -/
def OptPos (o : Option StationSummary) : Prop := ∀ s, o = some s → 1 ≤ s.Count

/-- The entry of key `k` after the lines `l` are folded into an empty table. -/
def aggregate (ParseFloat : GoString → Option ℚ) (k : GoString) (l : List GoString) :
    Option StationSummary :=
  foldValues none (valuesOf ParseFloat k l)

/-- The lines worker `w` processes, in order, when the sub-batches are tagged with the
worker that receives them. -/
def workerLines (tagged : List (Nat × List GoString)) (w : Nat) : List GoString :=
  ((tagged.filter fun b => b.1 = w).map Prod.snd).flatten

/-- The invariant of a summary that counts at least one value: its mean lies between its
minimum and its maximum (stated without division). -/
def Good (s : StationSummary) : Prop :=
  1 ≤ s.Count ∧ s.Min * (s.Count : ℚ) ≤ s.Sum ∧ s.Sum ≤ s.Max * (s.Count : ℚ)

/-- Every entry of the table satisfies `Good`. -/
def TableGood (t : Table) : Prop := ∀ k s, t.lookup k = some s → Good s

/-! ## Specification-side definitions for the reader and the loop of `main` -/

/-- The lines of a byte sequence before carriage returns are dropped: the pieces between
the line feeds, without the empty piece after a final line feed. -/
def rawLines (content : List Char) : List (List Char) :=
  if (Split '\n' content).getLast? = some [] then (Split '\n' content).dropLast
  else Split '\n' content

/-- The sequence of lines of a byte sequence: each line without its line terminator
(a line feed, with an optional carriage return before it). -/
def fileLines (content : List Char) : List GoString :=
  (rawLines content).map dropCR

/-- The bytes a scanner has still to deliver: the bytes in its buffer, then the bytes of
the file from the offset of the handle. -/
def remaining (s : Scanner) (f : File) : List Char := s.data ++ f.content.drop f.pos

/-- The state of a scanner over a file that reads without failure: the buffered bytes fit
the buffer, the buffer is at most `maxTokenSize` long, and the only recorded error is the
end of the file. -/
def ScanInv (s : Scanner) (f : File) : Prop :=
  f.failAt = none ∧ s.start + s.data.length ≤ s.bufLen ∧ s.bufLen ≤ maxTokenSize ∧
    (s.err = none ∨ (s.err = some IOErr.EOF ∧ f.content.length ≤ f.pos))

/-- From every offset of the byte sequence, the next line feed, or the end of the
sequence, is fewer than `maxTokenSize` bytes away: every line is shorter than
`maxTokenSize` bytes. -/
def ShortLines (R : List Char) : Prop := ∀ k, (R.drop k).indexOf '\n' < maxTokenSize

/-- The first line of a byte sequence, if the sequence is not empty. -/
def nextToken (R : List Char) : Option GoString :=
  if R = [] then none else some (dropCR (R.take (R.indexOf '\n')))

/-- The cumulative byte size of a sequence of lines: each line's length plus one. -/
def chunkBytes (lines : List GoString) : Int :=
  (lines.map fun l => (l.length : Int) + 1).sum

/-- The shortest prefix of `lines` whose cumulative byte size, added to `readBytes`, reaches
`chunkLimit`, or all of `lines` when the limit is not reached. -/
def takeChunk (chunkLimit : Int) : Int → List GoString → List GoString
  | _, [] => []
  | readBytes, line :: rest =>
    if chunkLimit ≤ readBytes + (line.length + 1) then [line]
    else line :: takeChunk chunkLimit (readBytes + (line.length + 1)) rest

/-- Lines 114-118: the file handle after the loop of `main`, which calls `readChunk`
until a chunk is empty.  The first argument bounds the number of iterations. -/
def fileAfterChunks (chunkSizeMB : Int) : Nat → File → File
  | 0, file => file
  | fuel + 1, file =>
    let r := readChunk file chunkSizeMB
    if r.1.1.length = 0 then r.2 else fileAfterChunks chunkSizeMB fuel r.2

/-- A file of 65541 bytes whose first line has 65536 bytes. -/
def longLineFile : File := ⟨List.replicate 65536 'a' ++ "\nB;1\n".toList, 0, none⟩

/-- The schedule in which every sub-batch goes to worker 0 and the tables arrive in the
reverse order of emission. -/
def Schedule.reversed : Schedule := ⟨fun _ _ => 0, fun tables => tables.reverse⟩

/-! ## The binary64 model of `float64`

The definitions above compute with exact rationals.  The definitions of this part compute
what the program computes: every `float64` is a value of IEEE 754 binary64 and every
operation rounds to nearest, ties to even.  They carry the name of the function they
model with the suffix `64`. -/

/-- A value of type `float64`: a NaN, an infinity with its sign, the negative zero, or a
finite number given by its exact value (`num 0` is the positive zero). -/
inductive F64 where
  | nan
  | inf (neg : Bool)
  | negZero
  | num (q : ℚ)
deriving DecidableEq

/-- The rational `2 ^ k`. -/
def pow2 (k : Int) : ℚ :=
  if 0 ≤ k then ((2 ^ k.toNat : Nat) : ℚ) else 1 / ((2 ^ (-k).toNat : Nat) : ℚ)

/-- The rational `10 ^ k`. -/
def pow10 (k : Int) : ℚ :=
  if 0 ≤ k then ((10 ^ k.toNat : Nat) : ℚ) else 1 / ((10 ^ (-k).toNat : Nat) : ℚ)

/-- The loop that counts how often `n` can be halved before it falls below 2.  The first
argument bounds the number of iterations. -/
def log2Loop : Nat → Nat → Nat
  | 0, _ => 0
  | fuel + 1, n => if 2 ≤ n then log2Loop fuel (n / 2) + 1 else 0

/-- The binary exponent of a positive natural number `n`: the `e` with
`2 ^ e ≤ n < 2 ^ (e + 1)`. -/
def natLog2 (n : Nat) : Nat := log2Loop n n

/-- The binary exponent of a positive rational `a`: the `e` with `2 ^ e ≤ a < 2 ^ (e + 1)`. -/
def ilog2 (a : ℚ) : Int :=
  let r : Int := (natLog2 a.num.natAbs : Int) - (natLog2 a.den : Int)
  if pow2 r ≤ a then r else r - 1

/-- The integer nearest to `y`, ties to even. -/
def roundEven (y : ℚ) : Int :=
  if y - ⌊y⌋ < 1 / 2 then ⌊y⌋
  else if 1 / 2 < y - ⌊y⌋ then ⌊y⌋ + 1
  else if ⌊y⌋ % 2 = 0 then ⌊y⌋ else ⌊y⌋ + 1

/-- The binary64 value nearest to the rational `q`, ties to even: 53 significant bits,
least exponent `-1022` (below it the subnormal numbers, spaced `2 ^ -1074` apart), and an
infinity when the rounded magnitude reaches `2 ^ 1024`. -/
def rnd (q : ℚ) : F64 :=
  if q = 0 then F64.num 0
  else
    let e := max (ilog2 |q|) (-1022)
    let v := (roundEven (|q| / pow2 (e - 52)) : ℚ) * pow2 (e - 52)
    if pow2 1024 ≤ v then F64.inf (decide (q < 0))
    else if v = 0 then (if q < 0 then F64.negZero else F64.num 0)
    else F64.num (if q < 0 then -v else v)

/-- The sign bit of a value. -/
def F64.signbit : F64 → Bool
  | nan => false
  | inf neg => neg
  | negZero => true
  | num q => decide (q < 0)

/-- The value is a zero. -/
def F64.isZero : F64 → Bool
  | negZero => true
  | num q => decide (q = 0)
  | _ => false

/-- The zero with the given sign bit. -/
def F64.zero (neg : Bool) : F64 := if neg then F64.negZero else F64.num 0

/-- The operator `+` on `float64`. -/
def F64.add : F64 → F64 → F64
  | nan, _ => nan
  | _, nan => nan
  | inf a, inf b => if a = b then inf a else nan
  | inf a, _ => inf a
  | _, inf b => inf b
  | negZero, negZero => negZero
  | negZero, num b => num b
  | num a, negZero => num a
  | num a, num b => rnd (a + b)

/-- The operator `*` on `float64`. -/
def F64.mul : F64 → F64 → F64
  | nan, _ => nan
  | _, nan => nan
  | inf a, y => if y.isZero then nan else inf (xor a y.signbit)
  | x, inf b => if x.isZero then nan else inf (xor x.signbit b)
  | negZero, y => F64.zero (xor true y.signbit)
  | x, negZero => F64.zero (xor x.signbit true)
  | num a, num b =>
    if a * b = 0 then F64.zero (xor (decide (a < 0)) (decide (b < 0))) else rnd (a * b)

/-- The operator `/` on `float64`. -/
def F64.div : F64 → F64 → F64
  | nan, _ => nan
  | _, nan => nan
  | inf _, inf _ => nan
  | inf a, y => inf (xor a y.signbit)
  | x, inf b => F64.zero (xor x.signbit b)
  | x, negZero => if x.isZero then nan else inf (xor x.signbit true)
  | negZero, num b => if b = 0 then nan else F64.zero (xor true (decide (b < 0)))
  | num a, num b =>
    if b = 0 then (if a = 0 then nan else inf (decide (a < 0)))
    else if a = 0 then F64.zero (decide (b < 0))
    else rnd (a / b)

/-- The function `math.Floor`. -/
def F64.floor : F64 → F64
  | num q => num (⌊q⌋ : ℚ)
  | x => x

/-- The operator `<=` on `float64`: false when an operand is a NaN; the two zeros are
equal. -/
def F64.le : F64 → F64 → Bool
  | nan, _ => false
  | _, nan => false
  | inf true, _ => true
  | _, inf false => true
  | inf false, _ => false
  | _, inf true => false
  | negZero, negZero => true
  | negZero, num b => decide (0 ≤ b)
  | num a, negZero => decide (a ≤ 0)
  | num a, num b => decide (a ≤ b)

/-- The built-in `min` on `float64`: a NaN when an operand is a NaN; the negative zero is
below the positive zero. -/
def F64.min : F64 → F64 → F64
  | nan, _ => nan
  | _, nan => nan
  | negZero, num b => if b < 0 then num b else negZero
  | num a, negZero => if a < 0 then num a else negZero
  | x, y => if x.le y then x else y

/-- The built-in `max` on `float64`: a NaN when an operand is a NaN; the positive zero is
above the negative zero. -/
def F64.max : F64 → F64 → F64
  | nan, _ => nan
  | _, nan => nan
  | negZero, num b => if 0 ≤ b then num b else negZero
  | num a, negZero => if 0 ≤ a then num a else negZero
  | x, y => if x.le y then y else x

/-- The conversion `float64(n)` of an integer. -/
def F64.ofInt (n : Int) : F64 := rnd n

/-! ### `strconv.ParseFloat` -/

/-- The function `lower` of package strconv: `c | ('x' - 'X')`. -/
def lower (c : Char) : Char := Char.ofNat (c.toNat ||| 32)

/-- The function `commonPrefixLenIgnoreCase` of package strconv; the second argument is in
lower case. -/
def commonPrefixLenIgnoreCase : GoString → GoString → Nat
  | c :: s, p :: pre =>
    if (if 'A' ≤ c ∧ c ≤ 'Z' then Char.ofNat (c.toNat + 32) else c) = p then
      commonPrefixLenIgnoreCase s pre + 1
    else 0
  | _, _ => 0

/-- The branch of `special` that reads `inf` or `infinity` after `nsign` sign bytes. -/
def specialInf (neg : Bool) (nsign : Nat) (s : GoString) : Option (F64 × Nat) :=
  let n := commonPrefixLenIgnoreCase s "infinity".toList
  let n := if 3 < n ∧ n < 8 then 3 else n
  if n = 3 ∨ n = 8 then some (F64.inf neg, nsign + n) else none

/-- The function `special` of package strconv: an infinity or a NaN at the start of `s`,
with the number of bytes consumed. -/
def special (s : GoString) : Option (F64 × Nat) :=
  match s with
  | [] => none
  | c :: r =>
    if c = '+' then specialInf false 1 r
    else if c = '-' then specialInf true 1 r
    else if c = 'i' ∨ c = 'I' then specialInf false 0 s
    else if c = 'n' ∨ c = 'N' then
      if commonPrefixLenIgnoreCase s "nan".toList = 3 then some (F64.nan, 3) else none
    else none

/-- The byte is a hexadecimal digit that is a letter. -/
def isHexLetter (c : Char) : Bool := decide ('a' ≤ lower c ∧ lower c ≤ 'f')

/-- The state of the digit loop of `readFloat`: the digits read so far as a number, the
number of digits read after the point, and the flags of the loop. -/
structure Mantissa where
  value : Nat
  frac : Nat
  sawdot : Bool
  sawdigits : Bool
  underscores : Bool

/-- The digit loop of `readFloat`: digits, underscores and at most one point; the bytes
left over are returned.  Every digit is kept, so the number is the exact value of the
digits. -/
def readMantissa (base : Nat) : GoString → Mantissa → Mantissa × GoString
  | [], m => (m, [])
  | c :: s, m =>
    if c = '_' then readMantissa base s { m with underscores := true }
    else if c = '.' then
      if m.sawdot then (m, c :: s) else readMantissa base s { m with sawdot := true }
    else if c.isDigit then
      readMantissa base s
        { m with value := base * m.value + (c.toNat - 48),
                 frac := if m.sawdot then m.frac + 1 else m.frac, sawdigits := true }
    else if base = 16 ∧ isHexLetter c then
      readMantissa base s
        { m with value := base * m.value + ((lower c).toNat - 97 + 10),
                 frac := if m.sawdot then m.frac + 1 else m.frac, sawdigits := true }
    else (m, c :: s)

/-- The exponent loop of `readFloat`: digits and underscores; the exponent stops growing
at 10000. -/
def readExponent : GoString → Nat → Bool → Nat × Bool × GoString
  | [], e, u => (e, u, [])
  | c :: s, e, u =>
    if c.isDigit then readExponent s (if e < 10000 then e * 10 + (c.toNat - 48) else e) u
    else if c = '_' then readExponent s e true
    else (e, u, c :: s)

/-- The loop of `underscoreOK`; `saw` is the kind of the last byte seen. -/
def underscoreOKLoop (hex : Bool) : GoString → Char → Bool
  | [], saw => saw != '_'
  | c :: s, saw =>
    if c.isDigit ∨ (hex ∧ isHexLetter c) then underscoreOKLoop hex s '0'
    else if c = '_' then (if saw != '0' then false else underscoreOKLoop hex s '_')
    else if saw = '_' then false
    else underscoreOKLoop hex s '!'

/-- The function `underscoreOK` of package strconv: every underscore stands between two
digits, or between a base prefix and a digit. -/
def underscoreOK (s : GoString) : Bool :=
  let s := match s with
    | '-' :: r => r
    | '+' :: r => r
    | _ => s
  match s with
  | c0 :: c1 :: r =>
    if c0 = '0' ∧ (lower c1 = 'b' ∨ lower c1 = 'o' ∨ lower c1 = 'x') then
      underscoreOKLoop (lower c1 = 'x') r '0'
    else underscoreOKLoop false s '^'
  | _ => underscoreOKLoop false s '^'

/-- The function `readFloat` of package strconv: sign, whether the literal is hexadecimal,
the digits as a number, the exponent of ten (of two for a hexadecimal literal) that
scales it, and the bytes left over; `none` is a syntax error. -/
def readFloat (s : GoString) : Option (Bool × Bool × Nat × Int × GoString) :=
  let (neg, r) := match s with
    | '+' :: r => (false, r)
    | '-' :: r => (true, r)
    | _ => (false, s)
  let (hex, r) := match r with
    | c0 :: c1 :: c2 :: r2 => if c0 = '0' ∧ lower c1 = 'x' then (true, c2 :: r2) else (false, r)
    | _ => (false, r)
  let (m, r) := readMantissa (if hex then 16 else 10) r ⟨0, 0, false, false, false⟩
  if !m.sawdigits then none
  else
    let dp : Int := if hex then -4 * (m.frac : Int) else -(m.frac : Int)
    let done (exp : Int) (underscores : Bool) (rest : GoString) :
        Option (Bool × Bool × Nat × Int × GoString) :=
      if underscores ∧ !underscoreOK (s.take (s.length - rest.length)) then none
      else some (neg, hex, m.value, exp, rest)
    match r with
    | [] => if hex then none else done dp m.underscores []
    | c :: r1 =>
      if lower c = (if hex then 'p' else 'e') then
        let (esign, r2) : Int × GoString := match r1 with
          | '+' :: t => (1, t)
          | '-' :: t => (-1, t)
          | _ => (1, r1)
        match r2 with
        | [] => none
        | d :: _ =>
          if d.isDigit then
            let (e, u, rest) := readExponent r2 0 m.underscores
            done (dp + (e : Int) * esign) u rest
          else none
      else if hex then none
      else done dp m.underscores r

/-- The call `strconv.ParseFloat(s, 64)`; `none` is `err != nil`.  The whole of `s` must be
a literal; its value is rounded to the nearest binary64 value, and a literal that rounds
to an infinity is a range error. -/
def ParseFloat64 (s : GoString) : Option F64 :=
  match special s with
  | some (v, n) => if n = s.length then some v else none
  | none =>
    match readFloat s with
    | none => none
    | some (neg, hex, mantissa, exp, rest) =>
      if rest ≠ [] then none
      else if mantissa = 0 then some (F64.zero neg)
      else
        match rnd ((if neg then -1 else 1) * (mantissa : ℚ) *
            (if hex then pow2 exp else pow10 exp)) with
        | F64.inf _ => none
        | v => some v

/-! ### The program on binary64 -/

/-- The struct `StationSummary` (main.go lines 27-32) with `float64` fields. -/
structure StationSummary64 where
  Min : F64
  Max : F64
  Sum : F64
  Count : Int
deriving DecidableEq

/-- The Go type `map[string]StationSummary`. -/
abbrev Table64 := Finmap (fun _ : GoString => StationSummary64)

/-- The zero value of `StationSummary`. -/
def StationSummary64.zero : StationSummary64 := ⟨F64.num 0, F64.num 0, F64.num 0, 0⟩

/-- Lines 195-204: fold one value into the summary read from the map. -/
def foldValue64 (stat : StationSummary64) (value : F64) : StationSummary64 :=
  if stat.Count = 0 then
    ⟨value, value, value, 1⟩
  else
    ⟨F64.min stat.Min value, F64.max stat.Max value, F64.add stat.Sum value, stat.Count + 1⟩

/-- One iteration of the loop of `processLines` (lines 185-205). -/
def processLine64 (ParseFloat : GoString → Option F64) (localSummary : Table64)
    (line : GoString) : Table64 :=
  match Split ';' line with
  | [station, field] =>
    match ParseFloat field with
    | none => localSummary
    | some value =>
      let stat := (localSummary.lookup station).getD StationSummary64.zero
      localSummary.insert station (foldValue64 stat value)
  | _ => localSummary

/-- The function `processLines`: the map after the loop over `lines`. -/
def processLines64 (ParseFloat : GoString → Option F64) (lines : List GoString)
    (localSummary : Table64) : Table64 :=
  lines.foldl (processLine64 ParseFloat) localSummary

/-- Lines 215-218: the merge of an entry already in the final table with an incoming
one. -/
def mergeSummary64 (existing stat : StationSummary64) : StationSummary64 :=
  ⟨F64.min existing.Min stat.Min, F64.max existing.Max stat.Max, F64.add existing.Sum stat.Sum,
    existing.Count + stat.Count⟩

/-- Lines 214-222: the body of the inner loop of `reduceSummaries`. -/
def mergeEntry64 (finalSummary : Table64) (station : GoString) (stat : StationSummary64) :
    Table64 :=
  match finalSummary.lookup station with
  | some existing => finalSummary.insert station (mergeSummary64 existing stat)
  | none => finalSummary.insert station stat

/-- Lines 213-223: the inner loop `for station, stat := range summary`.  The loop visits
every key of `summary` once, in an unspecified order, and its body reads and writes the
entry of that key only; the keys are taken here in increasing order, and every other
order gives the same table (`mergeTable64_any_order`). -/
def mergeTable64 (finalSummary summary : Table64) : Table64 :=
  (summary.keys.sort fun a b => a ≤ b).foldl
    (fun acc station =>
      match summary.lookup station with
      | some stat => mergeEntry64 acc station stat
      | none => acc)
    finalSummary

/-- The function `reduceSummaries`: the tables received on `summaryChannel`, in their
order of arrival, folded into a table that starts empty. -/
def reduceSummaries64 (summaryChannel : List Table64) : Table64 :=
  summaryChannel.foldl mergeTable64 ∅

/-- The function `round` (lines 229-232): `math.Floor((x+0.06)*10) / 10`, where `0.06` is
the binary64 value nearest to 0.06 and every operation rounds. -/
def round64 (x : F64) : F64 :=
  F64.div (F64.floor (F64.mul (F64.add x (rnd 0.06)) (F64.num 10))) (F64.num 10)

/-- Lines 125-129: the table of a worker that receives the given sub-batches. -/
def workerTable64 (ParseFloat : GoString → Option F64) (received : List (List GoString)) :
    Table64 :=
  received.foldl (fun localSummary lines => processLines64 ParseFloat lines localSummary) ∅

/-- The tables of `W` workers, when each sub-batch is tagged with the index of the worker
that receives it. -/
def workerTables64 (ParseFloat : GoString → Option F64) (W : Nat)
    (tagged : List (Nat × List GoString)) : List Table64 :=
  (List.range W).map fun w =>
    workerTable64 ParseFloat ((tagged.filter fun b => b.1 = w).map Prod.snd)

/-- The interleaving of one run: which worker receives the `j`-th sub-batch of the `c`-th
chunk, and the order in which the emitted tables arrive at the reducer. -/
structure Schedule64 where
  assign : Nat → Nat → Nat
  arrival : List Table64 → List Table64

/-- A schedule delivers every emitted table to the reducer exactly once. -/
def Schedule64.Valid (sched : Schedule64) : Prop :=
  ∀ tables, (sched.arrival tables).Perm tables

/-- Lines 120-138: the tables emitted by the workers started for the `c`-th chunk. -/
def chunkTables64 (ParseFloat : GoString → Option F64) (sched : Schedule64) (c : Nat)
    (lines : List GoString) : List Table64 :=
  workerTables64 ParseFloat numWorkers
    ((subBatches lines).enum.map fun b => (sched.assign c b.1 % numWorkers, b.2))

/-- All tables sent on `summaryChannel` during a run, chunk by chunk. -/
def emittedTables64 (ParseFloat : GoString → Option F64) (chunkSizeMB : Int)
    (sched : Schedule64) (file : File) : List Table64 :=
  (readChunks chunkSizeMB (file.content.length + 1) file).enum.flatMap fun cl =>
    chunkTables64 ParseFloat sched cl.1 cl.2

/-- Line 146: `finalSummary`. -/
def finalSummary64 (ParseFloat : GoString → Option F64) (chunkSizeMB : Int)
    (sched : Schedule64) (file : File) : Table64 :=
  reduceSummaries64 (sched.arrival (emittedTables64 ParseFloat chunkSizeMB sched file))

/-- The verb `%.1f` of `fmt.Sprintf` on a `float64`: the exact value of the number rounded
to one fractional digit, ties to even. -/
def formatFloat64 : F64 → GoString
  | F64.nan => "NaN".toList
  | F64.inf false => "+Inf".toList
  | F64.inf true => "-Inf".toList
  | F64.negZero => "-0.0".toList
  | F64.num q => formatFloat1 q

/-- Lines 150-154: the text appended to `output` for one entry of the final map. -/
def formatEntry64 (station : GoString) (stat : StationSummary64) : GoString :=
  let mean := F64.div stat.Sum (F64.ofInt stat.Count)
  let roundedMin := round64 stat.Min
  let roundedMean := round64 mean
  let roundedMax := round64 stat.Max
  station ++ ['='] ++ formatFloat64 roundedMin ++ ['/'] ++ formatFloat64 roundedMean ++ ['/'] ++
    formatFloat64 roundedMax

/-- Lines 148-156: `output` after `sort.Strings(output)`. -/
def outputLines64 (finalSummary : Table64) : List GoString :=
  Multiset.sort (fun a b : GoString => a ≤ b)
    (finalSummary.entries.map fun e => formatEntry64 e.1 e.2)

/-- Line 157: the text printed by `fmt.Printf("{%s}\n", strings.Join(output, ", "))`. -/
def render64 (finalSummary : Table64) : GoString :=
  ['{'] ++ Join (outputLines64 finalSummary) [',', ' '] ++ ['}', '\n']

/-- The text `main` prints for a file that could be opened, for a chunk size and a
schedule. -/
def mainOutput64 (ParseFloat : GoString → Option F64) (chunkSizeMB : Int)
    (sched : Schedule64) (file : File) : GoString :=
  render64 (finalSummary64 ParseFloat chunkSizeMB sched file)

/-- The schedule in which the `j`-th sub-batch goes to worker `j` and the tables arrive in
the order of emission. -/
def Schedule64.roundRobin : Schedule64 := ⟨fun _ j => j, fun tables => tables⟩

/-- The schedule in which the `j`-th sub-batch goes to worker `j` and the tables arrive in
the reverse order of emission. -/
def Schedule64.lastFirst : Schedule64 := ⟨fun _ j => j, fun tables => tables.reverse⟩

/-! ## Specification-side definitions for the binary64 model -/

/-- The value a line contributes to key `k` in the binary64 model. -/
def wellFormedValue64 (ParseFloat : GoString → Option F64) (k : GoString) (line : GoString) :
    Option F64 :=
  match Split ';' line with
  | [station, field] => if station = k then ParseFloat field else none
  | _ => none

/-- The values of the well-formed lines of `lines` with station `k`, in order. -/
def valuesOf64 (ParseFloat : GoString → Option F64) (k : GoString) (lines : List GoString) :
    List F64 :=
  lines.filterMap (wellFormedValue64 ParseFloat k)

/-- The entry of a key after the values `vs` are folded, one by one, into the entry `o`
(`none`: the key is absent). -/
def foldValues64 (o : Option StationSummary64) (vs : List F64) : Option StationSummary64 :=
  vs.foldl (fun o v => some (foldValue64 (o.getD StationSummary64.zero) v)) o

/-- The key-wise merge on optional entries: an absent entry is the identity. -/
def mergeOpt64 : Option StationSummary64 → Option StationSummary64 → Option StationSummary64
  | none, b => b
  | a, none => a
  | some a, some b => some (mergeSummary64 a b)

/-- The summary counts at least one value, and its minimum is at most its maximum (so
neither is a NaN). -/
def Ordered64 (s : StationSummary64) : Prop := 1 ≤ s.Count ∧ s.Min.le s.Max = true

/-- Every entry of the table satisfies `Ordered64`. -/
def TableOrdered64 (t : Table64) : Prop := ∀ k s, t.lookup k = some s → Ordered64 s

/-- No line of `lines` has a second field that parses to a NaN. -/
def NoNaN (ParseFloat : GoString → Option F64) (lines : List GoString) : Prop :=
  ∀ line ∈ lines, ∀ station field, Split ';' line = [station, field] →
    ParseFloat field ≠ some F64.nan

/-- The fields of a summary that do not depend on the order of the additions. -/
structure Extremes where
  Min : F64
  Max : F64
  Count : Int
deriving DecidableEq

/-- The fields `Min`, `Max` and `Count` of a summary. -/
def StationSummary64.extremes (s : StationSummary64) : Extremes := ⟨s.Min, s.Max, s.Count⟩

/-- The merge of lines 215-218 on the fields `Min`, `Max` and `Count`. -/
def mergeExtremes (a b : Extremes) : Extremes :=
  ⟨F64.min a.Min b.Min, F64.max a.Max b.Max, a.Count + b.Count⟩

/-- The merge on optional values: an absent entry is the identity. -/
def mergeExtOpt : Option Extremes → Option Extremes → Option Extremes
  | none, b => b
  | a, none => a
  | some a, some b => some (mergeExtremes a b)

/-- The built-in `min` and `max` folded over a list of values, and its length; `none` for
the empty list. -/
def extremesOf : List F64 → Option Extremes
  | [] => none
  | v :: vs => some ⟨vs.foldl F64.min v, vs.foldl F64.max v, (vs.length : Int) + 1⟩

/-- The magnitude that `rnd` gives to a positive rational before the overflow test: the
multiple of the spacing of the binary64 values around `a` that is nearest to `a`. -/
def roundedMagnitude (a : ℚ) : ℚ :=
  (roundEven (a / pow2 (max (ilog2 a) (-1022) - 52)) : ℚ) * pow2 (max (ilog2 a) (-1022) - 52)

/-! ## Lemmas on `processLines` -/

theorem lookup_processLine (PF : GoString → Option ℚ) (t : Table) (line k : GoString) :
    (processLine PF t line).lookup k =
      match wellFormedValue PF k line with
      | none => t.lookup k
      | some v => some (foldValue ((t.lookup k).getD StationSummary.zero) v) := by
  unfold processLine wellFormedValue
  split
  · rename_i station field _
    by_cases hk : station = k
    · subst hk
      cases h : PF field with
      | none => simp
      | some v => simp [Finmap.lookup_insert]
    · cases h : PF field with
      | none => simp [hk]
      | some v =>
        have hk' : k ≠ station := fun e => hk e.symm
        simp [hk, Finmap.lookup_insert_of_ne _ hk']
  · rfl

theorem lookup_processLines (PF : GoString → Option ℚ) (lines : List GoString) (t : Table)
    (k : GoString) :
    (processLines PF lines t).lookup k = foldValues (t.lookup k) (valuesOf PF k lines) := by
  induction lines generalizing t with
  | nil => rfl
  | cons line rest ih =>
    have h := lookup_processLine PF t line k
    show (processLines PF rest (processLine PF t line)).lookup k = _
    rw [ih, h]
    cases hv : wellFormedValue PF k line with
    | none => simp [valuesOf, List.filterMap_cons, hv]
    | some v => simp [valuesOf, List.filterMap_cons, hv, foldValues]

theorem summarizes_single (v : ℚ) : Summarizes (foldValue StationSummary.zero v) [v] := by
  simp [Summarizes, foldValue, StationSummary.zero]

theorem summarizes_snoc (s : StationSummary) (vs : List ℚ) (v : ℚ) (h : Summarizes s vs) :
    Summarizes (foldValue s v) (vs ++ [v]) := by
  obtain ⟨hne, hmin, hlo, hmax, hhi, hsum, hcnt⟩ := h
  have hlen : 0 < vs.length := List.length_pos.mpr hne
  have hc : s.Count ≠ 0 := by rw [hcnt]; exact_mod_cast hlen.ne'
  simp only [Summarizes, foldValue, hc, if_false]
  refine ⟨by simp, ?_, ?_, ?_, ?_, ?_, ?_⟩
  · rcases min_choice s.Min v with h | h <;> rw [h] <;> simp [hmin]
  · intro w hw
    rcases List.mem_append.mp hw with hw | hw
    · exact le_trans (min_le_left _ _) (hlo w hw)
    · rw [List.mem_singleton.mp hw]; exact min_le_right _ _
  · rcases max_choice s.Max v with h | h <;> rw [h] <;> simp [hmax]
  · intro w hw
    rcases List.mem_append.mp hw with hw | hw
    · exact le_trans (hhi w hw) (le_max_left _ _)
    · rw [List.mem_singleton.mp hw]; exact le_max_right _ _
  · simp [hsum]
  · simp [hcnt]

theorem foldValues_some (s : StationSummary) (vs ws : List ℚ) (h : Summarizes s vs) :
    ∃ s', foldValues (some s) ws = some s' ∧ Summarizes s' (vs ++ ws) := by
  induction ws generalizing s vs with
  | nil => exact ⟨s, rfl, by simpa using h⟩
  | cons w rest ih =>
    obtain ⟨s', h1, h2⟩ := ih (foldValue s w) (vs ++ [w]) (summarizes_snoc s vs w h)
    exact ⟨s', by simpa [foldValues] using h1, by simpa using h2⟩

theorem foldValues_none (vs : List ℚ) :
    (vs = [] ∧ foldValues none vs = none) ∨
      ∃ s, foldValues none vs = some s ∧ Summarizes s vs := by
  cases vs with
  | nil => exact Or.inl ⟨rfl, rfl⟩
  | cons v rest =>
    obtain ⟨s', h1, h2⟩ := foldValues_some _ [v] rest (summarizes_single v)
    exact Or.inr ⟨s', by simpa [foldValues] using h1, by simpa using h2⟩

theorem wellFormedValue_eq_some (PF : GoString → Option ℚ) (k line : GoString) (v : ℚ) :
    wellFormedValue PF k line = some v ↔
      ∃ field, Split ';' line = [k, field] ∧ PF field = some v := by
  unfold wellFormedValue
  split
  · rename_i station field heq
    by_cases hk : station = k
    · subst hk
      simp [heq]
    · simp only [hk, if_false, heq]
      constructor
      · intro h; cases h
      · rintro ⟨f, hf, _⟩
        simp only [List.cons.injEq] at hf
        exact absurd hf.1 hk
  · rename_i hne
    constructor
    · intro h; cases h
    · rintro ⟨f, hf, _⟩
      exact absurd hf (hne k f)

theorem valuesOf_ne_nil (PF : GoString → Option ℚ) (k : GoString) (L : List GoString) :
    valuesOf PF k L ≠ [] ↔
      ∃ line ∈ L, ∃ field v, Split ';' line = [k, field] ∧ PF field = some v := by
  constructor
  · intro h
    obtain ⟨v, hv⟩ := List.exists_mem_of_ne_nil _ h
    obtain ⟨line, hl, hw⟩ := List.mem_filterMap.mp hv
    obtain ⟨field, h1, h2⟩ := (wellFormedValue_eq_some PF k line v).mp hw
    exact ⟨line, hl, field, v, h1, h2⟩
  · rintro ⟨line, hl, field, v, h1, h2⟩
    have hv : v ∈ valuesOf PF k L :=
      List.mem_filterMap.mpr ⟨line, hl, (wellFormedValue_eq_some PF k line v).mpr ⟨field, h1, h2⟩⟩
    exact List.ne_nil_of_mem hv

theorem lookup_mergeEntry (F : Table) (k' k : GoString) (s : StationSummary) :
    (mergeEntry F k' s).lookup k =
      if k = k' then mergeOpt (F.lookup k) (some s) else F.lookup k := by
  unfold mergeEntry
  by_cases hk : k = k'
  · subst hk
    cases h : F.lookup k <;> simp [mergeOpt, Finmap.lookup_insert]
  · cases h : F.lookup k' <;> simp [hk, Finmap.lookup_insert_of_ne _ hk]

theorem lookup_foldl_mergeEntry (l : List (Sigma fun _ : GoString => StationSummary))
    (hl : l.NodupKeys) (F : Table) (k : GoString) :
    (l.foldl (fun d s => mergeEntry d s.1 s.2) F).lookup k =
      mergeOpt (F.lookup k) (l.dlookup k) := by
  induction l generalizing F with
  | nil => cases h : F.lookup k <;> simp [mergeOpt, h]
  | cons e rest ih =>
    obtain ⟨k', s⟩ := e
    rw [List.nodupKeys_cons] at hl
    rw [List.foldl_cons, ih hl.2, lookup_mergeEntry]
    by_cases hk : k = k'
    · subst hk
      have hnone : rest.dlookup k = none := List.dlookup_eq_none.mpr hl.1
      rw [if_pos rfl, hnone, List.dlookup_cons_eq]
      cases h : F.lookup k <;> simp [mergeOpt]
    · rw [if_neg hk, List.dlookup_cons_ne _ _ hk]

theorem lookup_mergeTable (F S : Table) (k : GoString) :
    (mergeTable F S).lookup k = mergeOpt (F.lookup k) (S.lookup k) := by
  induction S using Finmap.induction_on with
  | H a => exact lookup_foldl_mergeEntry a.entries a.nodupKeys F k

theorem mergeSummary_comm (a b : StationSummary) : mergeSummary a b = mergeSummary b a := by
  simp [mergeSummary, min_comm, max_comm, add_comm]

theorem mergeSummary_assoc (a b c : StationSummary) :
    mergeSummary (mergeSummary a b) c = mergeSummary a (mergeSummary b c) := by
  simp [mergeSummary, min_assoc, max_assoc, add_assoc]

theorem mergeOpt_none_right (a : Option StationSummary) : mergeOpt a none = a := by
  cases a <;> rfl

theorem mergeOpt_none_left (a : Option StationSummary) : mergeOpt none a = a := by
  cases a <;> rfl

theorem mergeOpt_comm (a b : Option StationSummary) : mergeOpt a b = mergeOpt b a := by
  cases a <;> cases b <;> simp [mergeOpt, mergeSummary_comm]

theorem mergeOpt_assoc (a b c : Option StationSummary) :
    mergeOpt (mergeOpt a b) c = mergeOpt a (mergeOpt b c) := by
  cases a <;> cases b <;> cases c <;> simp [mergeOpt, mergeSummary_assoc]

theorem mergeTable_comm (A B : Table) : mergeTable A B = mergeTable B A :=
  Finmap.ext_lookup fun k => by rw [lookup_mergeTable, lookup_mergeTable, mergeOpt_comm]

theorem mergeTable_assoc (A B C : Table) :
    mergeTable (mergeTable A B) C = mergeTable A (mergeTable B C) :=
  Finmap.ext_lookup fun k => by simp only [lookup_mergeTable, mergeOpt_assoc]

theorem mergeTable_empty_left (A : Table) : mergeTable ∅ A = A :=
  Finmap.ext_lookup fun k => by
    rw [lookup_mergeTable, Finmap.lookup_empty, mergeOpt_none_left]

theorem mergeTable_empty_right (A : Table) : mergeTable A ∅ = A :=
  Finmap.ext_lookup fun k => by
    rw [lookup_mergeTable, Finmap.lookup_empty, mergeOpt_none_right]

theorem mergeTable_right_comm (F A B : Table) :
    mergeTable (mergeTable F A) B = mergeTable (mergeTable F B) A := by
  rw [mergeTable_assoc, mergeTable_comm A B, ← mergeTable_assoc]

theorem foldl_mergeTable_perm (l₁ l₂ : List Table) (h : l₁.Perm l₂) (F : Table) :
    l₁.foldl mergeTable F = l₂.foldl mergeTable F := by
  induction h generalizing F with
  | nil => rfl
  | cons x _ ih => exact ih (mergeTable F x)
  | swap x y l => simp only [List.foldl_cons, mergeTable_right_comm]
  | trans _ _ ih1 ih2 => exact (ih1 F).trans (ih2 F)

/-- C2. The merge of two summaries (min of mins, max of maxes, sum of sums, sum of counts)
is commutative and associative, and so is the key-wise merge of two tables, for which the
empty table is the identity; hence `reduceSummaries` returns the same final table for a
sequence of local tables and for every permutation of it (exact arithmetic). -/
theorem reduceSummaries_order_independent :
    (∀ a b : StationSummary, mergeSummary a b = mergeSummary b a) ∧
    (∀ a b c : StationSummary,
      mergeSummary (mergeSummary a b) c = mergeSummary a (mergeSummary b c)) ∧
    (∀ A B : Table, mergeTable A B = mergeTable B A) ∧
    (∀ A B C : Table, mergeTable (mergeTable A B) C = mergeTable A (mergeTable B C)) ∧
    (∀ A : Table, mergeTable ∅ A = A ∧ mergeTable A ∅ = A) ∧
    ∀ tables tables' : List Table, tables.Perm tables' →
      reduceSummaries tables = reduceSummaries tables' :=
  ⟨mergeSummary_comm, mergeSummary_assoc, mergeTable_comm, mergeTable_assoc,
    fun A => ⟨mergeTable_empty_left A, mergeTable_empty_right A⟩,
    fun l₁ l₂ h => foldl_mergeTable_perm l₁ l₂ h ∅⟩

theorem optPos_none : OptPos none := fun _ h => by cases h

theorem optPos_mergeOpt (a b : Option StationSummary) (ha : OptPos a) (hb : OptPos b) :
    OptPos (mergeOpt a b) := by
  cases a with
  | none => simpa [mergeOpt] using hb
  | some x =>
    cases b with
    | none => simpa [mergeOpt] using ha
    | some y =>
      intro s hs
      simp only [mergeOpt, Option.some.injEq] at hs
      subst hs
      have h1 := ha x rfl
      have h2 := hb y rfl
      simp only [mergeSummary]
      omega

theorem foldValue_step (o : Option StationSummary) (v : ℚ) (ho : OptPos o) :
    some (foldValue (o.getD StationSummary.zero) v) = mergeOpt o (some ⟨v, v, v, 1⟩) := by
  cases o with
  | none => simp [mergeOpt, foldValue, StationSummary.zero]
  | some s =>
    have h1 := ho s rfl
    have hc : s.Count ≠ 0 := by omega
    simp [mergeOpt, foldValue, hc, mergeSummary]

theorem foldValues_eq_merge (o : Option StationSummary) (vs : List ℚ) (ho : OptPos o) :
    foldValues o vs = mergeOpt o (foldValues none vs) ∧ OptPos (foldValues o vs) := by
  induction vs generalizing o with
  | nil => exact ⟨by simp [foldValues, mergeOpt_none_right], ho⟩
  | cons v rest ih =>
    have hone : OptPos (some (⟨v, v, v, 1⟩ : StationSummary)) := by
      intro s hs; cases hs; exact le_refl _
    have hstep : OptPos (mergeOpt o (some ⟨v, v, v, 1⟩)) := optPos_mergeOpt _ _ ho hone
    have e1 : foldValues o (v :: rest) = foldValues (mergeOpt o (some ⟨v, v, v, 1⟩)) rest := by
      simp only [foldValues, List.foldl_cons]
      rw [foldValue_step o v ho]
    have e2 : foldValues none (v :: rest) = foldValues (some ⟨v, v, v, 1⟩) rest := by
      simp only [foldValues, List.foldl_cons]
      rw [foldValue_step none v optPos_none, mergeOpt_none_left]
    rw [e1, e2, (ih _ hstep).1, (ih _ hone).1, mergeOpt_assoc]
    refine ⟨rfl, ?_⟩
    rw [← mergeOpt_assoc, ← (ih _ hstep).1]
    exact (ih _ hstep).2

theorem valuesOf_append (PF : GoString → Option ℚ) (k : GoString) (l₁ l₂ : List GoString) :
    valuesOf PF k (l₁ ++ l₂) = valuesOf PF k l₁ ++ valuesOf PF k l₂ := by
  simp [valuesOf, List.filterMap_append]

theorem aggregate_pos (PF : GoString → Option ℚ) (k : GoString) (l : List GoString) :
    OptPos (aggregate PF k l) :=
  (foldValues_eq_merge none _ optPos_none).2

theorem aggregate_append (PF : GoString → Option ℚ) (k : GoString) (l₁ l₂ : List GoString) :
    aggregate PF k (l₁ ++ l₂) = mergeOpt (aggregate PF k l₁) (aggregate PF k l₂) := by
  unfold aggregate
  rw [valuesOf_append]
  show List.foldl _ none (_ ++ _) = _
  rw [List.foldl_append]
  exact (foldValues_eq_merge _ _ (aggregate_pos PF k l₁)).1

theorem lookup_processLines_empty (PF : GoString → Option ℚ) (l : List GoString)
    (k : GoString) : (processLines PF l ∅).lookup k = aggregate PF k l := by
  rw [lookup_processLines, Finmap.lookup_empty]; rfl

theorem processLines_append (PF : GoString → Option ℚ) (l₁ l₂ : List GoString) (t : Table) :
    processLines PF (l₁ ++ l₂) t = processLines PF l₂ (processLines PF l₁ t) := by
  simp [processLines, List.foldl_append]

theorem foldl_processLines (PF : GoString → Option ℚ) (bs : List (List GoString)) (t : Table) :
    bs.foldl (fun localSummary lines => processLines PF lines localSummary) t =
      processLines PF bs.flatten t := by
  induction bs generalizing t with
  | nil => rfl
  | cons b rest ih =>
    rw [List.foldl_cons, ih, List.flatten_cons, processLines_append]

theorem workerTable_eq (PF : GoString → Option ℚ) (bs : List (List GoString)) :
    workerTable PF bs = processLines PF bs.flatten ∅ :=
  foldl_processLines PF bs ∅

theorem lookup_foldl_mergeTable (ts : List Table) (F : Table) (k : GoString) :
    (ts.foldl mergeTable F).lookup k =
      (ts.map (Finmap.lookup k)).foldl mergeOpt (F.lookup k) := by
  induction ts generalizing F with
  | nil => rfl
  | cons t rest ih => rw [List.foldl_cons, ih, lookup_mergeTable]; rfl

theorem foldl_mergeOpt_update (g : Nat → Option StationSummary) (x : Option StationSummary)
    (W w₀ : Nat) (h : w₀ < W) :
    ((List.range W).map fun w => if w = w₀ then mergeOpt x (g w) else g w).foldl mergeOpt none =
      mergeOpt x (((List.range W).map g).foldl mergeOpt none) := by
  induction W with
  | zero => omega
  | succ W ih =>
    rw [List.range_succ, List.map_append, List.map_append, List.foldl_append, List.foldl_append]
    simp only [List.map_cons, List.map_nil, List.foldl_cons, List.foldl_nil]
    by_cases hw : w₀ = W
    · subst hw
      have hmap : ((List.range w₀).map fun w => if w = w₀ then mergeOpt x (g w) else g w) =
          (List.range w₀).map g := by
        apply List.map_congr_left
        intro w hw
        have : w ≠ w₀ := (List.mem_range.mp hw).ne
        simp [this]
      rw [hmap, if_pos rfl, ← mergeOpt_assoc, mergeOpt_comm _ x, mergeOpt_assoc]
    · have hlt : w₀ < W := by omega
      have hne : W ≠ w₀ := fun e => hw e.symm
      rw [ih hlt, if_neg hne, mergeOpt_assoc]

theorem workerLines_cons (w₀ : Nat) (b : List GoString) (T : List (Nat × List GoString))
    (w : Nat) :
    workerLines ((w₀, b) :: T) w = if w = w₀ then b ++ workerLines T w else workerLines T w := by
  unfold workerLines
  by_cases h : w = w₀
  · subst h; simp
  · have h' : ¬ w₀ = w := fun e => h e.symm
    simp [h, h']

theorem foldl_mergeOpt_none (l : List (Option StationSummary)) (h : ∀ x ∈ l, x = none) :
    l.foldl mergeOpt none = none := by
  induction l with
  | nil => rfl
  | cons x rest ih =>
    rw [List.foldl_cons, h x (List.mem_cons_self _ _), mergeOpt_none_left]
    exact ih fun y hy => h y (List.mem_cons_of_mem _ hy)

theorem aggregate_workers (PF : GoString → Option ℚ) (k : GoString) (W : Nat)
    (tagged : List (Nat × List GoString)) (htag : ∀ b ∈ tagged, b.1 < W) :
    ((List.range W).map fun w => aggregate PF k (workerLines tagged w)).foldl mergeOpt none =
      aggregate PF k (tagged.map Prod.snd).flatten := by
  induction tagged with
  | nil =>
    apply foldl_mergeOpt_none
    intro x hx
    obtain ⟨w, -, rfl⟩ := List.mem_map.mp hx
    rfl
  | cons e T ih =>
    obtain ⟨w₀, b⟩ := e
    have h0 : w₀ < W := htag (w₀, b) (List.mem_cons_self _ _)
    have hT : ∀ b ∈ T, b.1 < W := fun x hx => htag x (List.mem_cons_of_mem _ hx)
    have hfun : (fun w => aggregate PF k (workerLines ((w₀, b) :: T) w)) =
        fun w => if w = w₀ then mergeOpt (aggregate PF k b) (aggregate PF k (workerLines T w))
          else aggregate PF k (workerLines T w) := by
      funext w
      rw [workerLines_cons]
      by_cases h : w = w₀
      · rw [if_pos h, if_pos h, aggregate_append]
      · rw [if_neg h, if_neg h]
    rw [hfun, foldl_mergeOpt_update _ _ W w₀ h0, ih hT, List.map_cons, List.flatten_cons,
      aggregate_append]

theorem lookup_reduce_workerTables (PF : GoString → Option ℚ) (k : GoString) (W : Nat)
    (tagged : List (Nat × List GoString)) (htag : ∀ b ∈ tagged, b.1 < W) :
    (reduceSummaries (workerTables PF W tagged)).lookup k =
      aggregate PF k (tagged.map Prod.snd).flatten := by
  unfold reduceSummaries workerTables
  rw [lookup_foldl_mergeTable, Finmap.lookup_empty, List.map_map,
    ← aggregate_workers PF k W tagged htag]
  congr 1
  apply List.map_congr_left
  intro w _
  show (workerTable PF _).lookup k = _
  rw [workerTable_eq, lookup_processLines_empty]
  rfl

/-- An instance of C2: three local tables, reduced in their order and in the reverse
order. -/
theorem reduceSummaries_order_independent_witness :
    reduceSummaries
        [processLines parseFloat ["A;1.5".toList, "B;2".toList] ∅,
          processLines parseFloat ["A;-3".toList] ∅,
          processLines parseFloat ["B;7.25".toList, "C;0".toList] ∅] =
      reduceSummaries
        [processLines parseFloat ["A;1.5".toList, "B;2".toList] ∅,
          processLines parseFloat ["A;-3".toList] ∅,
          processLines parseFloat ["B;7.25".toList, "C;0".toList] ∅].reverse :=
  reduceSummaries_order_independent.2.2.2.2.2 _ _ (List.reverse_perm _).symm

/-! ## `round` -/

theorem round_mono {x y : ℚ} (h : x ≤ y) : round x ≤ round y := by
  unfold round
  have h1 : (x + 0.06) * 10 ≤ (y + 0.06) * 10 := by linarith
  have h2 : ⌊(x + 0.06) * 10⌋ ≤ ⌊(y + 0.06) * 10⌋ := Int.floor_mono h1
  have h3 : (⌊(x + 0.06) * 10⌋ : ℚ) ≤ (⌊(y + 0.06) * 10⌋ : ℚ) := by exact_mod_cast h2
  linarith

theorem round_tenth (k : ℤ) : round ((k : ℚ) / 10) = (k : ℚ) / 10 := by
  unfold round
  have h : ⌊((k : ℚ) / 10 + 0.06) * 10⌋ = k := by
    rw [Int.floor_eq_iff]
    constructor <;> norm_num <;> linarith
  rw [h]

theorem round_bounds (x : ℚ) :
    ∃ n : ℤ, round x = (n : ℚ) / 10 ∧ (n : ℚ) / 10 ≤ x + 0.06 ∧ x + 0.06 < ((n : ℚ) + 1) / 10 := by
  refine ⟨⌊(x + 0.06) * 10⌋, rfl, ?_, ?_⟩
  · have := Int.floor_le ((x + 0.06) * 10)
    linarith
  · have := Int.lt_floor_add_one ((x + 0.06) * 10)
    linarith

theorem lookup_processLines_summarizes (PF : GoString → Option ℚ) (L : List GoString)
    (k : GoString) (s : StationSummary) (h : (processLines PF L ∅).lookup k = some s) :
    Summarizes s (valuesOf PF k L) := by
  rw [lookup_processLines, Finmap.lookup_empty] at h
  rcases foldValues_none (valuesOf PF k L) with ⟨_, hn⟩ | ⟨s', hs, hsum⟩
  · rw [hn] at h; cases h
  · rw [hs] at h; cases h; exact hsum

/-- C8. Rounding leaves a value with exactly one fractional digit unchanged: for every
integer `k`, `round (k/10) = k/10`.  Hence, when the values of a key all have one fractional
digit, the rounded minimum and maximum of its entry are the minimum and the maximum of the
input's values.  Instances: `round 6.0 = 6.0`, `round 9.0 = 9.0`, `round 12.0 = 12.0`, and
the entry (6, 12, 27, 3) of `Hamburg` is printed as `Hamburg=6.0/9.0/12.0`. -/
theorem round_one_fractional_digit :
    (∀ k : ℤ, round ((k : ℚ) / 10) = (k : ℚ) / 10) ∧
    (∀ (ParseFloat : GoString → Option ℚ) (L : List GoString) (key : GoString)
        (s : StationSummary),
      (∀ v ∈ valuesOf ParseFloat key L, ∃ n : ℤ, v = (n : ℚ) / 10) →
      (processLines ParseFloat L ∅).lookup key = some s →
      round s.Min = s.Min ∧ round s.Max = s.Max ∧
        s.Min ∈ valuesOf ParseFloat key L ∧ (∀ v ∈ valuesOf ParseFloat key L, s.Min ≤ v) ∧
        s.Max ∈ valuesOf ParseFloat key L ∧ (∀ v ∈ valuesOf ParseFloat key L, v ≤ s.Max)) ∧
    round 6.0 = 6.0 ∧ round 9.0 = 9.0 ∧ round 12.0 = 12.0 ∧
    formatEntry "Hamburg".toList ⟨6.0, 12.0, 27.0, 3⟩ = "Hamburg=6.0/9.0/12.0".toList := by
  refine ⟨round_tenth, ?_, ?_, ?_, ?_, by decide!⟩
  · intro PF L key s hten hs
    obtain ⟨_, hmin, hlo, hmax, hhi, _, _⟩ := lookup_processLines_summarizes PF L key s hs
    obtain ⟨n, hn⟩ := hten _ hmin
    obtain ⟨m, hm⟩ := hten _ hmax
    refine ⟨?_, ?_, hmin, hlo, hmax, hhi⟩
    · rw [hn]; exact round_tenth n
    · rw [hm]; exact round_tenth m
  · have h := round_tenth 60
    norm_num at h ⊢
    exact h
  · have h := round_tenth 90
    norm_num at h ⊢
    exact h
  · have h := round_tenth 120
    norm_num at h ⊢
    exact h

/-! ## The invariant of summaries -/

theorem good_of_summarizes (s : StationSummary) (vs : List ℚ) (h : Summarizes s vs) :
    Good s := by
  obtain ⟨hne, _, hlo, _, hhi, hsum, hcnt⟩ := h
  have hlen : 0 < vs.length := List.length_pos.mpr hne
  have h1 := List.card_nsmul_le_sum vs s.Min hlo
  have h2 := List.sum_le_card_nsmul vs s.Max hhi
  rw [nsmul_eq_mul] at h1 h2
  have hc : (s.Count : ℚ) = (vs.length : ℚ) := by rw [hcnt]; norm_cast
  refine ⟨by omega, ?_, ?_⟩
  · rw [hc, hsum]; linarith
  · rw [hc, hsum]; linarith

theorem good_mergeSummary (a b : StationSummary) (ha : Good a) (hb : Good b) :
    Good (mergeSummary a b) := by
  obtain ⟨a1, a2, a3⟩ := ha
  obtain ⟨b1, b2, b3⟩ := hb
  have ca : (0 : ℚ) ≤ (a.Count : ℚ) := by exact_mod_cast (by omega : (0 : ℤ) ≤ a.Count)
  have cb : (0 : ℚ) ≤ (b.Count : ℚ) := by exact_mod_cast (by omega : (0 : ℤ) ≤ b.Count)
  refine ⟨by simp only [mergeSummary]; omega, ?_, ?_⟩
  · simp only [mergeSummary]
    push_cast
    have h1 : min a.Min b.Min * (a.Count : ℚ) ≤ a.Min * (a.Count : ℚ) :=
      mul_le_mul_of_nonneg_right (min_le_left _ _) ca
    have h2 : min a.Min b.Min * (b.Count : ℚ) ≤ b.Min * (b.Count : ℚ) :=
      mul_le_mul_of_nonneg_right (min_le_right _ _) cb
    linarith
  · simp only [mergeSummary]
    push_cast
    have h1 : a.Max * (a.Count : ℚ) ≤ max a.Max b.Max * (a.Count : ℚ) :=
      mul_le_mul_of_nonneg_right (le_max_left _ _) ca
    have h2 : b.Max * (b.Count : ℚ) ≤ max a.Max b.Max * (b.Count : ℚ) :=
      mul_le_mul_of_nonneg_right (le_max_right _ _) cb
    linarith

theorem tableGood_empty : TableGood ∅ := by
  intro k s h
  rw [Finmap.lookup_empty] at h
  cases h

theorem tableGood_processLines (PF : GoString → Option ℚ) (L : List GoString) :
    TableGood (processLines PF L ∅) :=
  fun k s h => good_of_summarizes s _ (lookup_processLines_summarizes PF L k s h)

theorem tableGood_mergeTable (A B : Table) (hA : TableGood A) (hB : TableGood B) :
    TableGood (mergeTable A B) := by
  intro k s h
  rw [lookup_mergeTable] at h
  cases ha : A.lookup k with
  | none =>
    rw [ha, mergeOpt_none_left] at h
    exact hB k s h
  | some a =>
    cases hb : B.lookup k with
    | none =>
      rw [ha, hb, mergeOpt_none_right] at h
      exact hA k s (ha.trans h)
    | some b =>
      rw [ha, hb] at h
      simp only [mergeOpt, Option.some.injEq] at h
      subst h
      exact good_mergeSummary a b (hA k a ha) (hB k b hb)

theorem tableGood_foldl (ts : List Table) (F : Table) (hF : TableGood F)
    (hts : ∀ t ∈ ts, TableGood t) : TableGood (ts.foldl mergeTable F) := by
  induction ts generalizing F with
  | nil => exact hF
  | cons t rest ih =>
    exact ih _ (tableGood_mergeTable F t hF (hts t (List.mem_cons_self _ _)))
      fun x hx => hts x (List.mem_cons_of_mem _ hx)

theorem tableGood_reduceSummaries (ts : List Table) (hts : ∀ t ∈ ts, TableGood t) :
    TableGood (reduceSummaries ts) :=
  tableGood_foldl ts ∅ tableGood_empty hts

theorem tableGood_workerTables (PF : GoString → Option ℚ) (W : Nat)
    (tagged : List (Nat × List GoString)) : ∀ t ∈ workerTables PF W tagged, TableGood t := by
  intro t ht
  obtain ⟨w, -, rfl⟩ := List.mem_map.mp ht
  rw [workerTable_eq]
  exact tableGood_processLines PF _

theorem tableGood_emittedTables (PF : GoString → Option ℚ) (mb : Int) (sched : Schedule)
    (file : File) : ∀ t ∈ emittedTables PF mb sched file, TableGood t := by
  intro t ht
  obtain ⟨cl, -, hcl⟩ := List.mem_flatMap.mp ht
  exact tableGood_workerTables PF _ _ t hcl

theorem tableGood_finalSummary (PF : GoString → Option ℚ) (mb : Int) (sched : Schedule)
    (file : File) (hv : sched.Valid) : TableGood (finalSummary PF mb sched file) := by
  apply tableGood_reduceSummaries
  intro t ht
  exact tableGood_emittedTables PF mb sched file t ((hv _).mem_iff.mp ht)

theorem good_mean (s : StationSummary) (h : Good s) :
    s.Min ≤ s.Sum / (s.Count : ℚ) ∧ s.Sum / (s.Count : ℚ) ≤ s.Max := by
  obtain ⟨h1, h2, h3⟩ := h
  have hc : (0 : ℚ) < (s.Count : ℚ) := by exact_mod_cast (by omega : (0 : ℤ) < s.Count)
  exact ⟨(le_div_iff₀ hc).mpr h2, (div_le_iff₀ hc).mpr h3⟩

theorem roundRobin_valid : Schedule.roundRobin.Valid := fun _ => List.Perm.refl _

/-! ## Malformed lines -/

theorem Split_ne_nil (sep : Char) (s : GoString) : Split sep s ≠ [] := by
  cases s with
  | nil => simp [Split]
  | cons c cs =>
    unfold Split
    split
    · simp
    · split <;> simp

theorem Split_length (sep : Char) (s : GoString) :
    (Split sep s).length = s.count sep + 1 := by
  induction s with
  | nil => simp [Split]
  | cons c cs ih =>
    unfold Split
    by_cases h : c = sep
    · subst h
      simp [ih]
    · have h' : ¬ (c == sep) = true := by simpa using h
      rw [if_neg h, List.count_cons, if_neg h']
      cases hs : Split sep cs with
      | nil => exact absurd hs (Split_ne_nil sep cs)
      | cons p ps =>
        rw [hs] at ih
        simpa using ih

theorem Split_cons_ne (sep c : Char) (cs : GoString) (h : c ≠ sep) :
    Split sep (c :: cs) =
      match Split sep cs with
      | [] => [[c]]
      | p :: ps => (c :: p) :: ps := by
  rw [Split, if_neg h]

theorem Split_of_not_mem (sep : Char) (s : GoString) (h : sep ∉ s) : Split sep s = [s] := by
  induction s with
  | nil => rfl
  | cons c cs ih =>
    have hc : c ≠ sep := fun e => h (e ▸ List.mem_cons_self _ _)
    have hcs : sep ∉ cs := fun e => h (List.mem_cons_of_mem _ e)
    rw [Split_cons_ne _ _ _ hc, ih hcs]

theorem Split_append_sep (sep : Char) (a b : GoString) (h : sep ∉ a) :
    Split sep (a ++ sep :: b) = a :: Split sep b := by
  induction a with
  | nil => simp [Split]
  | cons c cs ih =>
    have hc : c ≠ sep := fun e => h (e ▸ List.mem_cons_self _ _)
    have hcs : sep ∉ cs := fun e => h (List.mem_cons_of_mem _ e)
    show Split sep (c :: (cs ++ sep :: b)) = _
    rw [Split_cons_ne _ _ _ hc, ih hcs]

theorem processLine_of_length_ne (PF : GoString → Option ℚ) (t : Table) (line : GoString)
    (h : (Split ';' line).length ≠ 2) : processLine PF t line = t := by
  unfold processLine
  split
  · rename_i heq
    rw [heq] at h
    exact absurd rfl h
  · rfl

theorem processLine_of_parse_none (PF : GoString → Option ℚ) (t : Table)
    (line station field : GoString) (hs : Split ';' line = [station, field])
    (hp : PF field = none) : processLine PF t line = t := by
  unfold processLine
  rw [hs]
  simp [hp]

theorem processLine_of_parse_some (PF : GoString → Option ℚ) (t : Table)
    (line station field : GoString) (v : ℚ) (hs : Split ';' line = [station, field])
    (hp : PF field = some v) :
    processLine PF t line =
      t.insert station (foldValue ((t.lookup station).getD StationSummary.zero) v) := by
  unfold processLine
  rw [hs]
  simp [hp]

theorem processLine_malformed (PF : GoString → Option ℚ) (t : Table) (line : GoString)
    (h : Malformed PF line) : processLine PF t line = t := by
  rcases h with h | ⟨station, field, hs, hp⟩
  · exact processLine_of_length_ne PF t line h
  · exact processLine_of_parse_none PF t line station field hs hp

/-- C9. For every parser, every starting table and every position in a list of lines,
inserting a malformed line (the number of its `;` is not one, or its second field does not
parse as a number) leaves the table that `processLines` produces unchanged; `processLines`
is a total function, so it does not fail. -/
theorem processLines_skips_malformed (ParseFloat : GoString → Option ℚ)
    (before after : List GoString) (localSummary : Table) (bad : GoString)
    (hbad : bad.count ';' ≠ 1 ∨
      ∃ station field, Split ';' bad = [station, field] ∧ ParseFloat field = none) :
    processLines ParseFloat (before ++ bad :: after) localSummary =
      processLines ParseFloat (before ++ after) localSummary := by
  have hm : Malformed ParseFloat bad := by
    rcases hbad with h | h
    · left
      rw [Split_length]
      omega
    · exact Or.inr h
  simp only [processLines, List.foldl_append, List.foldl_cons, processLine_malformed _ _ _ hm]

/-- Instances of C9: `BadLine`, `A;1;2` and `X;notanumber` between two lines of key `A`. -/
theorem processLines_skips_malformed_witness :
    ("BadLine".toList.count ';' ≠ 1 ∧
      processLines parseFloat (["A;1.0".toList] ++ "BadLine".toList :: ["A;2.0".toList]) ∅ =
        processLines parseFloat (["A;1.0".toList] ++ ["A;2.0".toList]) ∅) ∧
    ("A;1;2".toList.count ';' ≠ 1 ∧
      processLines parseFloat (["A;1.0".toList] ++ "A;1;2".toList :: ["A;2.0".toList]) ∅ =
        processLines parseFloat (["A;1.0".toList] ++ ["A;2.0".toList]) ∅) ∧
    ((Split ';' "X;notanumber".toList = ["X".toList, "notanumber".toList] ∧
        parseFloat "notanumber".toList = none) ∧
      processLines parseFloat
          (["A;1.0".toList] ++ "X;notanumber".toList :: ["A;2.0".toList]) ∅ =
        processLines parseFloat (["A;1.0".toList] ++ ["A;2.0".toList]) ∅) :=
  ⟨⟨by decide, processLines_skips_malformed parseFloat _ _ ∅ _ (Or.inl (by decide))⟩,
    ⟨by decide, processLines_skips_malformed parseFloat _ _ ∅ _ (Or.inl (by decide))⟩,
    ⟨⟨by decide, by decide!⟩,
      processLines_skips_malformed parseFloat _ _ ∅ _
        (Or.inr ⟨"X".toList, "notanumber".toList, by decide, by decide!⟩)⟩⟩

/-- C10 fails as stated: the line `;12.0` has an empty key field, and `processLines` does not
discard it: it creates the entry (12, 12, 12, 1) under the empty key, which is printed as
`=12.0/12.0/12.0`. -/
theorem empty_key_is_recorded :
    Split ';' ";12.0".toList = [[], "12.0".toList] ∧
    (processLines parseFloat [";12.0".toList] ∅).lookup [] = some ⟨12, 12, 12, 1⟩ ∧
    processLines parseFloat [";12.0".toList] ∅ ≠ ∅ ∧
    render (processLines parseFloat [";12.0".toList] ∅) = "{=12.0/12.0/12.0}\n".toList := by
  refine ⟨by decide, by decide!, ?_, by decide!⟩
  intro h
  have h2 : (processLines parseFloat [";12.0".toList] ∅).lookup [] = none := by
    rw [h]; exact Finmap.lookup_empty _
  have h3 : (processLines parseFloat [";12.0".toList] ∅).lookup [] = some ⟨12, 12, 12, 1⟩ := by
    decide!
  rw [h3] at h2
  cases h2

/-- C10, amended. For a parser that rejects the empty string (as `strconv.ParseFloat` does)
and every table: a line that does not split on `;` into exactly two fields is discarded; a
line whose value field is empty (`key;`) is discarded; a line whose key field is empty and
whose value field parses (`;field`) is not discarded: its value is folded into the entry of
the empty key. -/
theorem processLines_field_shapes (ParseFloat : GoString → Option ℚ) (localSummary : Table)
    (hempty : ParseFloat [] = none) :
    (∀ line, (Split ';' line).length ≠ 2 → processLines ParseFloat [line] localSummary =
      localSummary) ∧
    (∀ key, processLines ParseFloat [key ++ [';']] localSummary = localSummary) ∧
    (∀ field value, ';' ∉ field → ParseFloat field = some value →
      processLines ParseFloat [';' :: field] localSummary =
        localSummary.insert []
          (foldValue ((localSummary.lookup []).getD StationSummary.zero) value)) := by
  refine ⟨fun line h => processLine_of_length_ne ParseFloat _ line h, fun key => ?_,
    fun field value hf hp => ?_⟩
  · show processLine ParseFloat localSummary (key ++ [';']) = localSummary
    by_cases hk : ';' ∈ key
    · apply processLine_of_length_ne
      rw [Split_length, List.count_append]
      have : 0 < key.count ';' := List.count_pos_iff.mpr hk
      simp
      omega
    · apply processLine_of_parse_none ParseFloat _ _ key [] _ hempty
      rw [Split_append_sep _ _ _ hk]
      rfl
  · show processLine ParseFloat localSummary (';' :: field) = _
    apply processLine_of_parse_some ParseFloat _ _ [] field value _ hp
    have := Split_append_sep ';' [] field (by simp)
    rw [Split_of_not_mem _ _ hf] at this
    exact this

/-- An instance of C10, amended: the line `X;` leaves a table unchanged. -/
theorem processLines_field_shapes_witness :
    parseFloat [] = none ∧
    processLines parseFloat ["X;".toList] (processLines parseFloat ["A;1.0".toList] ∅) =
      processLines parseFloat ["A;1.0".toList] ∅ :=
  ⟨by decide!,
    (processLines_field_shapes parseFloat (processLines parseFloat ["A;1.0".toList] ∅)
      (by decide!)).2.1 "X".toList⟩

/-! ## The order of the output -/

theorem lex_append_eq (k₁ k₂ x y : List Char) (hlt : List.Lex (· < ·) k₁ k₂)
    (hnext : ∀ c rest, k₂ = k₁ ++ c :: rest → '=' < c) :
    List.Lex (· < ·) (k₁ ++ '=' :: x) (k₂ ++ y) := by
  induction hlt with
  | nil => exact List.Lex.rel (hnext _ _ rfl)
  | cons _ ih =>
    refine List.Lex.cons (ih ?_)
    intro c rest h
    exact hnext c rest (by rw [h]; rfl)
  | rel h => exact List.Lex.rel h

theorem formatEntry_eq (k : GoString) (s : StationSummary) :
    ∃ x, formatEntry k s = k ++ '=' :: x :=
  ⟨formatFloat1 (round s.Min) ++ ['/'] ++ formatFloat1 (round (s.Sum / (s.Count : ℚ))) ++ ['/'] ++
    formatFloat1 (round s.Max), by simp [formatEntry]⟩

theorem formatEntry_lt (k₁ k₂ : GoString) (s₁ s₂ : StationSummary) (hlt : k₁ < k₂)
    (hnext : ∀ c rest, k₂ = k₁ ++ c :: rest → '=' < c) :
    formatEntry k₁ s₁ < formatEntry k₂ s₂ := by
  obtain ⟨x, hx⟩ := formatEntry_eq k₁ s₁
  obtain ⟨y, hy⟩ := formatEntry_eq k₂ s₂
  rw [hx, hy]
  exact lex_append_eq k₁ k₂ x ('=' :: y) hlt hnext

theorem pair_sublist_of_sorted (l : List GoString) (a b : GoString)
    (hs : l.Sorted (· ≤ ·)) (ha : a ∈ l) (hb : b ∈ l) (hab : a < b) : List.Sublist [a, b] l := by
  induction l with
  | nil => cases ha
  | cons x rest ih =>
    rw [List.sorted_cons] at hs
    rcases List.mem_cons.mp ha with rfl | ha'
    · rcases List.mem_cons.mp hb with rfl | hb'
      · exact absurd hab (lt_irrefl _)
      · exact List.Sublist.cons₂ _ (List.singleton_sublist.mpr hb')
    · rcases List.mem_cons.mp hb with rfl | hb'
      · exact absurd (hs.1 a ha') (not_le.mpr hab)
      · exact List.Sublist.cons _ (ih hs.2 ha' hb')

theorem mem_outputLines (T : Table) (line : GoString) :
    line ∈ outputLines T ↔ ∃ k s, T.lookup k = some s ∧ line = formatEntry k s := by
  unfold outputLines
  rw [Multiset.mem_sort, Multiset.mem_map]
  constructor
  · rintro ⟨⟨k, s⟩, he, rfl⟩
    exact ⟨k, s, Finmap.mem_lookup_iff.mpr he, rfl⟩
  · rintro ⟨k, s, hl, rfl⟩
    exact ⟨⟨k, s⟩, Finmap.mem_lookup_iff.mp hl, rfl⟩

/-- C6 fails as stated: for the keys `A` and `A1` the entry of `A1` is printed before the
entry of `A`, although `A` is less than `A1`: the byte `1` is less than the byte `=`. -/
theorem output_not_in_key_order :
    render (processLines parseFloat ["A;1.0".toList, "A1;2.0".toList] ∅) =
      "{A1=2.0/2.0/2.0, A=1.0/1.0/1.0}\n".toList ∧
    "A".toList < "A1".toList := by
  constructor
  · decide!
  · decide

/-- C6, amended. For every final table the printed entries are the texts
`key=min/mean/max` of its entries in ascending lexicographic order of these texts.  For
two keys `k₁ < k₂` of the table the entry of `k₁` is printed before the entry of `k₂`,
provided that, when `k₁` is a proper prefix of `k₂`, the byte of `k₂` that follows the
prefix is greater than `=`. -/
theorem output_sorted_by_line (T : Table) :
    (outputLines T).Sorted (· ≤ ·) ∧
    (∀ line, line ∈ outputLines T ↔ ∃ k s, T.lookup k = some s ∧ line = formatEntry k s) ∧
    ∀ k₁ k₂ s₁ s₂, T.lookup k₁ = some s₁ → T.lookup k₂ = some s₂ → k₁ < k₂ →
      (∀ c rest, k₂ = k₁ ++ c :: rest → '=' < c) →
      List.Sublist [formatEntry k₁ s₁, formatEntry k₂ s₂] (outputLines T) := by
  have hsorted : (outputLines T).Sorted (· ≤ ·) := Multiset.sort_sorted _ _
  refine ⟨hsorted, mem_outputLines T, ?_⟩
  intro k₁ k₂ s₁ s₂ h₁ h₂ hlt hnext
  exact pair_sublist_of_sorted _ _ _ hsorted
    ((mem_outputLines T _).mpr ⟨k₁, s₁, h₁, rfl⟩)
    ((mem_outputLines T _).mpr ⟨k₂, s₂, h₂, rfl⟩)
    (formatEntry_lt k₁ k₂ s₁ s₂ hlt hnext)

/-! ## The pipeline of `main` -/

theorem drop_take_append_drop (l : List GoString) (i n : Nat) (h : i ≤ n) :
    (l.take n).drop i ++ l.drop n = l.drop i := by
  by_cases hn : n ≤ l.length
  · have hlen : i ≤ (l.take n).length := by rw [List.length_take]; omega
    conv_rhs => rw [← List.take_append_drop n l]
    rw [List.drop_append_of_le_length hlen]
  · have hn' : l.length ≤ n := by omega
    rw [List.take_of_length_le hn', List.drop_of_length_le hn', List.append_nil]

theorem flatten_dispatch (lines : List GoString) (size : Nat) (hsize : 0 < size) (fuel i : Nat)
    (hfuel : lines.length ≤ i + fuel) :
    (dispatch lines size fuel i).flatten = lines.drop i := by
  induction fuel generalizing i with
  | zero =>
    rw [List.drop_of_length_le (by omega)]
    rfl
  | succ fuel ih =>
    unfold dispatch
    by_cases hi : i < lines.length
    · rw [if_pos hi, List.flatten_cons, ih (i + size) (by omega)]
      by_cases hn : i + size ≤ lines.length
      · rw [min_eq_left hn]
        exact drop_take_append_drop lines i (i + size) (by omega)
      · rw [min_eq_right (by omega), List.take_length,
          List.drop_of_length_le (by omega : lines.length ≤ i + size), List.append_nil]
    · rw [if_neg hi, List.drop_of_length_le (by omega)]
      rfl

theorem flatten_subBatches (lines : List GoString) : (subBatches lines).flatten = lines := by
  unfold subBatches
  cases hl : lines.length with
  | zero =>
    rw [List.length_eq_zero] at hl
    subst hl
    rfl
  | succ n =>
    have hsize : 0 < (n + 1 + numWorkers - 1) / numWorkers := by
      apply Nat.div_pos
      · simp only [numWorkers]; omega
      · simp only [numWorkers]; omega
    have := flatten_dispatch lines _ hsize (n + 1) 0 (by omega)
    rw [this]
    rfl

theorem foldl_mergeOpt_init (l : List (Option StationSummary)) (a : Option StationSummary) :
    l.foldl mergeOpt a = mergeOpt a (l.foldl mergeOpt none) := by
  induction l generalizing a with
  | nil => exact (mergeOpt_none_right a).symm
  | cons x rest ih =>
    rw [List.foldl_cons, List.foldl_cons, ih (mergeOpt a x), ih (mergeOpt none x),
      mergeOpt_none_left, mergeOpt_assoc]

theorem lookup_reduce_chunkTables (PF : GoString → Option ℚ) (sched : Schedule) (c : Nat)
    (lines : List GoString) (k : GoString) :
    ((chunkTables PF sched c lines).map (Finmap.lookup k)).foldl mergeOpt none =
      aggregate PF k lines := by
  have h := lookup_reduce_workerTables PF k numWorkers
    ((subBatches lines).enum.map fun b => (sched.assign c b.1 % numWorkers, b.2))
    (by
      intro b hb
      obtain ⟨x, -, rfl⟩ := List.mem_map.mp hb
      exact Nat.mod_lt _ (by decide))
  unfold reduceSummaries at h
  rw [lookup_foldl_mergeTable, Finmap.lookup_empty] at h
  have hsnd : (((subBatches lines).enum.map fun b =>
      (sched.assign c b.1 % numWorkers, b.2)).map Prod.snd) = subBatches lines := by
    rw [List.map_map]
    have : (Prod.snd ∘ fun b : Nat × List GoString => (sched.assign c b.1 % numWorkers, b.2)) =
        Prod.snd := rfl
    rw [this, List.enum_map_snd]
  rw [hsnd, flatten_subBatches] at h
  exact h

theorem lookup_reduce_flatMap (PF : GoString → Option ℚ) (sched : Schedule) (k : GoString)
    (chunks : List (Nat × List GoString)) :
    (((chunks.flatMap fun cl => chunkTables PF sched cl.1 cl.2).map
        (Finmap.lookup k)).foldl mergeOpt none) =
      aggregate PF k (chunks.map Prod.snd).flatten := by
  induction chunks with
  | nil => rfl
  | cons cl rest ih =>
    rw [List.flatMap_cons, List.map_append, List.foldl_append, foldl_mergeOpt_init, ih,
      lookup_reduce_chunkTables, List.map_cons, List.flatten_cons, aggregate_append]

/-- For a valid schedule the final table is the table `processLines` builds from the lines
of all chunks read, in order. -/
theorem finalSummary_eq_processLines (PF : GoString → Option ℚ) (mb : Int) (sched : Schedule)
    (file : File) (hv : sched.Valid) :
    finalSummary PF mb sched file =
      processLines PF (readChunks mb (file.content.length + 1) file).flatten ∅ := by
  unfold finalSummary
  have hp := foldl_mergeTable_perm _ _ (hv (emittedTables PF mb sched file)) ∅
  show reduceSummaries _ = _
  unfold reduceSummaries
  rw [hp]
  apply Finmap.ext_lookup
  intro k
  rw [lookup_foldl_mergeTable, Finmap.lookup_empty, lookup_processLines_empty]
  unfold emittedTables
  rw [lookup_reduce_flatMap, List.enum_map_snd]

/-- C3 fails on the code.  The file `A;1.0\nB;2.0\n` read with `chunkSizeMB = 0` (every
line ends a chunk) yields the single chunk `[A;1.0]`: the scanner of the first `readChunk`
has read the whole file into its buffer, and the second `readChunk` starts a new scanner
at the end of the file.  Read with `chunkSizeMB = 1` the file yields one chunk with both
lines.  For every valid schedule `main` prints `{A=1.0/1.0/1.0}` in the first case and
`{A=1.0/1.0/1.0, B=2.0/2.0/2.0}` in the second. -/
theorem chunk_limit_changes_output (sched : Schedule) (hsched : sched.Valid) :
    readChunks 0 13 ⟨"A;1.0\nB;2.0\n".toList, 0, none⟩ = [["A;1.0".toList]] ∧
    readChunks 1 13 ⟨"A;1.0\nB;2.0\n".toList, 0, none⟩ =
      [["A;1.0".toList, "B;2.0".toList]] ∧
    mainOutput parseFloat 0 sched ⟨"A;1.0\nB;2.0\n".toList, 0, none⟩ =
      "{A=1.0/1.0/1.0}\n".toList ∧
    mainOutput parseFloat 1 sched ⟨"A;1.0\nB;2.0\n".toList, 0, none⟩ =
      "{A=1.0/1.0/1.0, B=2.0/2.0/2.0}\n".toList := by
  refine ⟨by decide!, by decide!, ?_, ?_⟩
  · unfold mainOutput
    rw [finalSummary_eq_processLines _ _ _ _ hsched]
    decide!
  · unfold mainOutput
    rw [finalSummary_eq_processLines _ _ _ _ hsched]
    decide!

/-- An instance of C3: the schedule in which sub-batch `j` goes to worker `j` and the tables
arrive in the order of emission. -/
theorem chunk_limit_changes_output_witness :
    Schedule.roundRobin.Valid ∧
    mainOutput parseFloat 0 Schedule.roundRobin ⟨"A;1.0\nB;2.0\n".toList, 0, none⟩ =
      "{A=1.0/1.0/1.0}\n".toList ∧
    mainOutput parseFloat 1 Schedule.roundRobin ⟨"A;1.0\nB;2.0\n".toList, 0, none⟩ =
      "{A=1.0/1.0/1.0, B=2.0/2.0/2.0}\n".toList :=
  ⟨roundRobin_valid, (chunk_limit_changes_output _ roundRobin_valid).2.2⟩

/-- An instance of C6, amended: the key `A` is a proper prefix of the key `AB`, the byte
`B` is greater than `=`, and the entry of `A` is printed before the entry of `AB`. -/
theorem output_sorted_by_line_witness :
    List.Sublist
      [formatEntry "A".toList ⟨1, 1, 1, 1⟩, formatEntry "AB".toList ⟨2, 2, 2, 1⟩]
      (outputLines (processLines parseFloat ["AB;2".toList, "A;1".toList] ∅)) :=
  (output_sorted_by_line (processLines parseFloat ["AB;2".toList, "A;1".toList] ∅)).2.2
    "A".toList "AB".toList ⟨1, 1, 1, 1⟩ ⟨2, 2, 2, 1⟩ (by decide!) (by decide!) (by decide)
    (by
      intro c rest h
      have hc : c = 'B' := by
        have h' : ['A', 'B'] = 'A' :: c :: rest := h
        simp only [List.cons.injEq, true_and] at h'
        exact h'.1.symm
      rw [hc]
      decide)

/-! ## Steps of `(*Scanner).Scan` -/

theorem ScanLines_of_mem (data : List Char) (b : Bool) (h : '\n' ∈ data) :
    ScanLines data b =
      (data.indexOf '\n' + 1, some (dropCR (data.take (data.indexOf '\n')))) := by
  have hne : data ≠ [] := List.ne_nil_of_mem h
  have hlt : data.indexOf '\n' < data.length := List.indexOf_lt_length.mpr h
  simp [ScanLines, hne, hlt]

theorem ScanLines_of_not_mem_false (data : List Char) (h : '\n' ∉ data) :
    ScanLines data false = (0, none) := by
  have hlt : ¬ data.indexOf '\n' < data.length := fun e => h (List.indexOf_lt_length.mp e)
  simp [ScanLines, hlt]

theorem ScanLines_of_not_mem_true (data : List Char) (h : '\n' ∉ data) (hne : data ≠ []) :
    ScanLines data true = (data.length, some (dropCR data)) := by
  have hlt : ¬ data.indexOf '\n' < data.length := fun e => h (List.indexOf_lt_length.mp e)
  simp [ScanLines, hlt, hne]

theorem ScanLines_nil (b : Bool) : ScanLines [] b = (0, none) := by
  cases b <;> simp [ScanLines]

theorem Scan_token (fuel : Nat) (s : Scanner) (f : File) (adv : Nat) (token : GoString)
    (h : s.data ≠ [] ∨ s.err.isSome = true)
    (ht : ScanLines s.data s.err.isSome = (adv, some token)) :
    Scanner.Scan (fuel + 1) s f =
      (some token, { s with start := s.start + adv, data := s.data.drop adv }, f) := by
  rw [Scanner.Scan]
  simp only [h, if_true, ht]

theorem Scan_stop (fuel : Nat) (s : Scanner) (f : File) (e : IOErr)
    (herr : s.err = some e) (hd : s.data = []) :
    Scanner.Scan (fuel + 1) s f = (none, { s with start := 0, data := [] }, f) := by
  rw [Scanner.Scan]
  simp [herr, hd, ScanLines_nil]

theorem Scan_tooLong (fuel : Nat) (s : Scanner) (f : File)
    (herr : s.err = none) (hnl : '\n' ∉ s.data)
    (hfits : s.start + s.data.length ≤ s.bufLen) (hcap : s.bufLen ≤ maxTokenSize)
    (hlen : maxTokenSize ≤ s.data.length) :
    Scanner.Scan (fuel + 1) s f = (none, { s with err := some IOErr.ErrTooLong }, f) := by
  have h0 : s.start = 0 := by omega
  have hb : s.data.length = s.bufLen := by omega
  have hm : maxTokenSize ≤ s.bufLen := by omega
  rw [Scanner.Scan]
  simp [herr, ScanLines_of_not_mem_false _ hnl, h0, hb, hm]

theorem Scan_read (fuel : Nat) (s : Scanner) (f : File)
    (herr : s.err = none) (hnl : '\n' ∉ s.data)
    (hfits : s.start + s.data.length ≤ s.bufLen) (hcap : s.bufLen ≤ maxTokenSize)
    (hlen : s.data.length < maxTokenSize) :
    ∃ B st n, 0 < n ∧ st + s.data.length + n = B ∧ B ≤ maxTokenSize ∧
      Scanner.Scan (fuel + 1) s f =
        Scanner.Scan fuel ⟨B, st, s.data ++ (f.Read n).1, (f.Read n).2.1⟩ (f.Read n).2.2 := by
  rw [Scanner.Scan]
  simp only [herr, Option.isSome_none, Bool.false_eq_true, or_false,
    ScanLines_of_not_mem_false _ hnl, ite_self, if_false]
  by_cases hshift : 0 < s.start ∧ (s.start + s.data.length = s.bufLen ∨ s.bufLen / 2 < s.start)
  · -- shifted: start = 0, not full
    have hnf : ¬ (0 + s.data.length = s.bufLen) := by omega
    refine ⟨s.bufLen, 0, s.bufLen - (0 + s.data.length), by omega, by omega, hcap, ?_⟩
    simp only [if_pos hshift, hnf, if_false]
  · by_cases hfull : s.start + s.data.length = s.bufLen
    · have h0 : s.start = 0 := by
        by_contra hne
        exact hshift ⟨Nat.pos_of_ne_zero hne, Or.inl hfull⟩
      have hm : ¬ maxTokenSize ≤ s.bufLen := by omega
      refine ⟨min (if s.bufLen * 2 = 0 then startBufSize else s.bufLen * 2) maxTokenSize, 0,
        min (if s.bufLen * 2 = 0 then startBufSize else s.bufLen * 2) maxTokenSize -
          s.data.length, ?_, ?_, min_le_right _ _, ?_⟩
      · simp only [startBufSize, maxTokenSize] at *
        split <;> omega
      · simp only [startBufSize, maxTokenSize] at *
        split <;> omega
      · simp only [if_neg hshift, if_pos hfull, if_neg hm]
    · refine ⟨s.bufLen, s.start, s.bufLen - (s.start + s.data.length), by omega, by omega,
        hcap, ?_⟩
      simp only [if_neg hshift, if_neg hfull]

/-! ## The scanner on a file that reads without failure -/

theorem Read_of_lt (f : File) (n : Nat) (hf : f.failAt = none) (hn : 0 < n)
    (hpos : f.pos < f.content.length) :
    (f.Read n).2.1 = none ∧ (f.Read n).2.2.content = f.content ∧
      (f.Read n).2.2.failAt = none ∧
      (f.Read n).2.2.pos = f.pos + (f.Read n).1.length ∧
      0 < (f.Read n).1.length ∧ (f.Read n).1.length ≤ n ∧
      (f.Read n).1 ++ f.content.drop (f.Read n).2.2.pos = f.content.drop f.pos := by
  have hr : f.readable = f.content.length := by simp [File.readable, hf]
  have hn0 : n ≠ 0 := by omega
  have e : f.Read n = ((f.content.drop f.pos).take (min n (f.content.length - f.pos)), none,
      { f with pos := f.pos + ((f.content.drop f.pos).take
        (min n (f.content.length - f.pos))).length }) := by
    simp [File.Read, hn0, hr, hpos]
  rw [e]
  have hl : ((f.content.drop f.pos).take (min n (f.content.length - f.pos))).length =
      min n (f.content.length - f.pos) := by
    rw [List.length_take, List.length_drop]
    omega
  refine ⟨rfl, rfl, hf, rfl, by rw [hl]; omega, by rw [hl]; omega, ?_⟩
  show _ ++ f.content.drop (f.pos + _) = _
  rw [← List.drop_drop, hl]
  exact List.take_append_drop _ _

theorem Read_of_ge (f : File) (n : Nat) (hf : f.failAt = none) (hn : 0 < n)
    (hpos : f.content.length ≤ f.pos) :
    f.Read n = ([], some IOErr.EOF, f) := by
  have hr : f.readable = f.content.length := by simp [File.readable, hf]
  have hn0 : n ≠ 0 := by omega
  have h1 : ¬ f.pos < f.content.length := by omega
  simp [File.Read, hn0, hr, h1]

theorem nextToken_of_ne_nil (R : List Char) (h : R ≠ []) :
    nextToken R = some (dropCR (R.take (R.indexOf '\n'))) := by
  simp [nextToken, h]

theorem Scan_spec (fuel : Nat) : ∀ (s : Scanner) (f : File), ScanInv s f →
    (remaining s f).indexOf '\n' < maxTokenSize →
    (if s.err = none then f.content.length - f.pos + 2 else 1) ≤ fuel →
    ∃ s' f', Scanner.Scan fuel s f = (nextToken (remaining s f), s', f') ∧ ScanInv s' f' ∧
      f'.content = f.content ∧ f.pos ≤ f'.pos ∧
      remaining s' f' = (remaining s f).drop ((remaining s f).indexOf '\n' + 1) := by
  induction fuel with
  | zero =>
    intro s f _ _ hfuel
    split at hfuel <;> omega
  | succ fuel ih =>
    intro s f hinv hline hfuel
    obtain ⟨hfail, hfits, hcap, herr⟩ := hinv
    by_cases hnl : '\n' ∈ s.data
    · -- a complete line is buffered
      have hne : s.data ≠ [] := List.ne_nil_of_mem hnl
      have hi : s.data.indexOf '\n' < s.data.length := List.indexOf_lt_length.mpr hnl
      have hR : (remaining s f).indexOf '\n' = s.data.indexOf '\n' := by
        unfold remaining
        exact List.indexOf_append_of_mem hnl
      have hRne : remaining s f ≠ [] := by
        unfold remaining
        simp [hne]
      refine ⟨Scanner.mk s.bufLen (s.start + (s.data.indexOf '\n' + 1))
          (s.data.drop (s.data.indexOf '\n' + 1)) s.err, f, ?_, ?_, rfl, le_refl _, ?_⟩
      · rw [Scan_token fuel s f _ _ (Or.inl hne) (ScanLines_of_mem s.data _ hnl),
          nextToken_of_ne_nil _ hRne, hR]
        unfold remaining
        rw [List.take_append_of_le_length (by omega)]
      · refine ⟨hfail, ?_, hcap, herr⟩
        show s.start + (s.data.indexOf '\n' + 1) + (s.data.drop _).length ≤ s.bufLen
        rw [List.length_drop]
        omega
      · rw [hR]
        unfold remaining
        show s.data.drop _ ++ _ = _
        rw [List.drop_append_of_le_length (by omega)]
    · rcases herr with herr | ⟨herr, hpos⟩
      · -- no error yet: read more
        have hlen : s.data.length < maxTokenSize := by
          have : (remaining s f).indexOf '\n' =
              s.data.length + (f.content.drop f.pos).indexOf '\n' := by
            unfold remaining
            exact List.indexOf_append_of_not_mem hnl
          omega
        obtain ⟨B, st, n, hn, hB, hBcap, hstep⟩ :=
          Scan_read fuel s f herr hnl hfits hcap hlen
        rw [if_pos herr] at hfuel
        by_cases hp : f.pos < f.content.length
        · obtain ⟨r1, r2, r3, r4, r5, r6, r7⟩ := Read_of_lt f n hfail hn hp
          have hrem : remaining ⟨B, st, s.data ++ (f.Read n).1, (f.Read n).2.1⟩ (f.Read n).2.2 =
              remaining s f := by
            unfold remaining
            show (s.data ++ (f.Read n).1) ++ _ = _
            rw [r2, List.append_assoc, r7]
          have hinv2 : ScanInv ⟨B, st, s.data ++ (f.Read n).1, (f.Read n).2.1⟩
              (f.Read n).2.2 := by
            refine ⟨r3, ?_, hBcap, Or.inl r1⟩
            show st + (s.data ++ (f.Read n).1).length ≤ B
            rw [List.length_append]
            omega
          obtain ⟨s', f', h1, h2, h3, h4, h5⟩ := ih _ _ hinv2 (by rw [hrem]; exact hline)
            (by
              show (if (f.Read n).2.1 = none then _ else 1) ≤ fuel
              rw [if_pos r1, r2, r4]
              omega)
          refine ⟨s', f', ?_, h2, h3.trans r2, ?_, ?_⟩
          · rw [hstep, h1, hrem]
          · rw [r4] at h4; omega
          · rw [h5, hrem]
        · have hr := Read_of_ge f n hfail hn (by omega)
          rw [hr] at hstep
          have hrem : remaining ⟨B, st, s.data ++ [], some IOErr.EOF⟩ f = remaining s f := by
            unfold remaining
            show (s.data ++ []) ++ _ = _
            rw [List.append_nil]
          have hinv2 : ScanInv ⟨B, st, s.data ++ [], some IOErr.EOF⟩ f := by
            refine ⟨hfail, ?_, hBcap, Or.inr ⟨rfl, by omega⟩⟩
            show st + (s.data ++ []).length ≤ B
            rw [List.append_nil]
            omega
          obtain ⟨s', f', h1, h2, h3, h4, h5⟩ := ih _ _ hinv2 (by rw [hrem]; exact hline)
            (by
              show (if (some IOErr.EOF : Option IOErr) = none then _ else 1) ≤ fuel
              rw [if_neg (by simp)]
              omega)
          exact ⟨s', f', by rw [hstep, h1, hrem], h2, h3, h4, by rw [h5, hrem]⟩
      · -- the end of the file has been seen
        have hrest : f.content.drop f.pos = [] := List.drop_of_length_le hpos
        have hR : remaining s f = s.data := by
          unfold remaining
          rw [hrest, List.append_nil]
        have hsome : s.err.isSome = true := by rw [herr]; rfl
        by_cases hd : s.data = []
        · refine ⟨Scanner.mk s.bufLen 0 [] s.err, f, ?_, ?_, rfl, le_refl _, ?_⟩
          · rw [Scan_stop fuel s f _ herr hd, hR, hd]
            rfl
          · exact ⟨hfail, Nat.zero_le _, hcap, Or.inr ⟨herr, hpos⟩⟩
          · rw [hR, hd]
            unfold remaining
            rw [hrest]
            rfl
        · have hidx : s.data.indexOf '\n' = s.data.length := List.indexOf_of_not_mem hnl
          have hsl : ScanLines s.data s.err.isSome = (s.data.length, some (dropCR s.data)) := by
            rw [hsome]
            exact ScanLines_of_not_mem_true s.data hnl hd
          refine ⟨Scanner.mk s.bufLen (s.start + s.data.length)
              (s.data.drop s.data.length) s.err, f, ?_, ?_, rfl, le_refl _, ?_⟩
          · rw [Scan_token fuel s f _ _ (Or.inl hd) hsl, hR, nextToken_of_ne_nil _ hd, hidx,
              List.take_length]
          · refine ⟨hfail, ?_, hcap, Or.inr ⟨herr, hpos⟩⟩
            show s.start + s.data.length + (s.data.drop s.data.length).length ≤ s.bufLen
            rw [List.length_drop]
            omega
          · rw [hR, hidx]
            unfold remaining
            show s.data.drop s.data.length ++ _ = _
            rw [hrest, List.drop_length, List.drop_of_length_le (by omega)]
            rfl

/-! ## The lines of a byte sequence -/

theorem Split_of_mem (sep : Char) (R : List Char) (h : sep ∈ R) :
    Split sep R = R.take (R.indexOf sep) :: Split sep (R.drop (R.indexOf sep + 1)) := by
  induction R with
  | nil => cases h
  | cons c cs ih =>
    by_cases hc : c = sep
    · subst hc
      rw [List.indexOf_cons_self]
      simp [Split]
    · have hcs : sep ∈ cs := by
        rcases List.mem_cons.mp h with h' | h'
        · exact absurd h'.symm hc
        · exact h'
      rw [Split_cons_ne _ _ _ hc, ih hcs, List.indexOf_cons_ne _ hc]
      rfl

theorem rawLines_nil : rawLines [] = [] := by decide

theorem rawLines_of_ne_nil (R : List Char) (h : R ≠ []) :
    rawLines R = R.take (R.indexOf '\n') :: rawLines (R.drop (R.indexOf '\n' + 1)) := by
  by_cases hnl : '\n' ∈ R
  · have hs := Split_of_mem '\n' R hnl
    have hne := Split_ne_nil '\n' (R.drop (R.indexOf '\n' + 1))
    unfold rawLines
    rw [hs]
    cases hrest : Split '\n' (R.drop (R.indexOf '\n' + 1)) with
    | nil => exact absurd hrest hne
    | cons p ps =>
      rw [List.getLast?_cons_cons, List.dropLast_cons₂]
      split <;> rfl
  · have hs := Split_of_not_mem '\n' R hnl
    have hidx : R.indexOf '\n' = R.length := List.indexOf_of_not_mem hnl
    have hlast : ¬ ([R] : List (List Char)).getLast? = some [] := by
      simp [h]
    unfold rawLines
    rw [hs, if_neg hlast, hidx, List.take_length, List.drop_of_length_le (by omega)]
    rfl

theorem fileLines_nil : fileLines [] = [] := by decide

theorem fileLines_of_ne_nil (R : List Char) (h : R ≠ []) :
    fileLines R =
      dropCR (R.take (R.indexOf '\n')) :: fileLines (R.drop (R.indexOf '\n' + 1)) := by
  unfold fileLines
  rw [rawLines_of_ne_nil R h]
  rfl

theorem fileLines_eq_nil (R : List Char) : fileLines R = [] ↔ R = [] := by
  constructor
  · intro h
    by_contra hne
    rw [fileLines_of_ne_nil R hne] at h
    cases h
  · rintro rfl
    exact fileLines_nil

theorem length_dropCR_le (data : List Char) : (dropCR data).length ≤ data.length := by
  unfold dropCR
  split
  · rw [List.length_dropLast]; omega
  · exact le_refl _

theorem shortLines_drop (R : List Char) (k : Nat) (h : ShortLines R) :
    ShortLines (R.drop k) := by
  intro j
  rw [List.drop_drop]
  exact h _

theorem shortLines_of_length_lt (R : List Char) (h : R.length < maxTokenSize) :
    ShortLines R := by
  intro k
  have h1 : (R.drop k).indexOf '\n' ≤ (R.drop k).length := List.indexOf_le_length
  rw [List.length_drop] at h1
  omega

/-! ## The chunk that `readChunk` returns -/

theorem wrapInt_of_bounds (x : Int) (h0 : 0 ≤ x) (h1 : x < 2 ^ 63) : wrapInt x = x := by
  unfold wrapInt
  have e : (x + 2 ^ 63) % 2 ^ 64 = x + 2 ^ 63 := Int.emod_eq_of_lt (by omega) (by omega)
  rw [e]
  omega

theorem takeChunk_eq_nil (L rb : Int) (ls : List GoString) :
    takeChunk L rb ls = [] ↔ ls = [] := by
  cases ls with
  | nil => simp [takeChunk]
  | cons l rest =>
    unfold takeChunk
    split <;> simp

theorem takeChunk_prefix (L : Int) (ls : List GoString) (rb : Int) :
    ∃ rest, ls = takeChunk L rb ls ++ rest ∧
      (L ≤ rb + chunkBytes (takeChunk L rb ls) ∨ rest = []) := by
  induction ls generalizing rb with
  | nil => exact ⟨[], rfl, Or.inr rfl⟩
  | cons l rest ih =>
    unfold takeChunk
    by_cases h : L ≤ rb + ((l.length : Int) + 1)
    · rw [if_pos h]
      exact ⟨rest, rfl, Or.inl (by simpa [chunkBytes] using h)⟩
    · rw [if_neg h]
      obtain ⟨r, h1, h2⟩ := ih (rb + ((l.length : Int) + 1))
      refine ⟨r, by rw [List.cons_append, ← h1], ?_⟩
      rcases h2 with h2 | h2
      · left
        simp only [chunkBytes, List.map_cons, List.sum_cons] at h2 ⊢
        omega
      · exact Or.inr h2

theorem takeChunk_dropLast (L : Int) (ls : List GoString) (rb : Int) (h : rb < L) :
    rb + chunkBytes (takeChunk L rb ls).dropLast < L := by
  induction ls generalizing rb with
  | nil => simpa [takeChunk, chunkBytes] using h
  | cons l rest ih =>
    unfold takeChunk
    by_cases hl : L ≤ rb + ((l.length : Int) + 1)
    · rw [if_pos hl]
      simpa [chunkBytes] using h
    · rw [if_neg hl]
      have ih' := ih (rb + ((l.length : Int) + 1)) (by omega)
      cases hr : takeChunk L (rb + ((l.length : Int) + 1)) rest with
      | nil =>
        simp only [List.dropLast_single, chunkBytes, List.map_nil, List.sum_nil]
        omega
      | cons x xs =>
        rw [hr] at ih'
        rw [List.dropLast_cons₂]
        simp only [chunkBytes, List.map_cons, List.sum_cons] at ih' ⊢
        omega

theorem readChunkLoop_spec (limit : Int) (fuel : Nat) :
    ∀ (s : Scanner) (f : File) (lines : List GoString) (rb : Int), ScanInv s f →
    ShortLines (remaining s f) → (remaining s f).length + 1 ≤ fuel → 0 ≤ rb →
    (remaining s f ≠ [] → rb + ((remaining s f).length : Int) + 1 < 2 ^ 63) →
    ∃ s' f', readChunkLoop limit fuel s f lines rb =
        (lines ++ takeChunk limit rb (fileLines (remaining s f)), s', f') ∧
      ScanInv s' f' ∧ f'.content = f.content ∧ f.pos ≤ f'.pos ∧
      (remaining s' f').length ≤ (remaining s f).length ∧
      (remaining s f ≠ [] → (remaining s' f').length < (remaining s f).length) := by
  induction fuel with
  | zero => intro s f lines rb _ _ h; omega
  | succ fuel ih =>
    intro s f lines rb hinv hshort hfuel hrb hover
    have hline : (remaining s f).indexOf '\n' < maxTokenSize := by
      have := hshort 0
      rwa [List.drop_zero] at this
    obtain ⟨s1, f1, hscan, hinv1, hc1, hp1, hrem1⟩ :=
      Scan_spec (f.content.length + 3) s f hinv hline (by split <;> omega)
    rw [readChunkLoop, hscan]
    by_cases hR : remaining s f = []
    · have hnt : nextToken (remaining s f) = none := by simp [nextToken, hR]
      rw [hnt]
      refine ⟨s1, f1, ?_, hinv1, hc1, hp1, ?_, fun h => absurd hR h⟩
      · rw [hR, fileLines_nil]
        simp [takeChunk]
      · rw [hrem1, hR]
        simp
    · have hnt := nextToken_of_ne_nil _ hR
      rw [hnt]
      have hfl := fileLines_of_ne_nil _ hR
      have hRlen : 0 < (remaining s f).length := List.length_pos.mpr hR
      have hidx : (remaining s f).indexOf '\n' ≤ (remaining s f).length :=
        List.indexOf_le_length
      have hll : (dropCR ((remaining s f).take ((remaining s f).indexOf '\n'))).length ≤
          (remaining s f).indexOf '\n' :=
        le_trans (length_dropCR_le _) (by rw [List.length_take]; omega)
      have hover' := hover hR
      have hw : wrapInt (rb +
          (((dropCR ((remaining s f).take ((remaining s f).indexOf '\n'))).length : Int) + 1)) =
          rb + (((dropCR ((remaining s f).take ((remaining s f).indexOf '\n'))).length : Int) + 1) :=
        wrapInt_of_bounds _ (by omega) (by omega)
      have hlen1 : (remaining s1 f1).length =
          (remaining s f).length - ((remaining s f).indexOf '\n' + 1) := by
        rw [hrem1, List.length_drop]
      simp only [hw]
      by_cases hlim : limit ≤ rb +
          (((dropCR ((remaining s f).take ((remaining s f).indexOf '\n'))).length : Int) + 1)
      · rw [if_pos hlim]
        refine ⟨s1, f1, ?_, hinv1, hc1, hp1, by omega, fun _ => by omega⟩
        rw [hfl, takeChunk, if_pos hlim]
      · rw [if_neg hlim]
        obtain ⟨s', f', h1, h2, h3, h4, h5, _⟩ := ih s1 f1
          (lines ++ [dropCR ((remaining s f).take ((remaining s f).indexOf '\n'))])
          (rb + (((dropCR ((remaining s f).take ((remaining s f).indexOf '\n'))).length : Int) + 1))
          hinv1 (by rw [hrem1]; exact shortLines_drop _ _ hshort) (by omega) (by omega)
          (by
            intro hne
            have : 0 < (remaining s1 f1).length := List.length_pos.mpr hne
            omega)
        refine ⟨s', f', ?_, h2, h3.trans hc1, by omega, by omega, fun _ => by omega⟩
        rw [h1, hfl, takeChunk, if_neg hlim, hrem1, List.append_assoc]
        rfl

theorem readChunk_spec (f : File) (mb : Int) (hfail : f.failAt = none)
    (hshort : ShortLines (f.content.drop f.pos))
    (hsize : (f.content.length : Int) + 1 < 2 ^ 63) :
    ∃ f', readChunk f mb =
        ((takeChunk (wrapInt (mb * 1024 * 1024)) 0 (fileLines (f.content.drop f.pos)), none),
          f') ∧
      f'.content = f.content ∧ f'.failAt = none ∧ f.pos ≤ f'.pos ∧
      (f.pos < f.content.length → f.pos < f'.pos) := by
  have hrem : remaining NewScanner f = f.content.drop f.pos := rfl
  have hinv : ScanInv NewScanner f :=
    ⟨hfail, by simp [NewScanner], by simp [NewScanner, maxTokenSize], Or.inl rfl⟩
  have hlen : (f.content.drop f.pos).length ≤ f.content.length := by
    rw [List.length_drop]; omega
  obtain ⟨s', f', h1, h2, h3, h4, h5, h6⟩ :=
    readChunkLoop_spec (wrapInt (mb * 1024 * 1024)) (f.content.length + 1) NewScanner f [] 0
      hinv (by rw [hrem]; exact hshort) (by rw [hrem]; omega) (le_refl _)
      (by rw [hrem]; intro _; omega)
  have herr : s'.Err = none := by
    unfold Scanner.Err
    rcases h2.2.2.2 with e | ⟨e, _⟩ <;> simp [e]
  refine ⟨f', ?_, h3, h2.1, h4, ?_⟩
  · unfold readChunk
    simp only [h1, herr, List.nil_append, hrem]
  · intro hpos
    have hne : remaining NewScanner f ≠ [] := by
      rw [hrem]
      intro h
      have := congrArg List.length h
      rw [List.length_drop, List.length_nil] at this
      omega
    have hlt := h6 hne
    rw [hrem, List.length_drop] at hlt
    have hle : (f'.content.drop f'.pos).length ≤ (remaining s' f').length := by
      unfold remaining
      rw [List.length_append]
      omega
    rw [List.length_drop, h3] at hle
    omega

theorem drop_eq_nil_iff_le (l : List Char) (k : Nat) : l.drop k = [] ↔ l.length ≤ k := by
  constructor
  · intro h
    have := congrArg List.length h
    rw [List.length_drop, List.length_nil] at this
    omega
  · exact List.drop_of_length_le

theorem readChunk_at_end (f : File) (mb : Int) (hfail : f.failAt = none)
    (hshort : ShortLines (f.content.drop f.pos))
    (hsize : (f.content.length : Int) + 1 < 2 ^ 63) (hpos : f.content.length ≤ f.pos) :
    (readChunk f mb).1 = ([], none) := by
  obtain ⟨f', h1, _⟩ := readChunk_spec f mb hfail hshort hsize
  rw [h1, (drop_eq_nil_iff_le _ _).mpr hpos, fileLines_nil]
  rfl

theorem readChunk_before_end (f : File) (mb : Int) (hfail : f.failAt = none)
    (hshort : ShortLines (f.content.drop f.pos))
    (hsize : (f.content.length : Int) + 1 < 2 ^ 63) (hpos : f.pos < f.content.length) :
    (readChunk f mb).1.2 = none ∧ (readChunk f mb).1.1 ≠ [] := by
  obtain ⟨f', h1, _⟩ := readChunk_spec f mb hfail hshort hsize
  rw [h1]
  refine ⟨rfl, ?_⟩
  show takeChunk _ 0 _ ≠ []
  rw [Ne, takeChunk_eq_nil, fileLines_eq_nil, drop_eq_nil_iff_le]
  omega

theorem readChunks_terminates (mb : Int) (fuel : Nat) :
    ∀ f : File, f.failAt = none → ShortLines (f.content.drop f.pos) →
    (f.content.length : Int) + 1 < 2 ^ 63 → f.content.length - f.pos + 1 ≤ fuel →
    (∀ extra, readChunks mb (fuel + extra) f = readChunks mb fuel f) ∧
      f.content.length ≤ (fileAfterChunks mb fuel f).pos := by
  induction fuel with
  | zero => intro f _ _ _ h; omega
  | succ fuel ih =>
    intro f hfail hshort hsize hfuel
    obtain ⟨f', h1, h2, h3, h4, h5⟩ := readChunk_spec f mb hfail hshort hsize
    by_cases hpos : f.content.length ≤ f.pos
    · have hnil : takeChunk (wrapInt (mb * 1024 * 1024)) 0
          (fileLines (f.content.drop f.pos)) = [] := by
        rw [(drop_eq_nil_iff_le _ _).mpr hpos, fileLines_nil]
        rfl
      constructor
      · intro extra
        rw [show fuel + 1 + extra = (fuel + extra) + 1 by omega]
        simp [readChunks, h1, hnil]
      · simp only [fileAfterChunks, h1, hnil, List.length_nil, if_true]
        omega
    · have hne : takeChunk (wrapInt (mb * 1024 * 1024)) 0
          (fileLines (f.content.drop f.pos)) ≠ [] := by
        rw [Ne, takeChunk_eq_nil, fileLines_eq_nil, drop_eq_nil_iff_le]
        exact hpos
      have hlen : ¬ (takeChunk (wrapInt (mb * 1024 * 1024)) 0
          (fileLines (f.content.drop f.pos))).length = 0 := by
        rw [List.length_eq_zero]
        exact hne
      have hlt := h5 (by omega)
      have hshort' : ShortLines (f'.content.drop f'.pos) := by
        have e : f'.content.drop f'.pos = (f.content.drop f.pos).drop (f'.pos - f.pos) := by
          rw [List.drop_drop, h2]
          congr 1
          omega
        rw [e]
        exact shortLines_drop _ _ hshort
      obtain ⟨ih1, ih2⟩ := ih f' h3 hshort' (by rw [h2]; exact hsize) (by rw [h2]; omega)
      constructor
      · intro extra
        rw [show fuel + 1 + extra = (fuel + extra) + 1 by omega]
        simp only [readChunks, h1, if_neg hlen, ih1 extra]
      · simp only [fileAfterChunks, h1, if_neg hlen]
        rw [← h2]
        exact ih2

theorem Scan_errTooLong (fuel : Nat) : ∀ (s : Scanner) (f : File), ScanInv s f →
    s.err = none → '\n' ∉ (remaining s f).take maxTokenSize →
    maxTokenSize ≤ (remaining s f).length → f.content.length - f.pos + 2 ≤ fuel →
    ∃ s' f', Scanner.Scan fuel s f = (none, s', f') ∧ s'.err = some IOErr.ErrTooLong := by
  induction fuel with
  | zero => intro s f _ _ _ _ h; omega
  | succ fuel ih =>
    intro s f hinv herr hnl hlen hfuel
    obtain ⟨hfail, hfits, hcap, _⟩ := hinv
    have hdata : '\n' ∉ s.data := by
      intro h
      apply hnl
      unfold remaining
      rw [List.take_append_eq_append_take]
      apply List.mem_append_left
      rw [List.take_of_length_le (by omega)]
      exact h
    by_cases hfull : maxTokenSize ≤ s.data.length
    · exact ⟨_, _, Scan_tooLong fuel s f herr hdata hfits hcap hfull, rfl⟩
    · obtain ⟨B, st, n, hn, hB, hBcap, hstep⟩ :=
        Scan_read fuel s f herr hdata hfits hcap (by omega)
      have hp : f.pos < f.content.length := by
        unfold remaining at hlen
        rw [List.length_append, List.length_drop] at hlen
        omega
      obtain ⟨r1, r2, r3, r4, r5, r6, r7⟩ := Read_of_lt f n hfail hn hp
      have hrem : remaining ⟨B, st, s.data ++ (f.Read n).1, (f.Read n).2.1⟩ (f.Read n).2.2 =
          remaining s f := by
        unfold remaining
        show (s.data ++ (f.Read n).1) ++ _ = _
        rw [r2, List.append_assoc, r7]
      have hinv2 : ScanInv ⟨B, st, s.data ++ (f.Read n).1, (f.Read n).2.1⟩ (f.Read n).2.2 := by
        refine ⟨r3, ?_, hBcap, Or.inl r1⟩
        show st + (s.data ++ (f.Read n).1).length ≤ B
        rw [List.length_append]
        omega
      obtain ⟨s', f', h1, h2⟩ := ih _ _ hinv2 r1 (by rw [hrem]; exact hnl)
        (by rw [hrem]; exact hlen) (by rw [r2, r4]; omega)
      exact ⟨s', f', by rw [hstep, h1], h2⟩

theorem readChunk_errTooLong (f : File) (mb : Int) (hfail : f.failAt = none)
    (hnl : '\n' ∉ (f.content.drop f.pos).take maxTokenSize)
    (hlen : maxTokenSize ≤ (f.content.drop f.pos).length) :
    (readChunk f mb).1 = ([], some IOErr.ErrTooLong) := by
  have hinv : ScanInv NewScanner f :=
    ⟨hfail, by simp [NewScanner], by simp [NewScanner, maxTokenSize], Or.inl rfl⟩
  obtain ⟨s', f', h1, h2⟩ := Scan_errTooLong (f.content.length + 3) NewScanner f hinv rfl
    hnl hlen (by omega)
  have hloop : readChunkLoop (wrapInt (mb * 1024 * 1024)) (f.content.length + 1) NewScanner f
      [] 0 = ([], s', f') := by
    rw [readChunkLoop, h1]
  have herr : s'.Err = some IOErr.ErrTooLong := by
    unfold Scanner.Err
    rw [h2]
    rfl
  unfold readChunk
  simp only [hloop, herr]

theorem longLineFile_no_newline :
    '\n' ∉ (longLineFile.content.drop longLineFile.pos).take maxTokenSize := by
  have e : (longLineFile.content.drop longLineFile.pos).take maxTokenSize =
      List.replicate 65536 'a' := by
    show ((List.replicate 65536 'a' ++ "\nB;1\n".toList).drop 0).take maxTokenSize = _
    rw [List.drop_zero]
    exact List.take_left' (by rw [List.length_replicate]; rfl)
  rw [e]
  intro h
  have := List.eq_of_mem_replicate h
  exact absurd this (by decide)

theorem longLineFile_length : longLineFile.content.length = 65541 := by
  show (List.replicate 65536 'a' ++ "\nB;1\n".toList).length = 65541
  rw [List.length_append, List.length_replicate]
  rfl

theorem readChunk_longLineFile (mb : Int) :
    (readChunk longLineFile mb).1 = ([], some IOErr.ErrTooLong) := by
  apply readChunk_errTooLong longLineFile mb rfl longLineFile_no_newline
  show maxTokenSize ≤ (longLineFile.content.drop 0).length
  rw [List.drop_zero, longLineFile_length]
  decide

/-! ## Claims on `readChunk` and the loop of `main` -/

theorem readChunks_succ (mb : Int) (fuel : Nat) (file : File) :
    readChunks mb (fuel + 1) file =
      if (readChunk file mb).1.1.length = 0 then []
      else (readChunk file mb).1.1 :: readChunks mb fuel (readChunk file mb).2 := rfl

/-- C11 fails on the code.  With `chunkSizeMB = 0` every line ends a chunk.  The file
`A;1.0\nB;2.0\n` has the lines `A;1.0`, `B;2.0`, and the chunks of the loop of `main`
hold only `A;1.0`: the second line is dropped.  A file of 4107 bytes with the lines `A;1`
and `B…B;2` (4100 times `B`) yields the chunks `[A;1]` and `[BBBBBBBB;2]`: the second
`readChunk` starts at offset 4096, in the middle of the second line, so a piece of the
line is returned as a line. -/
theorem chunks_lose_and_split_lines :
    fileLines "A;1.0\nB;2.0\n".toList = ["A;1.0".toList, "B;2.0".toList] ∧
    (readChunks 0 13 ⟨"A;1.0\nB;2.0\n".toList, 0, none⟩).flatten = ["A;1.0".toList] ∧
    fileLines ("A;1\n".toList ++ List.replicate 4100 'B' ++ ";2\n".toList) =
      ["A;1".toList, List.replicate 4100 'B' ++ ";2".toList] ∧
    (readChunks 0 4108
        ⟨"A;1\n".toList ++ List.replicate 4100 'B' ++ ";2\n".toList, 0, none⟩).flatten =
      ["A;1".toList, "BBBBBBBB;2".toList] := by
  refine ⟨by decide, by decide!, ?_, ?_⟩
  · set_option maxRecDepth 100000 in decide!
  · set_option maxRecDepth 100000 in decide!

/-- C12 fails as stated: the file `longLineFile` is not exhausted (its offset is 0, it has
65541 bytes and at least one line), and for every chunk limit `readChunk` returns no line,
so the loop of `main` ends at once. -/
theorem long_line_returns_empty :
    longLineFile.pos < longLineFile.content.length ∧
    fileLines (longLineFile.content.drop longLineFile.pos) ≠ [] ∧
    (∀ chunkSizeMB : Int, (readChunk longLineFile chunkSizeMB).1.1 = []) ∧
    (∀ chunkSizeMB : Int,
      readChunks chunkSizeMB (longLineFile.content.length + 1) longLineFile = []) := by
  have hlen := longLineFile_length
  have hpos : longLineFile.pos = 0 := rfl
  refine ⟨by rw [hlen, hpos]; decide, ?_, ?_, ?_⟩
  · rw [Ne, fileLines_eq_nil, drop_eq_nil_iff_le, hlen, hpos]
    decide
  · intro mb
    rw [readChunk_longLineFile]
  · intro mb
    rw [readChunks_succ, readChunk_longLineFile]
    rfl

/-- C12, amended.  For a file that reads without failure, whose lines are shorter than 65536
bytes, and for every chunk limit (also a limit `≤ 0`): `readChunk` returns no error, and it
returns the empty sequence exactly when the offset of the handle is at the end of the file;
the loop of `main` ends by itself (more iterations allowed give the same chunks) with the
offset of the handle at the end of the file.  When the next 65536 bytes of the file hold no
line feed, `readChunk` returns no line and the error `ErrTooLong`. -/
theorem readChunk_empty_iff_exhausted :
    (∀ (file : File) (chunkSizeMB : Int), file.failAt = none →
        ShortLines (file.content.drop file.pos) →
        (file.content.length : Int) + 1 < 2 ^ 63 →
      (readChunk file chunkSizeMB).1.2 = none ∧
      ((readChunk file chunkSizeMB).1.1 = [] ↔ file.content.length ≤ file.pos) ∧
      (∀ extra, readChunks chunkSizeMB (file.content.length + 1 + extra) file =
        readChunks chunkSizeMB (file.content.length + 1) file) ∧
      file.content.length ≤
        (fileAfterChunks chunkSizeMB (file.content.length + 1) file).pos) ∧
    (∀ (file : File) (chunkSizeMB : Int), file.failAt = none →
        '\n' ∉ (file.content.drop file.pos).take maxTokenSize →
        maxTokenSize ≤ (file.content.drop file.pos).length →
      (readChunk file chunkSizeMB).1 = ([], some IOErr.ErrTooLong)) := by
  refine ⟨?_, readChunk_errTooLong⟩
  intro file mb hfail hshort hsize
  obtain ⟨t1, t2⟩ := readChunks_terminates mb (file.content.length + 1) file hfail hshort hsize
    (by omega)
  refine ⟨?_, ?_, t1, t2⟩
  · by_cases hpos : file.content.length ≤ file.pos
    · rw [readChunk_at_end file mb hfail hshort hsize hpos]
    · exact (readChunk_before_end file mb hfail hshort hsize (by omega)).1
  · constructor
    · intro h
      by_contra hpos
      exact (readChunk_before_end file mb hfail hshort hsize (by omega)).2 h
    · intro hpos
      rw [readChunk_at_end file mb hfail hshort hsize hpos]

/-- An instance of C12, amended: the file `A;1.0\nB;2.0\n` at offset 0 and at offset 12. -/
theorem readChunk_empty_iff_exhausted_witness :
    (readChunk ⟨"A;1.0\nB;2.0\n".toList, 0, none⟩ 0).1.1 ≠ [] ∧
    (readChunk ⟨"A;1.0\nB;2.0\n".toList, 12, none⟩ 0).1.1 = [] ∧
    12 ≤ (fileAfterChunks 0 13 ⟨"A;1.0\nB;2.0\n".toList, 0, none⟩).pos := by
  have h := readChunk_empty_iff_exhausted.1 ⟨"A;1.0\nB;2.0\n".toList, 0, none⟩ 0 rfl
    (shortLines_of_length_lt _ (by decide)) (by decide)
  have h' := readChunk_empty_iff_exhausted.1 ⟨"A;1.0\nB;2.0\n".toList, 12, none⟩ 0 rfl
    (shortLines_of_length_lt _ (by decide)) (by decide)
  refine ⟨?_, h'.2.1.mpr (by decide), h.2.2.2⟩
  intro hnil
  exact absurd (h.2.1.mp hnil) (by decide)

/-- C13 fails on the code.  The device of the file `A;1.0\nB;2.0\n` fails from offset 6.
With `chunkSizeMB = 0` the first `readChunk` returns `[A;1.0]`, the second returns the
read error, and `main` prints `{A=1.0/1.0/1.0}`, built from the chunk read before the
failure.  With the constant `chunkSizeMB` the first `readChunk` returns the read error and
`main` prints `{}`.  In both runs `main` discards the error and prints a result line. -/
theorem read_failure_prints_output (sched : Schedule) (hsched : sched.Valid) :
    readChunk ⟨"A;1.0\nB;2.0\n".toList, 0, some 6⟩ 0 =
      ((["A;1.0".toList], none), ⟨"A;1.0\nB;2.0\n".toList, 6, some 6⟩) ∧
    (readChunk ⟨"A;1.0\nB;2.0\n".toList, 6, some 6⟩ 0).1 = ([], some IOErr.ErrRead) ∧
    mainOutput parseFloat 0 sched ⟨"A;1.0\nB;2.0\n".toList, 0, some 6⟩ =
      "{A=1.0/1.0/1.0}\n".toList ∧
    (readChunk ⟨"A;1.0\nB;2.0\n".toList, 0, some 6⟩ chunkSizeMB).1 =
      ([], some IOErr.ErrRead) ∧
    mainOutput parseFloat chunkSizeMB sched ⟨"A;1.0\nB;2.0\n".toList, 0, some 6⟩ =
      "{}\n".toList := by
  refine ⟨by decide!, by decide!, ?_, by decide!, ?_⟩
  · unfold mainOutput
    rw [finalSummary_eq_processLines _ _ _ _ hsched]
    decide!
  · unfold mainOutput
    rw [finalSummary_eq_processLines _ _ _ _ hsched]
    decide!

/-- An instance of C13: the schedule `roundRobin`. -/
theorem read_failure_prints_output_witness :
    Schedule.roundRobin.Valid ∧
    mainOutput parseFloat 0 Schedule.roundRobin ⟨"A;1.0\nB;2.0\n".toList, 0, some 6⟩ =
      "{A=1.0/1.0/1.0}\n".toList :=
  ⟨roundRobin_valid, (read_failure_prints_output _ roundRobin_valid).2.2.1⟩

/-- C19 fails as stated: the chunk limit 1 MiB is positive, lines remain in `longLineFile`,
and `readChunk` returns the empty sequence (with `ErrTooLong`), which is not a prefix that
reaches the limit nor all the remaining lines. -/
theorem long_line_chunk_is_empty :
    (0 : Int) < 1 * 1024 * 1024 ∧
    fileLines (longLineFile.content.drop longLineFile.pos) ≠ [] ∧
    (readChunk longLineFile 1).1 = ([], some IOErr.ErrTooLong) := by
  refine ⟨by decide, ?_, readChunk_longLineFile 1⟩
  rw [Ne, fileLines_eq_nil, drop_eq_nil_iff_le, longLineFile_length]
  show ¬ 65541 ≤ 0
  decide

/-- C19, amended.  For a file that reads without failure, whose lines are shorter than 65536
bytes, and a positive chunk limit `chunkSizeMB * 1024 * 1024` below `2^63`: the sequence
`readChunk` returns is a prefix of the lines of the bytes from the offset of the handle;
its cumulative byte size (each line's length + 1) reaches the limit or it holds all these
lines; and without its last line it totals less than the limit. -/
theorem readChunk_shortest_prefix (file : File) (chunkSizeMB : Int)
    (hfail : file.failAt = none) (hshort : ShortLines (file.content.drop file.pos))
    (hsize : (file.content.length : Int) + 1 < 2 ^ 63)
    (hpos : 0 < chunkSizeMB) (hmax : chunkSizeMB * 1024 * 1024 < 2 ^ 63) :
    (readChunk file chunkSizeMB).1.2 = none ∧
    ∃ rest, fileLines (file.content.drop file.pos) = (readChunk file chunkSizeMB).1.1 ++ rest ∧
      (chunkSizeMB * 1024 * 1024 ≤ chunkBytes (readChunk file chunkSizeMB).1.1 ∨ rest = []) ∧
      chunkBytes (readChunk file chunkSizeMB).1.1.dropLast < chunkSizeMB * 1024 * 1024 := by
  obtain ⟨f', h1, _⟩ := readChunk_spec file chunkSizeMB hfail hshort hsize
  have hw : wrapInt (chunkSizeMB * 1024 * 1024) = chunkSizeMB * 1024 * 1024 :=
    wrapInt_of_bounds _ (by omega) hmax
  rw [h1, hw]
  refine ⟨rfl, ?_⟩
  obtain ⟨rest, r1, r2⟩ := takeChunk_prefix (chunkSizeMB * 1024 * 1024)
    (fileLines (file.content.drop file.pos)) 0
  refine ⟨rest, r1, ?_, ?_⟩
  · rcases r2 with r2 | r2
    · left; simpa using r2
    · exact Or.inr r2
  · have := takeChunk_dropLast (chunkSizeMB * 1024 * 1024)
      (fileLines (file.content.drop file.pos)) 0 (by omega)
    simpa using this

/-- An instance of C19, amended: the file `A;1.0\nB;2.0\n` and the chunk limit 1 MiB. -/
theorem readChunk_shortest_prefix_witness :
    (readChunk ⟨"A;1.0\nB;2.0\n".toList, 0, none⟩ 1).1.2 = none ∧
    ∃ rest, fileLines (("A;1.0\nB;2.0\n".toList).drop 0) =
        (readChunk ⟨"A;1.0\nB;2.0\n".toList, 0, none⟩ 1).1.1 ++ rest ∧
      ((1 : Int) * 1024 * 1024 ≤ chunkBytes (readChunk ⟨"A;1.0\nB;2.0\n".toList, 0, none⟩ 1).1.1 ∨
        rest = []) ∧
      chunkBytes (readChunk ⟨"A;1.0\nB;2.0\n".toList, 0, none⟩ 1).1.1.dropLast <
        (1 : Int) * 1024 * 1024 :=
  readChunk_shortest_prefix ⟨"A;1.0\nB;2.0\n".toList, 0, none⟩ 1 rfl
    (shortLines_of_length_lt _ (by decide)) (by decide) (by decide) (by decide)

/-! ## The empty file -/

theorem readChunk_empty_file (mb : Int) :
    readChunk ⟨[], 0, none⟩ mb = (([], none), ⟨[], 0, none⟩) := rfl

theorem render_empty : render ∅ = "{}\n".toList := by decide!

/-- C14. On an empty input file, for every parser, chunk size and valid schedule:
`readChunk` returns no lines and no error, the loop of `main` yields no chunk, no table is
emitted (no worker produces one), `reduceSummaries` returns the empty table, and `main`
prints `{}` followed by a line feed. -/
theorem empty_file_output (ParseFloat : GoString → Option ℚ) (chunkSizeMB : Int)
    (sched : Schedule) (hsched : sched.Valid) :
    (readChunk ⟨[], 0, none⟩ chunkSizeMB).1 = ([], none) ∧
    readChunks chunkSizeMB 1 ⟨[], 0, none⟩ = [] ∧
    emittedTables ParseFloat chunkSizeMB sched ⟨[], 0, none⟩ = [] ∧
    finalSummary ParseFloat chunkSizeMB sched ⟨[], 0, none⟩ = ∅ ∧
    mainOutput ParseFloat chunkSizeMB sched ⟨[], 0, none⟩ = "{}\n".toList := by
  have h1 : readChunks chunkSizeMB 1 ⟨[], 0, none⟩ = [] := by
    simp [readChunks, readChunk_empty_file]
  have h2 : emittedTables ParseFloat chunkSizeMB sched ⟨[], 0, none⟩ = [] := by
    unfold emittedTables
    show ((readChunks chunkSizeMB 1 ⟨[], 0, none⟩).enum.flatMap _) = []
    rw [h1]
    rfl
  have h3 : finalSummary ParseFloat chunkSizeMB sched ⟨[], 0, none⟩ = ∅ := by
    unfold finalSummary
    rw [h2, List.Perm.eq_nil (hsched [])]
    rfl
  refine ⟨by rw [readChunk_empty_file], h1, h2, h3, ?_⟩
  unfold mainOutput
  rw [h3]
  exact render_empty

/-- An instance of C14: the constant `chunkSizeMB` and the schedule `roundRobin`. -/
theorem empty_file_output_witness :
    Schedule.roundRobin.Valid ∧
    mainOutput parseFloat chunkSizeMB Schedule.roundRobin ⟨[], 0, none⟩ = "{}\n".toList :=
  ⟨roundRobin_valid, (empty_file_output parseFloat chunkSizeMB _ roundRobin_valid).2.2.2.2⟩

/-! ## The distributor -/

theorem dispatch_of_le (lines : List GoString) (size fuel i : Nat) (h : lines.length ≤ i) :
    dispatch lines size fuel i = [] := by
  cases fuel with
  | zero => rfl
  | succ fuel =>
    unfold dispatch
    rw [if_neg (by omega)]

theorem dispatch_of_lt (lines : List GoString) (size fuel i : Nat) (h : i < lines.length) :
    dispatch lines size (fuel + 1) i =
      ((lines.take (min (i + size) lines.length)).drop i) ::
        dispatch lines size fuel (i + size) := by
  rw [dispatch, if_pos h]

theorem dispatch_succ (lines : List GoString) (size : Nat) (hsize : 0 < size) (fuel i : Nat)
    (hfuel : lines.length ≤ i + fuel) :
    dispatch lines size (fuel + 1) i = dispatch lines size fuel i := by
  induction fuel generalizing i with
  | zero => rw [dispatch_of_le _ _ _ _ (by omega), dispatch_of_le _ _ _ _ (by omega)]
  | succ fuel ih =>
    by_cases hi : i < lines.length
    · rw [dispatch_of_lt _ _ _ _ hi, dispatch_of_lt _ _ _ _ hi, ih (i + size) (by omega)]
    · rw [dispatch_of_le _ _ _ _ (by omega), dispatch_of_le _ _ _ _ (by omega)]

theorem dispatch_add (lines : List GoString) (size : Nat) (hsize : 0 < size) (fuel i : Nat)
    (hfuel : lines.length ≤ i + fuel) (extra : Nat) :
    dispatch lines size (fuel + extra) i = dispatch lines size fuel i := by
  induction extra with
  | zero => rfl
  | succ extra ih =>
    rw [← Nat.add_assoc, dispatch_succ lines size hsize (fuel + extra) i (by omega), ih]

theorem dispatch_sizes (lines : List GoString) (size : Nat) (hsize : 0 < size) (fuel i : Nat)
    (hfuel : lines.length ≤ i + fuel) :
    (∀ b ∈ (dispatch lines size fuel i).dropLast, b.length = size) ∧
    (∀ b ∈ dispatch lines size fuel i, 1 ≤ b.length ∧ b.length ≤ size) ∧
    (dispatch lines size fuel i).length = (lines.length - i + size - 1) / size := by
  induction fuel generalizing i with
  | zero =>
    rw [dispatch_of_le _ _ _ _ (by omega)]
    refine ⟨by simp, by simp, ?_⟩
    have h0 : lines.length - i + size - 1 = size - 1 := by omega
    rw [h0, List.length_nil, Nat.div_eq_of_lt (by omega)]
  | succ fuel ih =>
    by_cases hi : i < lines.length
    · rw [dispatch_of_lt _ _ _ _ hi]
      obtain ⟨ih1, ih2, ih3⟩ := ih (i + size) (by omega)
      have hb0 : ((lines.take (min (i + size) lines.length)).drop i).length =
          min (i + size) lines.length - i := by
        rw [List.length_drop, List.length_take]
        omega
      refine ⟨?_, ?_, ?_⟩
      · intro b hb
        by_cases hrest : i + size < lines.length
        · cases hd : dispatch lines size fuel (i + size) with
          | nil =>
            rw [hd] at hb
            simp at hb
          | cons r rs =>
            rw [hd, List.dropLast_cons₂] at hb
            rcases List.mem_cons.mp hb with rfl | hb'
            · rw [hb0]; omega
            · rw [hd] at ih1
              exact ih1 b hb'
        · rw [dispatch_of_le _ _ _ _ (by omega)] at hb
          simp at hb
      · intro b hb
        rcases List.mem_cons.mp hb with rfl | hb'
        · rw [hb0]; omega
        · exact ih2 b hb'
      · rw [List.length_cons, ih3]
        by_cases hrest : i + size ≤ lines.length
        · have e : lines.length - i + size - 1 = (lines.length - (i + size) + size - 1) + size := by
            omega
          rw [e, Nat.add_div_right _ hsize]
        · have e1 : lines.length - (i + size) + size - 1 = size - 1 := by omega
          rw [e1, Nat.div_eq_of_lt (by omega)]
          symm
          apply Nat.div_eq_of_lt_le <;> omega
    · rw [dispatch_of_le _ _ _ _ (by omega)]
      refine ⟨by simp, by simp, ?_⟩
      have h0 : lines.length - i + size - 1 = size - 1 := by omega
      rw [h0, List.length_nil, Nat.div_eq_of_lt (by omega)]

/-- C15. For every non-empty chunk of `N` lines and `W = numWorkers`: the step
`ceil(N/W)` is at least 1; the sub-batches dispatched, concatenated in order, equal the
chunk; every sub-batch except the last has exactly `ceil(N/W)` lines; every sub-batch has
at least one and at most `ceil(N/W)` lines; between 1 and `W` sub-batches are dispatched;
and the loop ends by itself (more iterations allowed give the same sub-batches). -/
theorem subBatches_partition (lines : List GoString) (hne : lines ≠ []) :
    1 ≤ (lines.length + numWorkers - 1) / numWorkers ∧
    (subBatches lines).flatten = lines ∧
    (∀ b ∈ (subBatches lines).dropLast,
      b.length = (lines.length + numWorkers - 1) / numWorkers) ∧
    (∀ b ∈ subBatches lines,
      1 ≤ b.length ∧ b.length ≤ (lines.length + numWorkers - 1) / numWorkers) ∧
    1 ≤ (subBatches lines).length ∧ (subBatches lines).length ≤ numWorkers ∧
    (∀ extra, dispatch lines ((lines.length + numWorkers - 1) / numWorkers)
      (lines.length + extra) 0 = subBatches lines) := by
  have hlen : 0 < lines.length := List.length_pos.mpr hne
  have hsize : 0 < (lines.length + numWorkers - 1) / numWorkers := by
    apply Nat.div_pos
    · simp only [numWorkers]; omega
    · simp only [numWorkers]; omega
  obtain ⟨h1, h2, h3⟩ := dispatch_sizes lines _ hsize lines.length 0 (by omega)
  have hcount : (subBatches lines).length =
      (lines.length + (lines.length + numWorkers - 1) / numWorkers - 1) /
        ((lines.length + numWorkers - 1) / numWorkers) := by
    unfold subBatches
    rw [h3]
    rfl
  refine ⟨hsize, flatten_subBatches lines, h1, h2, ?_, ?_,
    fun extra => dispatch_add lines _ hsize lines.length 0 (by omega) extra⟩
  · rw [hcount]
    apply (Nat.le_div_iff_mul_le hsize).mpr
    omega
  · rw [hcount]
    apply Nat.le_of_lt_succ
    apply (Nat.div_lt_iff_lt_mul hsize).mpr
    simp only [numWorkers] at *
    generalize hs : (lines.length + 8 - 1) / 8 = sz at *
    omega

/-- An instance of C15: nine lines are dispatched as sub-batches of 2, 2, 2, 2 and 1 lines. -/
theorem subBatches_partition_witness :
    (["a".toList, "b".toList, "c".toList, "d".toList, "e".toList, "f".toList, "g".toList,
        "h".toList, "i".toList] : List GoString) ≠ [] ∧
    subBatches ["a".toList, "b".toList, "c".toList, "d".toList, "e".toList, "f".toList,
        "g".toList, "h".toList, "i".toList] =
      [["a".toList, "b".toList], ["c".toList, "d".toList], ["e".toList, "f".toList],
        ["g".toList, "h".toList], ["i".toList]] ∧
    (subBatches ["a".toList, "b".toList, "c".toList, "d".toList, "e".toList, "f".toList,
        "g".toList, "h".toList, "i".toList]).length ≤ numWorkers :=
  ⟨by decide, by decide,
    (subBatches_partition ["a".toList, "b".toList, "c".toList, "d".toList, "e".toList,
      "f".toList, "g".toList, "h".toList, "i".toList] (by decide)).2.2.2.2.2.1⟩

/-! ## The invariant `Count ≥ 1` -/

/-- C20. Every entry of a table that `processLines` builds from an empty table has
`Count ≥ 1`; so has every entry of the table `reduceSummaries` returns for such tables; so
has every entry of the final table of `main`, whose divisor `float64(Count)` is therefore
not zero. -/
theorem count_pos :
    (∀ (ParseFloat : GoString → Option ℚ) (lines : List GoString) (k : GoString)
        (s : StationSummary),
      (processLines ParseFloat lines ∅).lookup k = some s → 1 ≤ s.Count) ∧
    (∀ tables : List Table,
      (∀ t ∈ tables, ∃ (ParseFloat : GoString → Option ℚ) (lines : List GoString),
        t = processLines ParseFloat lines ∅) →
      ∀ k s, (reduceSummaries tables).lookup k = some s → 1 ≤ s.Count) ∧
    (∀ (ParseFloat : GoString → Option ℚ) (chunkSizeMB : Int) (sched : Schedule) (file : File),
      sched.Valid → ∀ k s, (finalSummary ParseFloat chunkSizeMB sched file).lookup k = some s →
        1 ≤ s.Count ∧ (s.Count : ℚ) ≠ 0) := by
  refine ⟨fun PF L k s h => (tableGood_processLines PF L k s h).1, ?_, ?_⟩
  · intro ts hts k s h
    refine (tableGood_reduceSummaries ts ?_ k s h).1
    intro t ht
    obtain ⟨PF, L, rfl⟩ := hts t ht
    exact tableGood_processLines PF L
  · intro PF mb sched file hv k s hs
    have hg := tableGood_finalSummary PF mb sched file hv k s hs
    refine ⟨hg.1, ?_⟩
    have : (0 : ℤ) < s.Count := by have := hg.1; omega
    exact_mod_cast this.ne'

/-! ## Determinism of the output -/

/-! ## Further facts on `round` -/

theorem round_eq_iff (x : ℚ) (n : ℤ) :
    round x = (n : ℚ) / 10 ↔ (n : ℚ) / 10 - 0.06 ≤ x ∧ x < ((n : ℚ) + 1) / 10 - 0.06 := by
  unfold round
  have h10 : (10 : ℚ) ≠ 0 := by norm_num
  rw [div_left_inj' h10, Int.cast_inj, Int.floor_eq_iff]
  constructor
  · rintro ⟨h1, h2⟩
    constructor <;> linarith
  · rintro ⟨h1, h2⟩
    constructor <;> linarith

/-- C18 fails as stated: `round 2.04999` is `2.1`, the floor of `21.0999` divided by 10. -/
theorem round_2_04999 : round 2.04999 = 2.1 := by
  have h := (round_eq_iff 2.04999 21).mpr (by constructor <;> norm_num)
  rw [h]
  norm_num

/-- C18, amended.  `round x = 2.1` holds exactly when `2.04 ≤ x < 2.14`; so
`round 2.04999 = 2.1` is true, while `round 2.03999 = 2.0`, which is not `2.1`. -/
theorem round_eq_2_1_iff :
    (∀ x : ℚ, round x = 2.1 ↔ 2.04 ≤ x ∧ x < 2.14) ∧
    round 2.04999 = 2.1 ∧ round 2.03999 = 2.0 ∧ round 2.03999 ≠ 2.1 := by
  have key : ∀ x : ℚ, round x = 2.1 ↔ 2.04 ≤ x ∧ x < 2.14 := by
    intro x
    have h := round_eq_iff x 21
    have e : ((21 : ℤ) : ℚ) / 10 = 2.1 := by norm_num
    rw [e] at h
    rw [h]
    constructor
    · rintro ⟨h1, h2⟩
      constructor
      · norm_num at h1 ⊢; linarith
      · norm_num at h2 ⊢; linarith
    · rintro ⟨h1, h2⟩
      constructor
      · norm_num at h1 ⊢; linarith
      · norm_num at h2 ⊢; linarith
  refine ⟨key, (key _).mpr (by constructor <;> norm_num), ?_, ?_⟩
  · have h := (round_eq_iff 2.03999 20).mpr (by constructor <;> norm_num)
    rw [h]
    norm_num
  · intro h
    have := (key _).mp h
    norm_num at this

theorem reversed_valid : Schedule.reversed.Valid := fun tables => List.reverse_perm tables

/-! ## Order on the binary64 values -/

theorem F64.ne_nan_of_le (x y : F64) (h : x.le y = true) : x ≠ F64.nan ∧ y ≠ F64.nan := by
  cases x <;> cases y <;> simp_all [F64.le]

theorem F64.le_refl (x : F64) (h : x ≠ F64.nan) : x.le x = true := by
  cases x with
  | nan => exact absurd rfl h
  | inf neg => cases neg <;> rfl
  | negZero => rfl
  | num q => simp [F64.le]

theorem F64.le_trans (x y z : F64) (h1 : x.le y = true) (h2 : y.le z = true) :
    x.le z = true := by
  cases x with
  | nan => simp [F64.le] at h1
  | inf a =>
    cases a
    · cases y with
      | nan => simp [F64.le] at h1
      | inf b =>
        cases b
        · cases z with
          | nan => simp [F64.le] at h2
          | inf c => cases c <;> simp_all [F64.le]
          | negZero => simp [F64.le] at h2
          | num q => simp [F64.le] at h2
        · simp [F64.le] at h1
      | negZero => simp [F64.le] at h1
      | num q => simp [F64.le] at h1
    · have hz := (F64.ne_nan_of_le y z h2).2
      cases z with
      | nan => exact absurd rfl hz
      | inf c => cases c <;> rfl
      | negZero => rfl
      | num q => rfl
  | negZero =>
    cases y with
    | nan => simp [F64.le] at h1
    | inf b =>
      cases b
      · cases z with
        | nan => simp [F64.le] at h2
        | inf c => cases c <;> simp_all [F64.le]
        | negZero => simp [F64.le] at h2
        | num q => simp [F64.le] at h2
      · simp [F64.le] at h1
    | negZero => exact h2
    | num q =>
      cases z with
      | nan => simp [F64.le] at h2
      | inf c => cases c <;> simp_all [F64.le]
      | negZero =>  rfl
      | num r => simp only [F64.le, decide_eq_true_eq] at *; linarith
  | num p =>
    cases y with
    | nan => simp [F64.le] at h1
    | inf b =>
      cases b
      · cases z with
        | nan => simp [F64.le] at h2
        | inf c => cases c <;> simp_all [F64.le]
        | negZero => simp [F64.le] at h2
        | num q => simp [F64.le] at h2
      · simp [F64.le] at h1
    | negZero =>
      cases z with
      | nan => simp [F64.le] at h2
      | inf c => cases c <;> simp_all [F64.le]
      | negZero => exact h1
      | num r => simp only [F64.le, decide_eq_true_eq] at *; linarith
    | num q =>
      cases z with
      | nan => simp [F64.le] at h2
      | inf c => cases c <;> simp_all [F64.le]
      | negZero => simp only [F64.le, decide_eq_true_eq] at *; linarith
      | num r => simp only [F64.le, decide_eq_true_eq] at *; linarith

theorem F64.min_choice (x y : F64) (hx : x ≠ F64.nan) (hy : y ≠ F64.nan) :
    F64.min x y = x ∨ F64.min x y = y := by
  cases x <;> cases y <;> simp only [F64.min] <;> first
    | exact absurd rfl hx
    | exact absurd rfl hy
    | (split_ifs <;> simp)

theorem F64.max_choice (x y : F64) (hx : x ≠ F64.nan) (hy : y ≠ F64.nan) :
    F64.max x y = x ∨ F64.max x y = y := by
  cases x <;> cases y <;> simp only [F64.max] <;> first
    | exact absurd rfl hx
    | exact absurd rfl hy
    | (split_ifs <;> simp)

theorem F64.min_le_left (x y : F64) (hx : x ≠ F64.nan) (hy : y ≠ F64.nan) :
    (F64.min x y).le x = true := by
  cases x with
  | nan => exact absurd rfl hx
  | inf a =>
    cases y with
    | nan => exact absurd rfl hy
    | inf b => cases a <;> cases b <;> rfl
    | negZero => cases a <;> rfl
    | num q => cases a <;> rfl
  | negZero =>
    cases y with
    | nan => exact absurd rfl hy
    | inf b => cases b <;> rfl
    | negZero => rfl
    | num q =>
      simp only [F64.min]
      split_ifs with h
      · simp only [F64.le, decide_eq_true_eq]; linarith
      · rfl
  | num p =>
    cases y with
    | nan => exact absurd rfl hy
    | inf b => cases b <;> simp [F64.min, F64.le]
    | negZero =>
      simp only [F64.min]
      split_ifs with h
      · simp [F64.le]
      · simp only [F64.le, decide_eq_true_eq]; linarith
    | num q =>
      simp only [F64.min, F64.le]
      split_ifs with h
      · simp [F64.le]
      · simp only [F64.le, decide_eq_true_eq] at h ⊢; linarith

theorem F64.min_le_right (x y : F64) (hx : x ≠ F64.nan) (hy : y ≠ F64.nan) :
    (F64.min x y).le y = true := by
  cases x with
  | nan => exact absurd rfl hx
  | inf a =>
    cases y with
    | nan => exact absurd rfl hy
    | inf b => cases a <;> cases b <;> rfl
    | negZero => cases a <;> rfl
    | num q => cases a <;> simp [F64.min, F64.le]
  | negZero =>
    cases y with
    | nan => exact absurd rfl hy
    | inf b => cases b <;> rfl
    | negZero => rfl
    | num q =>
      simp only [F64.min]
      split_ifs with h
      · simp [F64.le]
      · simp only [F64.le, decide_eq_true_eq]; linarith
  | num p =>
    cases y with
    | nan => exact absurd rfl hy
    | inf b => cases b <;> simp [F64.min, F64.le]
    | negZero =>
      simp only [F64.min]
      split_ifs with h
      · simp only [F64.le, decide_eq_true_eq]; linarith
      · rfl
    | num q =>
      simp only [F64.min, F64.le]
      split_ifs with h
      · simpa [F64.le] using h
      · simp [F64.le]

theorem F64.le_max_left (x y : F64) (hx : x ≠ F64.nan) (hy : y ≠ F64.nan) :
    x.le (F64.max x y) = true := by
  cases x with
  | nan => exact absurd rfl hx
  | inf a =>
    cases y with
    | nan => exact absurd rfl hy
    | inf b => cases a <;> cases b <;> rfl
    | negZero => cases a <;> rfl
    | num q => cases a <;> rfl
  | negZero =>
    cases y with
    | nan => exact absurd rfl hy
    | inf b => cases b <;> rfl
    | negZero => rfl
    | num q =>
      simp only [F64.max]
      split_ifs with h
      · simpa [F64.le] using h
      · rfl
  | num p =>
    cases y with
    | nan => exact absurd rfl hy
    | inf b => cases b <;> simp [F64.max, F64.le]
    | negZero =>
      simp only [F64.max]
      split_ifs with h
      · simp [F64.le]
      · simp only [F64.le, decide_eq_true_eq]; linarith
    | num q =>
      simp only [F64.max, F64.le]
      split_ifs with h
      · simpa [F64.le] using h
      · simp [F64.le]

theorem F64.le_max_right (x y : F64) (hx : x ≠ F64.nan) (hy : y ≠ F64.nan) :
    y.le (F64.max x y) = true := by
  cases x with
  | nan => exact absurd rfl hx
  | inf a =>
    cases y with
    | nan => exact absurd rfl hy
    | inf b => cases a <;> cases b <;> rfl
    | negZero => cases a <;> rfl
    | num q => cases a <;> simp [F64.max, F64.le]
  | negZero =>
    cases y with
    | nan => exact absurd rfl hy
    | inf b => cases b <;> rfl
    | negZero => rfl
    | num q =>
      simp only [F64.max]
      split_ifs with h
      · simp [F64.le]
      · simp only [F64.le, decide_eq_true_eq]; linarith
  | num p =>
    cases y with
    | nan => exact absurd rfl hy
    | inf b => cases b <;> simp [F64.max, F64.le]
    | negZero =>
      simp only [F64.max]
      split_ifs with h
      · simp only [F64.le, decide_eq_true_eq]; linarith
      · rfl
    | num q =>
      simp only [F64.max, F64.le]
      split_ifs with h
      · simp [F64.le]
      · simp only [F64.le, decide_eq_true_eq] at h ⊢; linarith

/-! ## `processLines` in the binary64 model -/

theorem lookup_processLine64 (PF : GoString → Option F64) (t : Table64) (line k : GoString) :
    (processLine64 PF t line).lookup k =
      match wellFormedValue64 PF k line with
      | none => t.lookup k
      | some v => some (foldValue64 ((t.lookup k).getD StationSummary64.zero) v) := by
  unfold processLine64 wellFormedValue64
  split
  · rename_i station field _
    by_cases hk : station = k
    · subst hk
      cases h : PF field with
      | none => simp
      | some v => simp [Finmap.lookup_insert]
    · cases h : PF field with
      | none => simp [hk]
      | some v =>
        have hk' : k ≠ station := fun e => hk e.symm
        simp [hk, Finmap.lookup_insert_of_ne _ hk']
  · rfl

theorem lookup_processLines64 (PF : GoString → Option F64) (lines : List GoString)
    (t : Table64) (k : GoString) :
    (processLines64 PF lines t).lookup k =
      foldValues64 (t.lookup k) (valuesOf64 PF k lines) := by
  induction lines generalizing t with
  | nil => rfl
  | cons line rest ih =>
    have h := lookup_processLine64 PF t line k
    show (processLines64 PF rest (processLine64 PF t line)).lookup k = _
    rw [ih, h]
    cases hv : wellFormedValue64 PF k line with
    | none => simp [valuesOf64, List.filterMap_cons, hv]
    | some v => simp [valuesOf64, List.filterMap_cons, hv, foldValues64]

theorem wellFormedValue64_eq_some (PF : GoString → Option F64) (k line : GoString) (v : F64) :
    wellFormedValue64 PF k line = some v ↔
      ∃ field, Split ';' line = [k, field] ∧ PF field = some v := by
  unfold wellFormedValue64
  split
  · rename_i station field heq
    by_cases hk : station = k
    · subst hk
      simp [heq]
    · simp only [hk, if_false, heq]
      constructor
      · intro h; cases h
      · rintro ⟨f, hf, _⟩
        simp only [List.cons.injEq] at hf
        exact absurd hf.1 hk
  · rename_i hne
    constructor
    · intro h; cases h
    · rintro ⟨f, hf, _⟩
      exact absurd hf (hne k f)

theorem valuesOf64_ne_nil (PF : GoString → Option F64) (k : GoString) (L : List GoString) :
    valuesOf64 PF k L ≠ [] ↔
      ∃ line ∈ L, ∃ field v, Split ';' line = [k, field] ∧ PF field = some v := by
  constructor
  · intro h
    obtain ⟨v, hv⟩ := List.exists_mem_of_ne_nil _ h
    obtain ⟨line, hl, hw⟩ := List.mem_filterMap.mp hv
    obtain ⟨field, h1, h2⟩ := (wellFormedValue64_eq_some PF k line v).mp hw
    exact ⟨line, hl, field, v, h1, h2⟩
  · rintro ⟨line, hl, field, v, h1, h2⟩
    have hv : v ∈ valuesOf64 PF k L :=
      List.mem_filterMap.mpr
        ⟨line, hl, (wellFormedValue64_eq_some PF k line v).mpr ⟨field, h1, h2⟩⟩
    exact List.ne_nil_of_mem hv

theorem foldValues64_some (s : StationSummary64) (vs : List F64) (h : 1 ≤ s.Count) :
    foldValues64 (some s) vs =
      some ⟨vs.foldl F64.min s.Min, vs.foldl F64.max s.Max, vs.foldl F64.add s.Sum,
        s.Count + (vs.length : Int)⟩ := by
  induction vs generalizing s with
  | nil => simp [foldValues64]
  | cons v rest ih =>
    have hc : s.Count ≠ 0 := by omega
    have h1 : foldValues64 (some s) (v :: rest) = foldValues64 (some (foldValue64 s v)) rest := by
      simp [foldValues64]
    have h2 : foldValue64 s v =
        ⟨F64.min s.Min v, F64.max s.Max v, F64.add s.Sum v, s.Count + 1⟩ := by
      simp [foldValue64, hc]
    rw [h1, h2, ih _ (by show 1 ≤ s.Count + 1; omega)]
    simp only [List.foldl_cons, List.length_cons, Nat.cast_add, Nat.cast_one]
    congr 2
    omega

theorem foldValues64_none_cons (v : F64) (vs : List F64) :
    foldValues64 none (v :: vs) =
      some ⟨vs.foldl F64.min v, vs.foldl F64.max v, vs.foldl F64.add v,
        (vs.length : Int) + 1⟩ := by
  have h1 : foldValues64 none (v :: vs) = foldValues64 (some ⟨v, v, v, 1⟩) vs := by
    simp [foldValues64, foldValue64, StationSummary64.zero]
  rw [h1, foldValues64_some _ _ (le_refl _)]
  congr 2
  exact add_comm _ _

theorem foldl_min_ne_nan (vs : List F64) (v : F64) (h : ∀ w ∈ v :: vs, w ≠ F64.nan) :
    vs.foldl F64.min v ≠ F64.nan ∧ vs.foldl F64.min v ∈ v :: vs ∧
      ∀ w ∈ v :: vs, (vs.foldl F64.min v).le w = true := by
  induction vs generalizing v with
  | nil =>
    have hv := h v (List.mem_cons_self _ _)
    refine ⟨hv, List.mem_cons_self _ _, fun w hw => ?_⟩
    rw [List.mem_singleton.mp hw]
    exact F64.le_refl v hv
  | cons x rest ih =>
    have hv := h v (List.mem_cons_self _ _)
    have hx := h x (List.mem_cons_of_mem _ (List.mem_cons_self _ _))
    have hm : F64.min v x ≠ F64.nan := by
      rcases F64.min_choice v x hv hx with e | e <;> rw [e] <;> assumption
    obtain ⟨h1, h2, h3⟩ := ih (F64.min v x) (by
      intro w hw
      rcases List.mem_cons.mp hw with e | e
      · rw [e]; exact hm
      · exact h w (List.mem_cons_of_mem _ (List.mem_cons_of_mem _ e)))
    refine ⟨h1, ?_, ?_⟩
    · rcases List.mem_cons.mp h2 with e | e
      · show List.foldl F64.min (F64.min v x) rest ∈ v :: x :: rest
        rw [e]
        rcases F64.min_choice v x hv hx with e' | e' <;> rw [e'] <;> simp
      · exact List.mem_cons_of_mem _ (List.mem_cons_of_mem _ e)
    · intro w hw
      have hmin := h3 (F64.min v x) (List.mem_cons_self _ _)
      rcases List.mem_cons.mp hw with e | e
      · rw [e]
        exact F64.le_trans _ _ _ hmin (F64.min_le_left v x hv hx)
      · rcases List.mem_cons.mp e with e' | e'
        · rw [e']
          exact F64.le_trans _ _ _ hmin (F64.min_le_right v x hv hx)
        · exact h3 w (List.mem_cons_of_mem _ e')

theorem foldl_max_ne_nan (vs : List F64) (v : F64) (h : ∀ w ∈ v :: vs, w ≠ F64.nan) :
    vs.foldl F64.max v ≠ F64.nan ∧ vs.foldl F64.max v ∈ v :: vs ∧
      ∀ w ∈ v :: vs, w.le (vs.foldl F64.max v) = true := by
  induction vs generalizing v with
  | nil =>
    have hv := h v (List.mem_cons_self _ _)
    refine ⟨hv, List.mem_cons_self _ _, fun w hw => ?_⟩
    rw [List.mem_singleton.mp hw]
    exact F64.le_refl v hv
  | cons x rest ih =>
    have hv := h v (List.mem_cons_self _ _)
    have hx := h x (List.mem_cons_of_mem _ (List.mem_cons_self _ _))
    have hm : F64.max v x ≠ F64.nan := by
      rcases F64.max_choice v x hv hx with e | e <;> rw [e] <;> assumption
    obtain ⟨h1, h2, h3⟩ := ih (F64.max v x) (by
      intro w hw
      rcases List.mem_cons.mp hw with e | e
      · rw [e]; exact hm
      · exact h w (List.mem_cons_of_mem _ (List.mem_cons_of_mem _ e)))
    refine ⟨h1, ?_, ?_⟩
    · rcases List.mem_cons.mp h2 with e | e
      · show List.foldl F64.max (F64.max v x) rest ∈ v :: x :: rest
        rw [e]
        rcases F64.max_choice v x hv hx with e' | e' <;> rw [e'] <;> simp
      · exact List.mem_cons_of_mem _ (List.mem_cons_of_mem _ e)
    · intro w hw
      have hmax := h3 (F64.max v x) (List.mem_cons_self _ _)
      rcases List.mem_cons.mp hw with e | e
      · rw [e]
        exact F64.le_trans _ _ _ (F64.le_max_left v x hv hx) hmax
      · rcases List.mem_cons.mp e with e' | e'
        · rw [e']
          exact F64.le_trans _ _ _ (F64.le_max_right v x hv hx) hmax
        · exact h3 w (List.mem_cons_of_mem _ e')

/-- C1 (amended). In the binary64 model, for every parser and every list of lines `L`,
`processLines` applied to `L` and an empty table yields a table whose keys are exactly the
stations `k` for which `L` has a well-formed line.  When the values of the well-formed
lines of `L` with station `k` are `v`, then `vs`, in the order of the lines, the entry of
`k` has `Count` the number of values, `Sum` the binary64 sum `((v + vs₁) + vs₂) + ...` in
which every addition rounds, and `Min` and `Max` the built-in `min` and `max` folded over
the values; when no value is a NaN, `Min` is the least and `Max` the greatest of the
values.  On `Hamburg;12.0`, `Hamburg;6.0`, `Hamburg;9.0` the entry of `Hamburg` is
(6, 12, 27, 3). -/
theorem processLines64_summary :
    (∀ (ParseFloat : GoString → Option F64) (L : List GoString) (k : GoString),
      (k ∈ processLines64 ParseFloat L ∅ ↔
        ∃ line ∈ L, ∃ field v, Split ';' line = [k, field] ∧ ParseFloat field = some v) ∧
      (∀ v vs, valuesOf64 ParseFloat k L = v :: vs →
        (processLines64 ParseFloat L ∅).lookup k =
          some ⟨vs.foldl F64.min v, vs.foldl F64.max v, vs.foldl F64.add v,
            (vs.length : Int) + 1⟩) ∧
      ∀ s, (processLines64 ParseFloat L ∅).lookup k = some s →
        s.Count = ((valuesOf64 ParseFloat k L).length : Int) ∧
        ((∀ v ∈ valuesOf64 ParseFloat k L, v ≠ F64.nan) →
          s.Min ∈ valuesOf64 ParseFloat k L ∧
          (∀ v ∈ valuesOf64 ParseFloat k L, s.Min.le v = true) ∧
          s.Max ∈ valuesOf64 ParseFloat k L ∧
          (∀ v ∈ valuesOf64 ParseFloat k L, v.le s.Max = true))) ∧
    (processLines64 ParseFloat64
        ["Hamburg;12.0".toList, "Hamburg;6.0".toList, "Hamburg;9.0".toList] ∅).lookup
      "Hamburg".toList = some ⟨F64.num 6, F64.num 12, F64.num 27, 3⟩ := by
  refine ⟨fun PF L k => ?_, by decide!⟩
  have hl := lookup_processLines64 PF L ∅ k
  rw [Finmap.lookup_empty] at hl
  cases hvs : valuesOf64 PF k L with
  | nil =>
    rw [hvs] at hl
    have hn : (processLines64 PF L ∅).lookup k = none := hl
    refine ⟨?_, fun v vs h => (by cases h), fun s hs => (by rw [hn] at hs; cases hs)⟩
    rw [← valuesOf64_ne_nil, ← Finmap.lookup_isSome, hn, hvs]
    simp
  | cons v vs =>
    rw [hvs, foldValues64_none_cons] at hl
    refine ⟨?_, ?_, ?_⟩
    · rw [← valuesOf64_ne_nil, ← Finmap.lookup_isSome, hl, hvs]
      simp
    · intro v' vs' h
      cases h
      exact hl
    · intro s hs
      rw [hl] at hs
      cases hs
      refine ⟨by simp, fun hnan => ?_⟩
      obtain ⟨_, h2, h3⟩ := foldl_min_ne_nan vs v hnan
      obtain ⟨_, h5, h6⟩ := foldl_max_ne_nan vs v hnan
      exact ⟨h2, h3, h5, h6⟩

/-! ## `reduceSummaries` in the binary64 model -/

theorem mergeOpt64_none_right (a : Option StationSummary64) : mergeOpt64 a none = a := by
  cases a <;> rfl

theorem mergeOpt64_none_left (a : Option StationSummary64) : mergeOpt64 none a = a := by
  cases a <;> rfl

theorem lookup_mergeEntry64 (F : Table64) (k' k : GoString) (s : StationSummary64) :
    (mergeEntry64 F k' s).lookup k =
      if k = k' then mergeOpt64 (F.lookup k) (some s) else F.lookup k := by
  unfold mergeEntry64
  by_cases hk : k = k'
  · subst hk
    cases h : F.lookup k <;> simp [mergeOpt64, Finmap.lookup_insert]
  · cases h : F.lookup k' <;> simp [hk, Finmap.lookup_insert_of_ne _ hk]

/-- The loop over the keys of `S`, taken in the order of any list without repetition. -/
theorem lookup_foldl_keys64 (S : Table64) (ks : List GoString) (hks : ks.Nodup) (F : Table64)
    (k : GoString) :
    (ks.foldl
        (fun acc station =>
          match S.lookup station with
          | some stat => mergeEntry64 acc station stat
          | none => acc) F).lookup k =
      if k ∈ ks then mergeOpt64 (F.lookup k) (S.lookup k) else F.lookup k := by
  induction ks generalizing F with
  | nil => simp
  | cons a rest ih =>
    rw [List.nodup_cons] at hks
    rw [List.foldl_cons, ih hks.2]
    have hstep : (match S.lookup a with
        | some stat => mergeEntry64 F a stat
        | none => F).lookup k =
        if k = a then mergeOpt64 (F.lookup k) (S.lookup k) else F.lookup k := by
      by_cases hk : k = a
      · subst hk
        cases hs : S.lookup k with
        | none => simp [mergeOpt64_none_right]
        | some s => simp [lookup_mergeEntry64]
      · cases hs : S.lookup a with
        | none => simp [hk]
        | some s => simp [lookup_mergeEntry64, hk]
    rw [hstep]
    by_cases hk : k = a
    · subst hk
      simp [hks.1]
    · simp [hk]

theorem lookup_mergeTable64 (F S : Table64) (k : GoString) :
    (mergeTable64 F S).lookup k = mergeOpt64 (F.lookup k) (S.lookup k) := by
  unfold mergeTable64
  rw [lookup_foldl_keys64 S _ (Finset.sort_nodup _ _) F k]
  by_cases hk : k ∈ S
  · rw [if_pos]
    rw [Finset.mem_sort]
    exact Finmap.mem_keys.mpr hk
  · rw [if_neg]
    · rw [Finmap.lookup_eq_none.mpr hk, mergeOpt64_none_right]
    · rw [Finset.mem_sort]
      exact fun h => hk (Finmap.mem_keys.mp h)

/-- The table that the inner loop of `reduceSummaries` builds does not depend on the order
in which the loop visits the keys of `summary`. -/
theorem mergeTable64_any_order (F S : Table64) (ks : List GoString) (hks : ks.Nodup)
    (hmem : ∀ k, k ∈ ks ↔ k ∈ S) :
    ks.foldl
        (fun acc station =>
          match S.lookup station with
          | some stat => mergeEntry64 acc station stat
          | none => acc) F = mergeTable64 F S := by
  apply Finmap.ext_lookup
  intro k
  rw [lookup_foldl_keys64 S ks hks F k, lookup_mergeTable64]
  by_cases hk : k ∈ S
  · rw [if_pos ((hmem k).mpr hk)]
  · rw [if_neg (fun h => hk ((hmem k).mp h)), Finmap.lookup_eq_none.mpr hk,
      mergeOpt64_none_right]

theorem lookup_foldl_mergeTable64 (ts : List Table64) (F : Table64) (k : GoString) :
    (ts.foldl mergeTable64 F).lookup k =
      (ts.map (Finmap.lookup k)).foldl mergeOpt64 (F.lookup k) := by
  induction ts generalizing F with
  | nil => rfl
  | cons t rest ih => rw [List.foldl_cons, ih, lookup_mergeTable64]; rfl

theorem processLines64_append (PF : GoString → Option F64) (l₁ l₂ : List GoString)
    (t : Table64) :
    processLines64 PF (l₁ ++ l₂) t = processLines64 PF l₂ (processLines64 PF l₁ t) := by
  simp [processLines64, List.foldl_append]

theorem foldl_processLines64 (PF : GoString → Option F64) (bs : List (List GoString))
    (t : Table64) :
    bs.foldl (fun localSummary lines => processLines64 PF lines localSummary) t =
      processLines64 PF bs.flatten t := by
  induction bs generalizing t with
  | nil => rfl
  | cons b rest ih =>
    rw [List.foldl_cons, ih, List.flatten_cons, processLines64_append]

theorem workerTable64_eq (PF : GoString → Option F64) (bs : List (List GoString)) :
    workerTable64 PF bs = processLines64 PF bs.flatten ∅ :=
  foldl_processLines64 PF bs ∅

/-! ## The invariant `Min ≤ Max` in the binary64 model -/

theorem ordered64_first (stat : StationSummary64) (v : F64) (hc : stat.Count = 0)
    (hv : v ≠ F64.nan) : Ordered64 (foldValue64 stat v) := by
  simp only [foldValue64, hc, if_true, Ordered64]
  exact ⟨le_refl _, F64.le_refl v hv⟩

theorem ordered64_foldValue64 (stat : StationSummary64) (v : F64) (h : Ordered64 stat)
    (hv : v ≠ F64.nan) : Ordered64 (foldValue64 stat v) := by
  obtain ⟨h1, h2⟩ := h
  have hc : stat.Count ≠ 0 := by omega
  obtain ⟨hmin, hmax⟩ := F64.ne_nan_of_le _ _ h2
  simp only [foldValue64, hc, if_false, Ordered64]
  refine ⟨by omega, ?_⟩
  exact F64.le_trans _ _ _ (F64.min_le_left _ _ hmin hv)
    (F64.le_trans _ _ _ h2 (F64.le_max_left _ _ hmax hv))

theorem ordered64_mergeSummary64 (a b : StationSummary64) (ha : Ordered64 a)
    (hb : Ordered64 b) : Ordered64 (mergeSummary64 a b) := by
  obtain ⟨a1, a2⟩ := ha
  obtain ⟨b1, b2⟩ := hb
  obtain ⟨amin, amax⟩ := F64.ne_nan_of_le _ _ a2
  obtain ⟨bmin, bmax⟩ := F64.ne_nan_of_le _ _ b2
  simp only [mergeSummary64, Ordered64]
  refine ⟨by omega, ?_⟩
  exact F64.le_trans _ _ _ (F64.min_le_left _ _ amin bmin)
    (F64.le_trans _ _ _ a2 (F64.le_max_left _ _ amax bmax))

theorem tableOrdered64_empty : TableOrdered64 ∅ := by
  intro k s h
  rw [Finmap.lookup_empty] at h
  cases h

theorem tableOrdered64_processLine64 (PF : GoString → Option F64) (line : GoString)
    (t : Table64) (hline : NoNaN PF [line]) (ht : TableOrdered64 t) :
    TableOrdered64 (processLine64 PF t line) := by
  intro k s hs
  rw [lookup_processLine64] at hs
  cases hw : wellFormedValue64 PF k line with
  | none =>
    rw [hw] at hs
    exact ht k s hs
  | some v =>
    rw [hw] at hs
    simp only [Option.some.injEq] at hs
    subst hs
    obtain ⟨field, h1, h2⟩ := (wellFormedValue64_eq_some PF k line v).mp hw
    have hv : v ≠ F64.nan := by
      intro e
      subst e
      exact hline line (List.mem_singleton.mpr rfl) k field h1 h2
    cases hl : t.lookup k with
    | none => exact ordered64_first _ v rfl hv
    | some stat => exact ordered64_foldValue64 stat v (ht k stat hl) hv

theorem tableOrdered64_processLines64 (PF : GoString → Option F64) (lines : List GoString)
    (t : Table64) (hlines : NoNaN PF lines) (ht : TableOrdered64 t) :
    TableOrdered64 (processLines64 PF lines t) := by
  induction lines generalizing t with
  | nil => exact ht
  | cons line rest ih =>
    show TableOrdered64 (processLines64 PF rest (processLine64 PF t line))
    apply ih
    · intro l hl
      exact hlines l (List.mem_cons_of_mem _ hl)
    · apply tableOrdered64_processLine64 PF line t _ ht
      intro l hl
      rw [List.mem_singleton.mp hl]
      exact hlines line (List.mem_cons_self _ _)

theorem tableOrdered64_mergeTable64 (A B : Table64) (hA : TableOrdered64 A)
    (hB : TableOrdered64 B) : TableOrdered64 (mergeTable64 A B) := by
  intro k s h
  rw [lookup_mergeTable64] at h
  cases ha : A.lookup k with
  | none =>
    rw [ha, mergeOpt64_none_left] at h
    exact hB k s h
  | some a =>
    cases hb : B.lookup k with
    | none =>
      rw [ha, hb, mergeOpt64_none_right] at h
      exact hA k s (ha.trans h)
    | some b =>
      rw [ha, hb] at h
      simp only [mergeOpt64, Option.some.injEq] at h
      subst h
      exact ordered64_mergeSummary64 a b (hA k a ha) (hB k b hb)

theorem tableOrdered64_foldl (ts : List Table64) (F : Table64) (hF : TableOrdered64 F)
    (hts : ∀ t ∈ ts, TableOrdered64 t) : TableOrdered64 (ts.foldl mergeTable64 F) := by
  induction ts generalizing F with
  | nil => exact hF
  | cons t rest ih =>
    exact ih _ (tableOrdered64_mergeTable64 F t hF (hts t (List.mem_cons_self _ _)))
      fun x hx => hts x (List.mem_cons_of_mem _ hx)

theorem tableOrdered64_chunkTables64 (PF : GoString → Option F64) (sched : Schedule64)
    (c : Nat) (lines : List GoString) (hlines : NoNaN PF lines) :
    ∀ t ∈ chunkTables64 PF sched c lines, TableOrdered64 t := by
  intro t ht
  obtain ⟨w, -, rfl⟩ := List.mem_map.mp ht
  rw [workerTable64_eq]
  apply tableOrdered64_processLines64 PF _ ∅ _ tableOrdered64_empty
  intro line hline
  apply hlines line
  obtain ⟨b, hb, hlb⟩ := List.mem_flatten.mp hline
  obtain ⟨x, hx, rfl⟩ := List.mem_map.mp hb
  obtain ⟨y, hy, rfl⟩ := List.mem_map.mp (List.mem_filter.mp hx).1
  have hsub : y.2 ∈ subBatches lines := by
    have := List.mem_map_of_mem Prod.snd hy
    rwa [List.enum_map_snd] at this
  rw [← flatten_subBatches lines]
  exact List.mem_flatten.mpr ⟨y.2, hsub, hlb⟩

theorem tableOrdered64_finalSummary64 (PF : GoString → Option F64) (mb : Int)
    (sched : Schedule64) (file : File) (hv : sched.Valid)
    (hfile : NoNaN PF (readChunks mb (file.content.length + 1) file).flatten) :
    TableOrdered64 (finalSummary64 PF mb sched file) := by
  apply tableOrdered64_foldl _ ∅ tableOrdered64_empty
  intro t ht
  have ht' := (hv _).mem_iff.mp ht
  obtain ⟨cl, hcl, htc⟩ := List.mem_flatMap.mp ht'
  apply tableOrdered64_chunkTables64 PF sched cl.1 cl.2 _ t htc
  intro line hline
  apply hfile line
  have hmem : cl.2 ∈ readChunks mb (file.content.length + 1) file := by
    have := List.mem_map_of_mem Prod.snd hcl
    rwa [List.enum_map_snd] at this
  exact List.mem_flatten.mpr ⟨cl.2, hmem, hline⟩

/-- C16 fails on the code.  `strconv.ParseFloat` accepts `NaN`; the line `A;NaN` creates an
entry with `Count = 1` whose `Min` and `Max` are NaN, for which `Min <= Max` is false, and
`main` prints it. -/
theorem nan_entry_not_ordered :
    ParseFloat64 "NaN".toList = some F64.nan ∧
    (processLines64 ParseFloat64 ["A;NaN".toList] ∅).lookup "A".toList =
      some ⟨F64.nan, F64.nan, F64.nan, 1⟩ ∧
    F64.le F64.nan F64.nan = false ∧
    mainOutput64 ParseFloat64 chunkSizeMB Schedule64.roundRobin ⟨"A;NaN\n".toList, 0, none⟩ =
      "{A=NaN/NaN/NaN}\n".toList := by
  decide!

/-- C16 (amended). In the binary64 model the predicate "`Count ≥ 1` and `Min <= Max`" holds
for the summary created on a key's first record when the value is not a NaN, is preserved
by folding in a value that is not a NaN and by merging two summaries that satisfy it,
hence by `processLines` on lines none of which carries a NaN and by `reduceSummaries`;
every entry of the final table of `main` satisfies it when no line read carries a NaN. -/
theorem summary64_min_le_max :
    (∀ (stat : StationSummary64) (v : F64), stat.Count = 0 → v ≠ F64.nan →
      (foldValue64 stat v).Count = 1 ∧
        (foldValue64 stat v).Min.le (foldValue64 stat v).Max = true) ∧
    (∀ (stat : StationSummary64) (v : F64), Ordered64 stat → v ≠ F64.nan →
      Ordered64 (foldValue64 stat v)) ∧
    (∀ a b : StationSummary64, Ordered64 a → Ordered64 b → Ordered64 (mergeSummary64 a b)) ∧
    (∀ (ParseFloat : GoString → Option F64) (lines : List GoString) (t : Table64),
      NoNaN ParseFloat lines → TableOrdered64 t →
        TableOrdered64 (processLines64 ParseFloat lines t)) ∧
    (∀ tables : List Table64, (∀ t ∈ tables, TableOrdered64 t) →
      TableOrdered64 (reduceSummaries64 tables)) ∧
    (∀ (ParseFloat : GoString → Option F64) (chunkSizeMB : Int) (sched : Schedule64)
        (file : File), sched.Valid →
      NoNaN ParseFloat (readChunks chunkSizeMB (file.content.length + 1) file).flatten →
      ∀ k s, (finalSummary64 ParseFloat chunkSizeMB sched file).lookup k = some s →
        1 ≤ s.Count ∧ s.Min.le s.Max = true) := by
  refine ⟨?_, ordered64_foldValue64, ordered64_mergeSummary64,
    tableOrdered64_processLines64,
    fun ts h => tableOrdered64_foldl ts ∅ tableOrdered64_empty h, ?_⟩
  · intro stat v hc hv
    refine ⟨?_, (ordered64_first stat v hc hv).2⟩
    simp [foldValue64, hc]
  · intro PF mb sched file hv hfile k s hs
    exact tableOrdered64_finalSummary64 PF mb sched file hv hfile k s hs

/-! ## `round` in the binary64 model -/

/-- In exact arithmetic the formula of `round` gives 0.7 at the binary64 value nearest to
0.74 and 4.2 at the decimal 4.14; `round` itself, computed in binary64, gives 0.8 at the
first and 4.1 at the binary64 value nearest to the second. -/
theorem round64_differs_from_exact :
    rnd 0.74 = F64.num (3332663724254167 / 4503599627370496) ∧
    round (3332663724254167 / 4503599627370496) = 0.7 ∧
    round64 (rnd 0.74) = rnd 0.8 ∧
    round 4.14 = 4.2 ∧ round64 (rnd 4.14) = rnd 4.1 := by
  decide!

/-- C7. In the binary64 model, for every `x`, `round(x)` is `floor((x + 0.06) * 10) / 10`,
where `0.06` is the binary64 value nearest to 0.06 and `+`, `*`, `floor` and `/` are the
operations of `float64`: the NaN and the infinities are returned unchanged, and for a
finite `x` whose rounded product `(x + 0.06) * 10` is the finite number `y` the result is
the binary64 quotient by 10 of the largest integer that does not exceed `y`.  In
particular `round(2.0) = 2.0` and `round(2.04) = 2.1`, for the values that
`strconv.ParseFloat` gives to these literals. -/
theorem round64_formula :
    (∀ x : F64, round64 x =
      F64.div (F64.floor (F64.mul (F64.add x (rnd 0.06)) (F64.num 10))) (F64.num 10)) ∧
    round64 F64.nan = F64.nan ∧
    (∀ neg : Bool, round64 (F64.inf neg) = F64.inf neg) ∧
    (∀ q y : ℚ, F64.mul (F64.add (F64.num q) (rnd 0.06)) (F64.num 10) = F64.num y →
      ∃ n : ℤ, round64 (F64.num q) = F64.div (F64.num n) (F64.num 10) ∧
        (n : ℚ) ≤ y ∧ y < (n : ℚ) + 1) ∧
    (ParseFloat64 "2.0".toList).map round64 = ParseFloat64 "2.0".toList ∧
    (ParseFloat64 "2.04".toList).map round64 = ParseFloat64 "2.1".toList ∧
    (ParseFloat64 "2.04".toList).map (fun x => formatFloat64 (round64 x)) =
      some "2.1".toList := by
  refine ⟨fun _ => rfl, by decide!, fun neg => by cases neg <;> decide!, ?_, by decide!,
    by decide!, by decide!⟩
  intro q y h
  refine ⟨⌊y⌋, ?_, Int.floor_le y, Int.lt_floor_add_one y⟩
  unfold round64
  rw [h]
  rfl

/-! ## Instances on which binary64 and exact arithmetic differ -/

/-- C1 fails on the code.  For the lines `A;0.1`, `A;0.2` the entry of `A` has the two
binary64 values as `Min` and `Max` and a `Sum` that is not their sum: the addition
rounds.  For the lines `A;1.5`, `A;NaN` the entry of `A` has `Min`, `Max` and `Sum` NaN. -/
theorem float_sum_is_rounded :
    valuesOf64 ParseFloat64 "A".toList ["A;0.1".toList, "A;0.2".toList] =
      [F64.num (3602879701896397 / 36028797018963968),
        F64.num (3602879701896397 / 18014398509481984)] ∧
    (processLines64 ParseFloat64 ["A;0.1".toList, "A;0.2".toList] ∅).lookup "A".toList =
      some ⟨F64.num (3602879701896397 / 36028797018963968),
        F64.num (3602879701896397 / 18014398509481984),
        F64.num (1351079888211149 / 4503599627370496), 2⟩ ∧
    (3602879701896397 / 36028797018963968 + 3602879701896397 / 18014398509481984 : ℚ) ≠
      1351079888211149 / 4503599627370496 ∧
    (processLines64 ParseFloat64 ["A;1.5".toList, "A;NaN".toList] ∅).lookup "A".toList =
      some ⟨F64.nan, F64.nan, F64.nan, 2⟩ := by
  decide!

/-- C4 fails on the code.  The lines `A;0.1`, `A;0.2`, `A;0.3` are cut into the sub-batches
`[A;0.1]` for worker 0 and `[A;0.2, A;0.3]` for worker 1.  `reduceSummaries` over the two
tables gives `Sum = 0.1 + (0.2 + 0.3)`, `processLines` on the whole list gives
`Sum = (0.1 + 0.2) + 0.3`, and the two binary64 sums differ. -/
theorem float_reduce_workers_ne_processLines :
    ([(0, ["A;0.1".toList]), (1, ["A;0.2".toList, "A;0.3".toList])].map Prod.snd).flatten =
      ["A;0.1".toList, "A;0.2".toList, "A;0.3".toList] ∧
    (reduceSummaries64
        (workerTables64 ParseFloat64 2
          [(0, ["A;0.1".toList]), (1, ["A;0.2".toList, "A;0.3".toList])])).lookup "A".toList =
      some ⟨F64.num (3602879701896397 / 36028797018963968),
        F64.num (5404319552844595 / 18014398509481984),
        F64.num (5404319552844595 / 9007199254740992), 3⟩ ∧
    (processLines64 ParseFloat64 ["A;0.1".toList, "A;0.2".toList, "A;0.3".toList]
        ∅).lookup "A".toList =
      some ⟨F64.num (3602879701896397 / 36028797018963968),
        F64.num (5404319552844595 / 18014398509481984),
        F64.num (2702159776422298 / 4503599627370496), 3⟩ ∧
    reduceSummaries64
        (workerTables64 ParseFloat64 2
          [(0, ["A;0.1".toList]), (1, ["A;0.2".toList, "A;0.3".toList])]) ≠
      processLines64 ParseFloat64 ["A;0.1".toList, "A;0.2".toList, "A;0.3".toList] ∅ := by
  decide!

/-- C5 fails on the code.  For the file of three lines `A;0.74` the binary64 sum is
2.2199999999999998 and the mean 0.7399999999999999, below the minimum 0.74; `main` prints
`A=0.8/0.7/0.8`, a mean below the minimum. -/
theorem float_mean_below_min :
    (finalSummary64 ParseFloat64 chunkSizeMB Schedule64.roundRobin
        ⟨"A;0.74\nA;0.74\nA;0.74\n".toList, 0, none⟩).lookup "A".toList =
      some ⟨rnd 0.74, rnd 0.74, rnd 2.2199999999999998, 3⟩ ∧
    F64.div (rnd 2.2199999999999998) (F64.ofInt 3) = rnd 0.7399999999999999 ∧
    round64 (rnd 0.74) = rnd 0.8 ∧ round64 (rnd 0.7399999999999999) = rnd 0.7 ∧
    mainOutput64 ParseFloat64 chunkSizeMB Schedule64.roundRobin
      ⟨"A;0.74\nA;0.74\nA;0.74\n".toList, 0, none⟩ = "{A=0.8/0.7/0.8}\n".toList := by
  decide!

theorem roundRobin64_valid : Schedule64.roundRobin.Valid := fun _ => List.Perm.refl _

theorem lastFirst64_valid : Schedule64.lastFirst.Valid := fun tables =>
  List.reverse_perm tables

/-- C17 fails on the code.  For the file of the five lines `A;-94.0`, `A;11.5`, `A;42.5`,
`A;43.2`, `A;59.5` every line is a sub-batch of its own.  When the five tables arrive at
the reducer in the order of emission `main` prints the mean `12.6`; when they arrive in the
reverse order it prints `12.5`.  Both schedules are valid. -/
theorem float_output_depends_on_schedule :
    Schedule64.roundRobin.Valid ∧ Schedule64.lastFirst.Valid ∧
    mainOutput64 ParseFloat64 chunkSizeMB Schedule64.roundRobin
      ⟨"A;-94.0\nA;11.5\nA;42.5\nA;43.2\nA;59.5\n".toList, 0, none⟩ =
        "{A=-94.0/12.6/59.5}\n".toList ∧
    mainOutput64 ParseFloat64 chunkSizeMB Schedule64.lastFirst
      ⟨"A;-94.0\nA;11.5\nA;42.5\nA;43.2\nA;59.5\n".toList, 0, none⟩ =
        "{A=-94.0/12.5/59.5}\n".toList :=
  ⟨roundRobin64_valid, lastFirst64_valid, by decide!, by decide!⟩

/-! ## The built-in `min` and `max` are commutative and associative -/

theorem F64.min_comm (x y : F64) : F64.min x y = F64.min y x := by
  rcases x with _ | a | _ | p <;> rcases y with _ | b | _ | q <;>
    (try cases a) <;> (try cases b) <;> (try rfl) <;>
    simp only [F64.min, F64.le, decide_eq_true_eq] <;> split_ifs <;>
    first
      | rfl
      | (exfalso; linarith)
      | (congr 1; linarith)

theorem F64.max_comm (x y : F64) : F64.max x y = F64.max y x := by
  rcases x with _ | a | _ | p <;> rcases y with _ | b | _ | q <;>
    (try cases a) <;> (try cases b) <;> (try rfl) <;>
    simp only [F64.max, F64.le, decide_eq_true_eq] <;> split_ifs <;>
    first
      | rfl
      | (exfalso; linarith)
      | (congr 1; linarith)

theorem F64.min_assoc (x y z : F64) : F64.min (F64.min x y) z = F64.min x (F64.min y z) := by
  rcases x with _ | a | _ | p <;> rcases y with _ | b | _ | q <;> rcases z with _ | c | _ | r <;>
    (try cases a) <;> (try cases b) <;> (try cases c) <;> (try rfl) <;>
    simp only [F64.min, F64.le, decide_eq_true_eq] <;> (try split_ifs) <;>
    (try simp only [F64.min, F64.le, decide_eq_true_eq]) <;> (try split_ifs) <;>
    first
      | rfl
      | (exfalso; linarith)

theorem F64.max_assoc (x y z : F64) : F64.max (F64.max x y) z = F64.max x (F64.max y z) := by
  rcases x with _ | a | _ | p <;> rcases y with _ | b | _ | q <;> rcases z with _ | c | _ | r <;>
    (try cases a) <;> (try cases b) <;> (try cases c) <;> (try rfl) <;>
    simp only [F64.max, F64.le, decide_eq_true_eq] <;> (try split_ifs) <;>
    (try simp only [F64.max, F64.le, decide_eq_true_eq]) <;> (try split_ifs) <;>
    first
      | rfl
      | (exfalso; linarith)

/-! ## The fields `Min`, `Max` and `Count` in the binary64 model -/

theorem mergeExtremes_comm (a b : Extremes) : mergeExtremes a b = mergeExtremes b a := by
  simp only [mergeExtremes, F64.min_comm a.Min, F64.max_comm a.Max, add_comm a.Count]

theorem mergeExtremes_assoc (a b c : Extremes) :
    mergeExtremes (mergeExtremes a b) c = mergeExtremes a (mergeExtremes b c) := by
  simp only [mergeExtremes, F64.min_assoc, F64.max_assoc, add_assoc]

theorem mergeExtOpt_none_right (a : Option Extremes) : mergeExtOpt a none = a := by
  cases a <;> rfl

theorem mergeExtOpt_none_left (a : Option Extremes) : mergeExtOpt none a = a := by
  cases a <;> rfl

theorem mergeExtOpt_comm (a b : Option Extremes) : mergeExtOpt a b = mergeExtOpt b a := by
  cases a <;> cases b <;> simp [mergeExtOpt, mergeExtremes_comm]

theorem mergeExtOpt_assoc (a b c : Option Extremes) :
    mergeExtOpt (mergeExtOpt a b) c = mergeExtOpt a (mergeExtOpt b c) := by
  cases a <;> cases b <;> cases c <;> simp [mergeExtOpt, mergeExtremes_assoc]

theorem extremes_mergeOpt64 (a b : Option StationSummary64) :
    (mergeOpt64 a b).map StationSummary64.extremes =
      mergeExtOpt (a.map StationSummary64.extremes) (b.map StationSummary64.extremes) := by
  cases a <;> cases b <;> rfl

theorem foldl_min_init (vs : List F64) (a w : F64) :
    vs.foldl F64.min (F64.min a w) = F64.min a (vs.foldl F64.min w) := by
  induction vs generalizing w with
  | nil => rfl
  | cons x rest ih => rw [List.foldl_cons, List.foldl_cons, F64.min_assoc, ih]

theorem foldl_max_init (vs : List F64) (a w : F64) :
    vs.foldl F64.max (F64.max a w) = F64.max a (vs.foldl F64.max w) := by
  induction vs generalizing w with
  | nil => rfl
  | cons x rest ih => rw [List.foldl_cons, List.foldl_cons, F64.max_assoc, ih]

theorem extremesOf_append (l₁ l₂ : List F64) :
    extremesOf (l₁ ++ l₂) = mergeExtOpt (extremesOf l₁) (extremesOf l₂) := by
  cases l₁ with
  | nil => rw [List.nil_append]; exact (mergeExtOpt_none_left _).symm
  | cons v r =>
    cases l₂ with
    | nil => rw [List.append_nil]; rfl
    | cons w s =>
      have hmin : (r ++ w :: s).foldl F64.min v =
          F64.min (r.foldl F64.min v) (s.foldl F64.min w) := by
        rw [List.foldl_append, List.foldl_cons, foldl_min_init]
      have hmax : (r ++ w :: s).foldl F64.max v =
          F64.max (r.foldl F64.max v) (s.foldl F64.max w) := by
        rw [List.foldl_append, List.foldl_cons, foldl_max_init]
      have hlen : (((r ++ w :: s).length : Int) + 1) =
          ((r.length : Int) + 1) + ((s.length : Int) + 1) := by
        rw [List.length_append, List.length_cons]
        push_cast
        ring
      show extremesOf (v :: (r ++ w :: s)) = _
      simp only [extremesOf, mergeExtOpt, mergeExtremes]
      rw [hmin, hmax, hlen]

theorem valuesOf64_append (PF : GoString → Option F64) (k : GoString) (l₁ l₂ : List GoString) :
    valuesOf64 PF k (l₁ ++ l₂) = valuesOf64 PF k l₁ ++ valuesOf64 PF k l₂ := by
  simp [valuesOf64, List.filterMap_append]

theorem extremes_lookup_processLines64 (PF : GoString → Option F64) (L : List GoString)
    (k : GoString) :
    ((processLines64 PF L ∅).lookup k).map StationSummary64.extremes =
      extremesOf (valuesOf64 PF k L) := by
  rw [lookup_processLines64, Finmap.lookup_empty]
  cases hvs : valuesOf64 PF k L with
  | nil => rfl
  | cons v vs => rw [foldValues64_none_cons]; rfl

theorem extremes_lookup_foldl_mergeTable64 (ts : List Table64) (F : Table64) (k : GoString) :
    ((ts.foldl mergeTable64 F).lookup k).map StationSummary64.extremes =
      (ts.map fun t => (t.lookup k).map StationSummary64.extremes).foldl mergeExtOpt
        ((F.lookup k).map StationSummary64.extremes) := by
  induction ts generalizing F with
  | nil => rfl
  | cons t rest ih =>
    rw [List.foldl_cons, ih, lookup_mergeTable64, extremes_mergeOpt64]
    rfl

theorem foldl_mergeExtOpt_perm (l₁ l₂ : List (Option Extremes)) (h : l₁.Perm l₂)
    (a : Option Extremes) : l₁.foldl mergeExtOpt a = l₂.foldl mergeExtOpt a := by
  induction h generalizing a with
  | nil => rfl
  | cons x _ ih => exact ih (mergeExtOpt a x)
  | swap x y l =>
    simp only [List.foldl_cons]
    rw [mergeExtOpt_assoc, mergeExtOpt_comm y x, ← mergeExtOpt_assoc]
  | trans _ _ ih1 ih2 => exact (ih1 a).trans (ih2 a)

theorem foldl_mergeExtOpt_init (l : List (Option Extremes)) (a : Option Extremes) :
    l.foldl mergeExtOpt a = mergeExtOpt a (l.foldl mergeExtOpt none) := by
  induction l generalizing a with
  | nil => exact (mergeExtOpt_none_right a).symm
  | cons x rest ih =>
    rw [List.foldl_cons, List.foldl_cons, ih (mergeExtOpt a x), ih (mergeExtOpt none x),
      mergeExtOpt_none_left, mergeExtOpt_assoc]

theorem foldl_mergeExtOpt_none (l : List (Option Extremes)) (h : ∀ x ∈ l, x = none) :
    l.foldl mergeExtOpt none = none := by
  induction l with
  | nil => rfl
  | cons x rest ih =>
    rw [List.foldl_cons, h x (List.mem_cons_self _ _), mergeExtOpt_none_left]
    exact ih fun y hy => h y (List.mem_cons_of_mem _ hy)

theorem foldl_mergeExtOpt_update (g : Nat → Option Extremes) (x : Option Extremes)
    (W w₀ : Nat) (h : w₀ < W) :
    ((List.range W).map fun w => if w = w₀ then mergeExtOpt x (g w) else g w).foldl
        mergeExtOpt none =
      mergeExtOpt x (((List.range W).map g).foldl mergeExtOpt none) := by
  induction W with
  | zero => omega
  | succ W ih =>
    rw [List.range_succ, List.map_append, List.map_append, List.foldl_append, List.foldl_append]
    simp only [List.map_cons, List.map_nil, List.foldl_cons, List.foldl_nil]
    by_cases hw : w₀ = W
    · subst hw
      have hmap : ((List.range w₀).map fun w => if w = w₀ then mergeExtOpt x (g w) else g w) =
          (List.range w₀).map g := by
        apply List.map_congr_left
        intro w hw
        have : w ≠ w₀ := (List.mem_range.mp hw).ne
        simp [this]
      rw [hmap, if_pos rfl, ← mergeExtOpt_assoc, mergeExtOpt_comm _ x, mergeExtOpt_assoc]
    · have hlt : w₀ < W := by omega
      have hne : W ≠ w₀ := fun e => hw e.symm
      rw [ih hlt, if_neg hne, mergeExtOpt_assoc]

theorem extremes_workers (PF : GoString → Option F64) (k : GoString) (W : Nat)
    (tagged : List (Nat × List GoString)) (htag : ∀ b ∈ tagged, b.1 < W) :
    ((List.range W).map fun w => extremesOf (valuesOf64 PF k (workerLines tagged w))).foldl
        mergeExtOpt none =
      extremesOf (valuesOf64 PF k (tagged.map Prod.snd).flatten) := by
  induction tagged with
  | nil =>
    apply foldl_mergeExtOpt_none
    intro x hx
    obtain ⟨w, -, rfl⟩ := List.mem_map.mp hx
    rfl
  | cons e T ih =>
    obtain ⟨w₀, b⟩ := e
    have h0 : w₀ < W := htag (w₀, b) (List.mem_cons_self _ _)
    have hT : ∀ b ∈ T, b.1 < W := fun x hx => htag x (List.mem_cons_of_mem _ hx)
    have hfun : (fun w => extremesOf (valuesOf64 PF k (workerLines ((w₀, b) :: T) w))) =
        fun w => if w = w₀ then
            mergeExtOpt (extremesOf (valuesOf64 PF k b))
              (extremesOf (valuesOf64 PF k (workerLines T w)))
          else extremesOf (valuesOf64 PF k (workerLines T w)) := by
      funext w
      rw [workerLines_cons]
      by_cases h : w = w₀
      · rw [if_pos h, if_pos h, valuesOf64_append, extremesOf_append]
      · rw [if_neg h, if_neg h]
    rw [hfun, foldl_mergeExtOpt_update _ _ W w₀ h0, ih hT, List.map_cons, List.flatten_cons,
      valuesOf64_append, extremesOf_append]

theorem extremes_reduce_workerTables64 (PF : GoString → Option F64) (k : GoString) (W : Nat)
    (tagged : List (Nat × List GoString)) (htag : ∀ b ∈ tagged, b.1 < W) :
    ((workerTables64 PF W tagged).map fun t =>
        (t.lookup k).map StationSummary64.extremes).foldl mergeExtOpt none =
      extremesOf (valuesOf64 PF k (tagged.map Prod.snd).flatten) := by
  unfold workerTables64
  rw [List.map_map, ← extremes_workers PF k W tagged htag]
  congr 1
  apply List.map_congr_left
  intro w _
  show ((workerTable64 PF _).lookup k).map StationSummary64.extremes = _
  rw [workerTable64_eq, extremes_lookup_processLines64]
  rfl

theorem extremes_reduce_chunkTables64 (PF : GoString → Option F64) (sched : Schedule64)
    (c : Nat) (lines : List GoString) (k : GoString) :
    ((chunkTables64 PF sched c lines).map fun t =>
        (t.lookup k).map StationSummary64.extremes).foldl mergeExtOpt none =
      extremesOf (valuesOf64 PF k lines) := by
  have h := extremes_reduce_workerTables64 PF k numWorkers
    ((subBatches lines).enum.map fun b => (sched.assign c b.1 % numWorkers, b.2))
    (by
      intro b hb
      obtain ⟨x, -, rfl⟩ := List.mem_map.mp hb
      exact Nat.mod_lt _ (by decide))
  have hsnd : (((subBatches lines).enum.map fun b =>
      (sched.assign c b.1 % numWorkers, b.2)).map Prod.snd) = subBatches lines := by
    rw [List.map_map]
    have : (Prod.snd ∘ fun b : Nat × List GoString => (sched.assign c b.1 % numWorkers, b.2)) =
        Prod.snd := rfl
    rw [this, List.enum_map_snd]
  rw [hsnd, flatten_subBatches] at h
  exact h

theorem extremes_reduce_flatMap64 (PF : GoString → Option F64) (sched : Schedule64)
    (k : GoString) (chunks : List (Nat × List GoString)) :
    (((chunks.flatMap fun cl => chunkTables64 PF sched cl.1 cl.2).map fun t =>
        (t.lookup k).map StationSummary64.extremes).foldl mergeExtOpt none) =
      extremesOf (valuesOf64 PF k (chunks.map Prod.snd).flatten) := by
  induction chunks with
  | nil => rfl
  | cons cl rest ih =>
    rw [List.flatMap_cons, List.map_append, List.foldl_append, foldl_mergeExtOpt_init, ih,
      extremes_reduce_chunkTables64, List.map_cons, List.flatten_cons, valuesOf64_append,
      extremesOf_append]

/-- In the binary64 model, for a valid schedule the fields `Min`, `Max` and `Count` of the
final table are those of the table `processLines` builds from the lines of all chunks
read, in order. -/
theorem extremes_finalSummary64 (PF : GoString → Option F64) (mb : Int) (sched : Schedule64)
    (file : File) (hv : sched.Valid) (k : GoString) :
    ((finalSummary64 PF mb sched file).lookup k).map StationSummary64.extremes =
      extremesOf (valuesOf64 PF k (readChunks mb (file.content.length + 1) file).flatten) := by
  unfold finalSummary64 reduceSummaries64
  rw [extremes_lookup_foldl_mergeTable64, Finmap.lookup_empty]
  have hp := foldl_mergeExtOpt_perm _ _
    ((hv (emittedTables64 PF mb sched file)).map fun t =>
      (t.lookup k).map StationSummary64.extremes) none
  show List.foldl mergeExtOpt none _ = _
  rw [hp]
  unfold emittedTables64
  rw [extremes_reduce_flatMap64, List.enum_map_snd]

theorem extremes_eq_fields (a b : Option StationSummary64)
    (h : a.map StationSummary64.extremes = b.map StationSummary64.extremes) :
    (a.isSome = b.isSome) ∧
      ∀ s t, a = some s → b = some t → s.Min = t.Min ∧ s.Max = t.Max ∧ s.Count = t.Count := by
  cases a with
  | none =>
    cases b with
    | none => exact ⟨rfl, fun s t hs => by cases hs⟩
    | some y => cases h
  | some x =>
    cases b with
    | none => cases h
    | some y =>
      refine ⟨rfl, fun s t hs ht => ?_⟩
      cases hs
      cases ht
      simp only [Option.map_some', Option.some.injEq, StationSummary64.extremes,
        Extremes.mk.injEq] at h
      exact h

/-- C4 (amended). Let the list of lines `L` be cut into consecutive sub-batches, each
tagged with the worker (one of `W`) that receives it, and let every worker fold its
sub-batches, in order, with `processLines` into its own table that starts empty.  In the
binary64 model `reduceSummaries`, applied to the workers' tables in any order of arrival,
has the same keys as `processLines` applied to `L` and an empty table, and for every key
the same `Min`, `Max` and `Count`.  In the exact model, where sums are taken in exact
arithmetic, the two tables are equal. -/
theorem reduce_workers_eq_processLines :
    (∀ (ParseFloat : GoString → Option F64) (L : List GoString) (W : Nat)
        (tagged : List (Nat × List GoString)) (arrival : List Table64),
      (tagged.map Prod.snd).flatten = L → (∀ b ∈ tagged, b.1 < W) →
      arrival.Perm (workerTables64 ParseFloat W tagged) →
      ∀ k, (k ∈ reduceSummaries64 arrival ↔ k ∈ processLines64 ParseFloat L ∅) ∧
        ∀ s t, (reduceSummaries64 arrival).lookup k = some s →
          (processLines64 ParseFloat L ∅).lookup k = some t →
          s.Min = t.Min ∧ s.Max = t.Max ∧ s.Count = t.Count) ∧
    (∀ (ParseFloat : GoString → Option ℚ) (L : List GoString) (W : Nat)
        (tagged : List (Nat × List GoString)) (arrival : List Table),
      (tagged.map Prod.snd).flatten = L → (∀ b ∈ tagged, b.1 < W) →
      arrival.Perm (workerTables ParseFloat W tagged) →
      reduceSummaries arrival = processLines ParseFloat L ∅) := by
  constructor
  · intro PF L W tagged arrival hcut hassign harrival k
    have h : ((reduceSummaries64 arrival).lookup k).map StationSummary64.extremes =
        ((processLines64 PF L ∅).lookup k).map StationSummary64.extremes := by
      unfold reduceSummaries64
      rw [extremes_lookup_foldl_mergeTable64, Finmap.lookup_empty,
        extremes_lookup_processLines64, ← hcut,
        ← extremes_reduce_workerTables64 PF k W tagged hassign]
      exact foldl_mergeExtOpt_perm _ _
        (harrival.map fun t => (t.lookup k).map StationSummary64.extremes) none
    obtain ⟨h1, h2⟩ := extremes_eq_fields _ _ h
    refine ⟨?_, h2⟩
    rw [← Finmap.lookup_isSome, ← Finmap.lookup_isSome, h1]
  · intro PF L W tagged arrival hcut hassign harrival
    have hp : reduceSummaries arrival = reduceSummaries (workerTables PF W tagged) :=
      foldl_mergeTable_perm _ _ harrival ∅
    rw [hp]
    apply Finmap.ext_lookup
    intro k
    rw [lookup_reduce_workerTables PF k W tagged hassign, lookup_processLines_empty, hcut]

/-- An instance of C4: four lines cut into three sub-batches, the first and the last of
which go to worker 1 and the second to worker 0; the tables arrive in reverse order. -/
theorem reduce_workers_eq_processLines_witness :
    ([(1, ["A;1.0".toList, "B;2.5".toList]), (0, ["A;3".toList]),
        (1, ["B;-4".toList])].map Prod.snd).flatten =
        ["A;1.0".toList, "B;2.5".toList, "A;3".toList, "B;-4".toList] ∧
      (∀ b ∈ [(1, ["A;1.0".toList, "B;2.5".toList]), (0, ["A;3".toList]),
        (1, ["B;-4".toList])], b.1 < 2) ∧
      reduceSummaries
          (workerTables parseFloat 2
            [(1, ["A;1.0".toList, "B;2.5".toList]), (0, ["A;3".toList]),
              (1, ["B;-4".toList])]).reverse =
        processLines parseFloat
          ["A;1.0".toList, "B;2.5".toList, "A;3".toList, "B;-4".toList] ∅ ∧
      ("A".toList ∈ reduceSummaries64
          (workerTables64 ParseFloat64 2
            [(1, ["A;1.0".toList, "B;2.5".toList]), (0, ["A;3".toList]),
              (1, ["B;-4".toList])]).reverse ↔
        "A".toList ∈ processLines64 ParseFloat64
          ["A;1.0".toList, "B;2.5".toList, "A;3".toList, "B;-4".toList] ∅) :=
  ⟨rfl, by decide,
    reduce_workers_eq_processLines.2 parseFloat _ 2
      [(1, ["A;1.0".toList, "B;2.5".toList]), (0, ["A;3".toList]), (1, ["B;-4".toList])]
      _ rfl (by decide) (List.reverse_perm _),
    (reduce_workers_eq_processLines.1 ParseFloat64 _ 2
      [(1, ["A;1.0".toList, "B;2.5".toList]), (0, ["A;3".toList]), (1, ["B;-4".toList])]
      _ rfl (by decide) (List.reverse_perm _) "A".toList).1⟩

/-- C17 (amended). For a parser, a chunk size and a file, and any two valid schedules (which
worker receives which sub-batch, in which order the local tables arrive at the reducer):
in the binary64 model the two final tables have the same keys and, for every key, the
same `Min`, `Max` and `Count`, so `main` prints the same keys with the same minimum and
maximum; in the exact model, where sums are taken in exact arithmetic, `main` prints the
same text.  In both models the sorted output does not depend on the iteration order of
the final map: every sorted permutation of the texts of the entries, taken in any
enumeration of the map, is the output. -/
theorem output_deterministic :
    (∀ (ParseFloat : GoString → Option F64) (chunkSizeMB : Int) (file : File)
        (sched₁ sched₂ : Schedule64), sched₁.Valid → sched₂.Valid →
      ∀ k, (k ∈ finalSummary64 ParseFloat chunkSizeMB sched₁ file ↔
          k ∈ finalSummary64 ParseFloat chunkSizeMB sched₂ file) ∧
        ∀ s t, (finalSummary64 ParseFloat chunkSizeMB sched₁ file).lookup k = some s →
          (finalSummary64 ParseFloat chunkSizeMB sched₂ file).lookup k = some t →
          s.Min = t.Min ∧ s.Max = t.Max ∧ s.Count = t.Count) ∧
    (∀ (T : Table64) (es : List (Sigma fun _ : GoString => StationSummary64))
        (out : List GoString), (es : Multiset _) = T.entries →
      out.Perm (es.map fun e => formatEntry64 e.1 e.2) → out.Sorted (· ≤ ·) →
      out = outputLines64 T) ∧
    (∀ (ParseFloat : GoString → Option ℚ) (chunkSizeMB : Int) (file : File)
        (sched₁ sched₂ : Schedule), sched₁.Valid → sched₂.Valid →
      mainOutput ParseFloat chunkSizeMB sched₁ file =
        mainOutput ParseFloat chunkSizeMB sched₂ file) ∧
    (∀ (T : Table) (es : List (Sigma fun _ : GoString => StationSummary))
        (out : List GoString), (es : Multiset _) = T.entries →
      out.Perm (es.map fun e => formatEntry e.1 e.2) → out.Sorted (· ≤ ·) →
      out = outputLines T) := by
  refine ⟨?_, ?_, ?_, ?_⟩
  · intro PF mb file s₁ s₂ h₁ h₂ k
    have h : ((finalSummary64 PF mb s₁ file).lookup k).map StationSummary64.extremes =
        ((finalSummary64 PF mb s₂ file).lookup k).map StationSummary64.extremes := by
      rw [extremes_finalSummary64 PF mb s₁ file h₁, extremes_finalSummary64 PF mb s₂ file h₂]
    obtain ⟨e1, e2⟩ := extremes_eq_fields _ _ h
    refine ⟨?_, e2⟩
    rw [← Finmap.lookup_isSome, ← Finmap.lookup_isSome, e1]
  · intro T es out hes hperm hsorted
    apply List.eq_of_perm_of_sorted _ hsorted (Multiset.sort_sorted _ _)
    rw [← hes]
    have h1 : (Multiset.sort (fun a b : GoString => a ≤ b)
        (Multiset.map (fun e => formatEntry64 e.1 e.2)
          (es : Multiset (Sigma fun _ : GoString => StationSummary64)))).Perm
        (es.map fun e => formatEntry64 e.1 e.2) := by
      rw [← Multiset.coe_eq_coe, Multiset.sort_eq, Multiset.map_coe]
    exact hperm.trans h1.symm
  · intro PF mb file s₁ s₂ h₁ h₂
    unfold mainOutput
    rw [finalSummary_eq_processLines PF mb s₁ file h₁,
      finalSummary_eq_processLines PF mb s₂ file h₂]
  · intro T es out hes hperm hsorted
    apply List.eq_of_perm_of_sorted _ hsorted (Multiset.sort_sorted _ _)
    rw [← hes]
    have h1 : (Multiset.sort (fun a b : GoString => a ≤ b)
        (Multiset.map (fun e => formatEntry e.1 e.2)
          (es : Multiset (Sigma fun _ : GoString => StationSummary)))).Perm
        (es.map fun e => formatEntry e.1 e.2) := by
      rw [← Multiset.coe_eq_coe, Multiset.sort_eq, Multiset.map_coe]
    exact hperm.trans h1.symm

/-- An instance of C17: the schedules `roundRobin` and `reversed` on a file of three lines
in the exact model, and the schedules `roundRobin` and `lastFirst` on the key `A` of a file
of five lines in the binary64 model. -/
theorem output_deterministic_witness :
    Schedule.roundRobin.Valid ∧ Schedule.reversed.Valid ∧
    mainOutput parseFloat 1 Schedule.roundRobin ⟨"A;1.0\nB;2.0\nA;-0.4\n".toList, 0, none⟩ =
      mainOutput parseFloat 1 Schedule.reversed ⟨"A;1.0\nB;2.0\nA;-0.4\n".toList, 0, none⟩ ∧
    ("A".toList ∈ finalSummary64 ParseFloat64 chunkSizeMB Schedule64.roundRobin
          ⟨"A;-94.0\nA;11.5\nA;42.5\nA;43.2\nA;59.5\n".toList, 0, none⟩ ↔
      "A".toList ∈ finalSummary64 ParseFloat64 chunkSizeMB Schedule64.lastFirst
          ⟨"A;-94.0\nA;11.5\nA;42.5\nA;43.2\nA;59.5\n".toList, 0, none⟩) :=
  ⟨roundRobin_valid, reversed_valid,
    output_deterministic.2.2.1 parseFloat 1 _ _ _ roundRobin_valid reversed_valid,
    (output_deterministic.1 ParseFloat64 chunkSizeMB _ _ _ roundRobin64_valid lastFirst64_valid
      "A".toList).1⟩

/-! ## Rounding to binary64 is monotone -/

theorem pow2_eq (k : Int) : pow2 k = (2 : ℚ) ^ k := by
  unfold pow2
  split_ifs with h
  · obtain ⟨n, rfl⟩ := Int.eq_ofNat_of_zero_le h
    simp
  · have h' : 0 ≤ -k := by omega
    obtain ⟨n, hn⟩ := Int.eq_ofNat_of_zero_le h'
    have hk : k = -(n : Int) := by omega
    subst hk
    simp

theorem pow2_pos (k : Int) : 0 < pow2 k := by
  rw [pow2_eq]
  positivity

theorem pow2_mono (a b : Int) (h : a ≤ b) : pow2 a ≤ pow2 b := by
  rw [pow2_eq, pow2_eq]
  exact zpow_le_zpow_right₀ (by norm_num) h

theorem pow2_add (a b : Int) : pow2 (a + b) = pow2 a * pow2 b := by
  rw [pow2_eq, pow2_eq, pow2_eq, zpow_add₀ (by norm_num)]

theorem log2Loop_spec (fuel n : Nat) (hn : 1 ≤ n) (hf : n ≤ fuel) :
    2 ^ log2Loop fuel n ≤ n ∧ n < 2 ^ (log2Loop fuel n + 1) := by
  induction fuel generalizing n with
  | zero => omega
  | succ fuel ih =>
    unfold log2Loop
    split_ifs with h
    · obtain ⟨h1, h2⟩ := ih (n / 2) (by omega) (by omega)
      constructor
      · rw [pow_succ]
        omega
      · rw [pow_succ]
        omega
    · have : n = 1 := by omega
      subst this
      simp

theorem natLog2_spec (n : Nat) (hn : 1 ≤ n) :
    2 ^ natLog2 n ≤ n ∧ n < 2 ^ (natLog2 n + 1) :=
  log2Loop_spec n n hn (le_refl _)

theorem ilog2_spec (a : ℚ) (ha : 0 < a) :
    pow2 (ilog2 a) ≤ a ∧ a < pow2 (ilog2 a + 1) := by
  have hnum : 0 < a.num := Rat.num_pos.mpr ha
  have hn1 : 1 ≤ a.num.natAbs := by omega
  have hd1 : 1 ≤ a.den := a.den_pos
  obtain ⟨n1, n2⟩ := natLog2_spec a.num.natAbs hn1
  obtain ⟨d1, d2⟩ := natLog2_spec a.den hd1
  have hcast : ((a.num.natAbs : ℕ) : ℚ) = (a.num : ℚ) := by
    rw [← Int.cast_natCast, Int.natAbs_of_nonneg hnum.le]
  have hdpos : (0 : ℚ) < (a.den : ℚ) := by exact_mod_cast a.den_pos
  have ha_eq : a = (a.num.natAbs : ℚ) / (a.den : ℚ) := by
    rw [hcast]
    exact (Rat.num_div_den a).symm
  have qn1 : (2 : ℚ) ^ (natLog2 a.num.natAbs) ≤ (a.num.natAbs : ℚ) := by exact_mod_cast n1
  have qn2 : (a.num.natAbs : ℚ) < (2 : ℚ) ^ (natLog2 a.num.natAbs + 1) := by exact_mod_cast n2
  have qd1 : (2 : ℚ) ^ (natLog2 a.den) ≤ (a.den : ℚ) := by exact_mod_cast d1
  have qd2 : (a.den : ℚ) < (2 : ℚ) ^ (natLog2 a.den + 1) := by exact_mod_cast d2
  set P := natLog2 a.num.natAbs with hP
  set S := natLog2 a.den with hS
  have hlow : pow2 ((P : Int) - (S : Int) - 1) ≤ a := by
    rw [pow2_eq, show ((P : Int) - (S : Int) - 1) = (P : Int) - ((S : Int) + 1) by ring,
      zpow_sub₀ (by norm_num)]
    have e1 : (2 : ℚ) ^ ((S : Int) + 1) = (2 : ℚ) ^ (S + 1) := by norm_cast
    have e2 : (2 : ℚ) ^ (P : Int) = (2 : ℚ) ^ P := by norm_cast
    rw [e1, e2, ha_eq, div_le_div_iff₀ (by positivity) hdpos]
    nlinarith [pow_pos (show (0 : ℚ) < 2 by norm_num) P]
  have hhigh : a < pow2 ((P : Int) - (S : Int) + 1) := by
    rw [pow2_eq, show ((P : Int) - (S : Int) + 1) = ((P : Int) + 1) - (S : Int) by ring,
      zpow_sub₀ (by norm_num)]
    have e1 : (2 : ℚ) ^ ((P : Int) + 1) = (2 : ℚ) ^ (P + 1) := by norm_cast
    have e2 : (2 : ℚ) ^ (S : Int) = (2 : ℚ) ^ S := by norm_cast
    rw [e1, e2]
    conv_lhs => rw [ha_eq]
    rw [div_lt_div_iff₀ hdpos (by positivity)]
    have hSpos : (0 : ℚ) < 2 ^ S := by positivity
    nlinarith
  unfold ilog2
  simp only [← hP, ← hS]
  split_ifs with h
  · exact ⟨h, hhigh⟩
  · refine ⟨hlow, ?_⟩
    rw [show ((P : Int) - (S : Int) - 1 + 1) = (P : Int) - (S : Int) by ring]
    exact lt_of_not_le h

theorem ilog2_mono (a b : ℚ) (ha : 0 < a) (hab : a ≤ b) : ilog2 a ≤ ilog2 b := by
  by_contra hlt
  have h1 : ilog2 b + 1 ≤ ilog2 a := by omega
  have h2 := (ilog2_spec a ha).1
  have h3 := (ilog2_spec b (lt_of_lt_of_le ha hab)).2
  have h4 := pow2_mono _ _ h1
  linarith

theorem roundEven_bounds (y : ℚ) : ⌊y⌋ ≤ roundEven y ∧ roundEven y ≤ ⌊y⌋ + 1 := by
  unfold roundEven
  split_ifs <;> constructor <;> omega

theorem roundEven_le_of_le (y : ℚ) (N : Int) (h : y ≤ N) : roundEven y ≤ N := by
  have hf : ⌊y⌋ ≤ N := by
    have := Int.floor_mono h
    rwa [Int.floor_intCast] at this
  rcases lt_or_eq_of_le hf with h1 | h1
  · have := (roundEven_bounds y).2
    omega
  · have hy : y - (⌊y⌋ : ℚ) = 0 := by
      have h2 := Int.floor_le y
      rw [h1] at h2 ⊢
      linarith
    unfold roundEven
    rw [hy, if_pos (by norm_num)]
    exact hf

theorem le_roundEven_of_le (y : ℚ) (N : Int) (h : (N : ℚ) ≤ y) : N ≤ roundEven y := by
  have hf : N ≤ ⌊y⌋ := Int.le_floor.mpr h
  have := (roundEven_bounds y).1
  omega

theorem roundEven_mono (y z : ℚ) (h : y ≤ z) : roundEven y ≤ roundEven z := by
  have hf : ⌊y⌋ ≤ ⌊z⌋ := Int.floor_mono h
  rcases lt_or_eq_of_le hf with h1 | h1
  · have a := (roundEven_bounds y).2
    have b := (roundEven_bounds z).1
    omega
  · unfold roundEven
    rw [← h1]
    split_ifs <;> first
      | omega
      | (exfalso; linarith)

theorem roundedMagnitude_nonneg (a : ℚ) (ha : 0 < a) : 0 ≤ roundedMagnitude a := by
  unfold roundedMagnitude
  have hu := pow2_pos (max (ilog2 a) (-1022) - 52)
  have h0 : (0 : ℤ) ≤ roundEven (a / pow2 (max (ilog2 a) (-1022) - 52)) :=
    le_roundEven_of_le _ 0 (by simpa using (div_pos ha hu).le)
  have h1 : (0 : ℚ) ≤ (roundEven (a / pow2 (max (ilog2 a) (-1022) - 52)) : ℚ) := by
    exact_mod_cast h0
  exact mul_nonneg h1 hu.le

theorem roundedMagnitude_le (a : ℚ) (ha : 0 < a) :
    roundedMagnitude a ≤ pow2 (max (ilog2 a) (-1022) + 1) := by
  unfold roundedMagnitude
  set e := max (ilog2 a) (-1022) with he
  have hu := pow2_pos (e - 52)
  have h1 : a < pow2 (e + 1) :=
    lt_of_lt_of_le (ilog2_spec a ha).2 (pow2_mono _ _ (by rw [he]; omega))
  have h2 : pow2 (e + 1) = ((2 ^ 53 : ℤ) : ℚ) * pow2 (e - 52) := by
    rw [show e + 1 = 53 + (e - 52) by ring, pow2_add, pow2_eq 53]
    norm_num
  have h3 : a / pow2 (e - 52) ≤ ((2 ^ 53 : ℤ) : ℚ) := by
    rw [div_le_iff₀ hu, ← h2]
    exact h1.le
  have h4 := roundEven_le_of_le _ _ h3
  have h5 : (roundEven (a / pow2 (e - 52)) : ℚ) ≤ ((2 ^ 53 : ℤ) : ℚ) := by exact_mod_cast h4
  rw [h2]
  exact mul_le_mul_of_nonneg_right h5 hu.le

theorem le_roundedMagnitude (a : ℚ) (ha : 0 < a) (he : -1022 ≤ ilog2 a) :
    pow2 (ilog2 a) ≤ roundedMagnitude a := by
  unfold roundedMagnitude
  rw [max_eq_left he]
  have hu := pow2_pos (ilog2 a - 52)
  have h1 := (ilog2_spec a ha).1
  have h2 : pow2 (ilog2 a) = ((2 ^ 52 : ℤ) : ℚ) * pow2 (ilog2 a - 52) := by
    rw [show ilog2 a = 52 + (ilog2 a - 52) by ring, pow2_add, pow2_eq 52]
    norm_num
  have h3 : ((2 ^ 52 : ℤ) : ℚ) ≤ a / pow2 (ilog2 a - 52) := by
    rw [le_div_iff₀ hu, ← h2]
    exact h1
  have h4 := le_roundEven_of_le _ _ h3
  have h5 : ((2 ^ 52 : ℤ) : ℚ) ≤ (roundEven (a / pow2 (ilog2 a - 52)) : ℚ) := by
    exact_mod_cast h4
  rw [h2]
  exact mul_le_mul_of_nonneg_right h5 hu.le

theorem roundedMagnitude_mono (a b : ℚ) (ha : 0 < a) (hab : a ≤ b) :
    roundedMagnitude a ≤ roundedMagnitude b := by
  have hb : 0 < b := lt_of_lt_of_le ha hab
  have hlog := ilog2_mono a b ha hab
  rcases lt_or_eq_of_le (max_le_max hlog (le_refl (-1022 : Int))) with h | h
  · have hbe : -1022 ≤ ilog2 b := by
      by_contra hc
      rw [max_eq_right (by omega : ilog2 b ≤ -1022)] at h
      have := le_max_right (ilog2 a) (-1022)
      omega
    have hbmax : max (ilog2 b) (-1022) = ilog2 b := max_eq_left hbe
    have h1 := roundedMagnitude_le a ha
    have h2 := le_roundedMagnitude b hb hbe
    have h3 := pow2_mono (max (ilog2 a) (-1022) + 1) (ilog2 b) (by omega)
    linarith
  · unfold roundedMagnitude
    rw [h]
    have hu := pow2_pos (max (ilog2 b) (-1022) - 52)
    have h1 : a / pow2 (max (ilog2 b) (-1022) - 52) ≤ b / pow2 (max (ilog2 b) (-1022) - 52) :=
      div_le_div_of_nonneg_right hab hu.le
    have h2 := roundEven_mono _ _ h1
    have h3 : (roundEven (a / pow2 (max (ilog2 b) (-1022) - 52)) : ℚ) ≤
        (roundEven (b / pow2 (max (ilog2 b) (-1022) - 52)) : ℚ) := by exact_mod_cast h2
    exact mul_le_mul_of_nonneg_right h3 hu.le

theorem rnd_zero : rnd 0 = F64.num 0 := by
  simp [rnd]

theorem rnd_pos (q : ℚ) (hq : 0 < q) :
    rnd q = if pow2 1024 ≤ roundedMagnitude q then F64.inf false
      else F64.num (roundedMagnitude q) := by
  have hn : ¬ q < 0 := not_lt.mpr hq.le
  unfold rnd roundedMagnitude
  simp only [if_neg hq.ne', abs_of_pos hq, hn, decide_False, if_false]
  split_ifs with h1 h2
  · rfl
  · rw [h2]
  · rfl

theorem rnd_neg (q : ℚ) (hq : q < 0) :
    rnd q = if pow2 1024 ≤ roundedMagnitude (-q) then F64.inf true
      else if roundedMagnitude (-q) = 0 then F64.negZero
      else F64.num (-(roundedMagnitude (-q))) := by
  unfold rnd roundedMagnitude
  simp only [if_neg hq.ne, abs_of_neg hq, hq, decide_True, if_true]

theorem rnd_ne_nan (q : ℚ) : rnd q ≠ F64.nan := by
  rcases lt_trichotomy q 0 with h | h | h
  · rw [rnd_neg q h]
    split_ifs <;> simp
  · rw [h, rnd_zero]
    simp
  · rw [rnd_pos q h]
    split_ifs <;> simp

theorem rnd_mono (p q : ℚ) (h : p ≤ q) : (rnd p).le (rnd q) = true := by
  rcases lt_trichotomy p 0 with hp | hp | hp
  · rw [rnd_neg p hp]
    have mp := roundedMagnitude_nonneg (-p) (by linarith)
    rcases lt_trichotomy q 0 with hq | hq | hq
    · rw [rnd_neg q hq]
      have mq := roundedMagnitude_nonneg (-q) (by linarith)
      have hm := roundedMagnitude_mono (-q) (-p) (by linarith) (by linarith)
      split_ifs <;> simp only [F64.le, decide_eq_true_eq] <;>
        first
          | rfl
          | linarith
    · rw [hq, rnd_zero]
      split_ifs <;> simp only [F64.le, decide_eq_true_eq] <;>
        first
          | rfl
          | linarith
    · rw [rnd_pos q hq]
      have mq := roundedMagnitude_nonneg q hq
      split_ifs <;> simp only [F64.le, decide_eq_true_eq] <;>
        first
          | rfl
          | linarith
  · rw [hp, rnd_zero]
    rcases lt_or_eq_of_le h with hq | hq
    · rw [hp] at hq
      rw [rnd_pos q hq]
      have mq := roundedMagnitude_nonneg q hq
      split_ifs <;> simp only [F64.le, decide_eq_true_eq] <;>
        first
          | rfl
          | linarith
    · rw [← hq, hp, rnd_zero]
      simp [F64.le]
  · have hq : 0 < q := lt_of_lt_of_le hp h
    rw [rnd_pos p hp, rnd_pos q hq]
    have hm := roundedMagnitude_mono p q hp h
    split_ifs <;> simp only [F64.le, decide_eq_true_eq] <;>
      first
        | rfl
        | linarith

/-! ## `round` is monotone in the binary64 model -/

theorem rnd_006 :
    rnd 0.06 = F64.num (1080863910568919 / 18014398509481984) ∧
      rnd (1080863910568919 / 18014398509481984) =
        F64.num (1080863910568919 / 18014398509481984) := by
  decide!

theorem F64.negZero_le (z : F64) : F64.negZero.le z = (F64.num 0).le z := by
  rcases z with _ | c | _ | r
  · rfl
  · cases c <;> rfl
  · simp [F64.le]
  · rfl

theorem F64.le_negZero (z : F64) : z.le F64.negZero = z.le (F64.num 0) := by
  rcases z with _ | c | _ | r
  · rfl
  · cases c <;> rfl
  · simp [F64.le]
  · rfl

theorem F64.negInf_le (z : F64) (hz : z ≠ F64.nan) : (F64.inf true).le z = true := by
  cases z with
  | nan => exact absurd rfl hz
  | inf c => cases c <;> rfl
  | negZero => rfl
  | num r => rfl

theorem F64.le_posInf (z : F64) (hz : z ≠ F64.nan) : z.le (F64.inf false) = true := by
  cases z with
  | nan => exact absurd rfl hz
  | inf c => cases c <;> rfl
  | negZero => rfl
  | num r => rfl

theorem F64.add_num_mono (x y : F64) (c : ℚ) (hc : rnd c = F64.num c)
    (h : x.le y = true) : (F64.add x (F64.num c)).le (F64.add y (F64.num c)) = true := by
  rcases x with _ | a | _ | p
  · simp [F64.le] at h
  · cases a
    · rcases y with _ | b | _ | q
      · simp [F64.le] at h
      · cases b
        · rfl
        · simp [F64.le] at h
      · simp [F64.le] at h
      · simp [F64.le] at h
    · apply F64.negInf_le
      rcases y with _ | b | _ | q
      · simp [F64.le] at h
      · simp [F64.add]
      · simp [F64.add]
      · exact rnd_ne_nan _
  · rcases y with _ | b | _ | q
    · simp [F64.le] at h
    · cases b
      · rfl
      · simp [F64.le] at h
    · show (F64.num c).le (F64.num c) = true
      simp [F64.le]
    · show (F64.num c).le (rnd (q + c)) = true
      have hq : 0 ≤ q := by simpa [F64.le] using h
      rw [← hc]
      exact rnd_mono _ _ (by linarith)
  · rcases y with _ | b | _ | q
    · simp [F64.le] at h
    · cases b
      · exact F64.le_posInf _ (rnd_ne_nan _)
      · simp [F64.le] at h
    · show (rnd (p + c)).le (F64.num c) = true
      have hp : p ≤ 0 := by simpa [F64.le] using h
      rw [← hc]
      exact rnd_mono _ _ (by linarith)
    · show (rnd (p + c)).le (rnd (q + c)) = true
      have hpq : p ≤ q := by simpa [F64.le] using h
      exact rnd_mono _ _ (by linarith)

theorem F64.mul_num_ten (a : ℚ) : F64.mul (F64.num a) (F64.num 10) = rnd (a * 10) := by
  show (if a * 10 = 0 then F64.zero (xor (decide (a < 0)) (decide ((10 : ℚ) < 0)))
    else rnd (a * 10)) = _
  split_ifs with h
  · have ha : a = 0 := by linarith
    subst ha
    simp [F64.zero, rnd_zero]
  · rfl

theorem F64.mul_ten_mono (x y : F64) (h : x.le y = true) :
    (F64.mul x (F64.num 10)).le (F64.mul y (F64.num 10)) = true := by
  have hinf : ∀ a : Bool, F64.mul (F64.inf a) (F64.num 10) = F64.inf a := by
    intro a
    cases a <;> simp [F64.mul, F64.isZero, F64.signbit]
  have hnz : F64.mul F64.negZero (F64.num 10) = F64.negZero := by
    simp [F64.mul, F64.signbit, F64.zero]
  have hne : ∀ z : F64, z ≠ F64.nan → F64.mul z (F64.num 10) ≠ F64.nan := by
    intro z hz
    rcases z with _ | c | _ | r
    · exact absurd rfl hz
    · rw [hinf]; simp
    · rw [hnz]; simp
    · rw [F64.mul_num_ten]; exact rnd_ne_nan _
  obtain ⟨hx, hy⟩ := F64.ne_nan_of_le x y h
  rcases x with _ | a | _ | p
  · exact absurd rfl hx
  · cases a
    · rcases y with _ | b | _ | q
      · exact absurd rfl hy
      · cases b
        · rw [hinf]; rfl
        · simp [F64.le] at h
      · simp [F64.le] at h
      · simp [F64.le] at h
    · rw [hinf]
      exact F64.negInf_le _ (hne y hy)
  · rw [hnz, F64.negZero_le]
    rcases y with _ | b | _ | q
    · exact absurd rfl hy
    · cases b
      · rw [hinf]; rfl
      · simp [F64.le] at h
    · rw [hnz]; rfl
    · rw [F64.mul_num_ten, ← rnd_zero]
      have hq : 0 ≤ q := by simpa [F64.le] using h
      exact rnd_mono _ _ (by linarith)
  · rw [F64.mul_num_ten]
    rcases y with _ | b | _ | q
    · exact absurd rfl hy
    · cases b
      · rw [hinf]; exact F64.le_posInf _ (rnd_ne_nan _)
      · simp [F64.le] at h
    · rw [hnz, F64.le_negZero, ← rnd_zero]
      have hp : p ≤ 0 := by simpa [F64.le] using h
      exact rnd_mono _ _ (by linarith)
    · rw [F64.mul_num_ten]
      have hpq : p ≤ q := by simpa [F64.le] using h
      exact rnd_mono _ _ (by linarith)

theorem F64.floor_mono (x y : F64) (h : x.le y = true) : (F64.floor x).le (F64.floor y) = true := by
  rcases x with _ | a | _ | p
  · simp [F64.le] at h
  · rcases y with _ | b | _ | q
    · exact h
    · exact h
    · exact h
    · cases a
      · simp [F64.le] at h
      · rfl
  · rcases y with _ | b | _ | q
    · exact h
    · exact h
    · exact h
    · have hq : (0 : ℚ) ≤ q := by simpa [F64.le] using h
      have := Int.floor_nonneg.mpr hq
      simp only [F64.floor, F64.le, decide_eq_true_eq]
      exact_mod_cast this
  · rcases y with _ | b | _ | q
    · exact h
    · cases b
      · rfl
      · simp [F64.le] at h
    · have hp : p ≤ (0 : ℚ) := by simpa [F64.le] using h
      have h1 := Int.floor_le p
      have h2 : ⌊p⌋ ≤ 0 := by
        by_contra hc
        have : (1 : ℚ) ≤ (⌊p⌋ : ℚ) := by exact_mod_cast (by omega : 1 ≤ ⌊p⌋)
        linarith
      simp only [F64.floor, F64.le, decide_eq_true_eq]
      exact_mod_cast h2
    · have hpq : p ≤ q := by simpa [F64.le] using h
      have := Int.floor_mono hpq
      simp only [F64.floor, F64.le, decide_eq_true_eq]
      exact_mod_cast this

theorem F64.div_num_ten (a : ℚ) : F64.div (F64.num a) (F64.num 10) = rnd (a / 10) := by
  show (if (10 : ℚ) = 0 then (if a = 0 then F64.nan else F64.inf (decide (a < 0)))
    else if a = 0 then F64.zero (decide ((10 : ℚ) < 0)) else rnd (a / 10)) = _
  rw [if_neg (by norm_num)]
  split_ifs with h
  · subst h
    simp [F64.zero, rnd_zero]
  · rfl

theorem F64.div_ten_mono (x y : F64) (h : x.le y = true) :
    (F64.div x (F64.num 10)).le (F64.div y (F64.num 10)) = true := by
  have hinf : ∀ a : Bool, F64.div (F64.inf a) (F64.num 10) = F64.inf a := by
    intro a
    cases a <;> simp [F64.div, F64.signbit]
  have hnz : F64.div F64.negZero (F64.num 10) = F64.negZero := by
    simp [F64.div, F64.zero]
  have hne : ∀ z : F64, z ≠ F64.nan → F64.div z (F64.num 10) ≠ F64.nan := by
    intro z hz
    rcases z with _ | c | _ | r
    · exact absurd rfl hz
    · rw [hinf]; simp
    · rw [hnz]; simp
    · rw [F64.div_num_ten]; exact rnd_ne_nan _
  obtain ⟨hx, hy⟩ := F64.ne_nan_of_le x y h
  rcases x with _ | a | _ | p
  · exact absurd rfl hx
  · cases a
    · rcases y with _ | b | _ | q
      · exact absurd rfl hy
      · cases b
        · rw [hinf]; rfl
        · simp [F64.le] at h
      · simp [F64.le] at h
      · simp [F64.le] at h
    · rw [hinf]
      exact F64.negInf_le _ (hne y hy)
  · rw [hnz, F64.negZero_le]
    rcases y with _ | b | _ | q
    · exact absurd rfl hy
    · cases b
      · rw [hinf]; rfl
      · simp [F64.le] at h
    · rw [hnz]; rfl
    · rw [F64.div_num_ten, ← rnd_zero]
      have hq : 0 ≤ q := by simpa [F64.le] using h
      exact rnd_mono _ _ (by linarith)
  · rw [F64.div_num_ten]
    rcases y with _ | b | _ | q
    · exact absurd rfl hy
    · cases b
      · rw [hinf]; exact F64.le_posInf _ (rnd_ne_nan _)
      · simp [F64.le] at h
    · rw [hnz, F64.le_negZero, ← rnd_zero]
      have hp : p ≤ 0 := by simpa [F64.le] using h
      exact rnd_mono _ _ (by linarith)
    · rw [F64.div_num_ten]
      have hpq : p ≤ q := by simpa [F64.le] using h
      exact rnd_mono _ _ (by linarith)

/-- In the binary64 model `round` is monotone: for `x <= y` (neither is a NaN),
`round(x) <= round(y)`. -/
theorem round64_mono (x y : F64) (h : x.le y = true) : (round64 x).le (round64 y) = true := by
  unfold round64
  rw [rnd_006.1]
  exact F64.div_ten_mono _ _ (F64.floor_mono _ _ (F64.mul_ten_mono _ _
    (F64.add_num_mono _ _ _ rnd_006.2 h)))

/-- C5 (amended). In the binary64 model, for every
input file, chunk size and valid schedule such that no line read carries a NaN, and every
key present in the final table, the first and the last of the three values printed for
the key satisfy `round(Min) <= round(Max)`.  In the exact model, where the sum, the mean
and `round` are taken in exact arithmetic, the three values satisfy
`round(Min) ≤ round(Sum/Count) ≤ round(Max)`. -/
theorem printed_min_le_mean_le_max :
    (∀ (ParseFloat : GoString → Option F64) (chunkSizeMB : Int) (sched : Schedule64)
        (file : File), sched.Valid →
      NoNaN ParseFloat (readChunks chunkSizeMB (file.content.length + 1) file).flatten →
      ∀ key stat, (finalSummary64 ParseFloat chunkSizeMB sched file).lookup key = some stat →
        (round64 stat.Min).le (round64 stat.Max) = true) ∧
    (∀ (ParseFloat : GoString → Option ℚ) (chunkSizeMB : Int) (sched : Schedule)
        (file : File), sched.Valid →
      ∀ key stat, (finalSummary ParseFloat chunkSizeMB sched file).lookup key = some stat →
        round stat.Min ≤ round (stat.Sum / (stat.Count : ℚ)) ∧
          round (stat.Sum / (stat.Count : ℚ)) ≤ round stat.Max) := by
  constructor
  · intro PF mb sched file hv hfile key stat hkey
    exact round64_mono _ _
      (tableOrdered64_finalSummary64 PF mb sched file hv hfile key stat hkey).2
  · intro PF mb sched file hv key stat hkey
    have hg := tableGood_finalSummary PF mb sched file hv key stat hkey
    exact ⟨round_mono (good_mean stat hg).1, round_mono (good_mean stat hg).2⟩

theorem noNaN_three_lines :
    NoNaN ParseFloat64
      (readChunks chunkSizeMB 22 ⟨"A;0.74\nA;0.74\nA;0.74\n".toList, 0, none⟩).flatten := by
  have h : (readChunks chunkSizeMB 22 ⟨"A;0.74\nA;0.74\nA;0.74\n".toList, 0, none⟩).flatten =
      ["A;0.74".toList, "A;0.74".toList, "A;0.74".toList] := by decide!
  rw [h]
  intro line hline station field hsplit
  have hl : line = "A;0.74".toList := by
    simp only [List.mem_cons, List.mem_singleton, List.not_mem_nil, or_false, or_self] at hline
    exact hline
  subst hl
  have hs : Split ';' "A;0.74".toList = ["A".toList, "0.74".toList] := by decide
  rw [hs] at hsplit
  simp only [List.cons.injEq, and_true] at hsplit
  obtain ⟨-, rfl⟩ := hsplit
  decide!

/-- An instance of C5: a file of three lines, read in one chunk, and the key `A`, in the
exact model; the file of three lines `A;0.74` in the binary64 model. -/
theorem printed_min_le_mean_le_max_witness :
    Schedule.roundRobin.Valid ∧
    (finalSummary parseFloat 1 Schedule.roundRobin ⟨"A;1.0\nB;2.0\nA;-0.4\n".toList, 0, none⟩).lookup
        "A".toList = some ⟨-0.4, 1.0, 0.6, 2⟩ ∧
    (round (-0.4 : ℚ) ≤ round ((0.6 : ℚ) / ((2 : ℤ) : ℚ)) ∧
      round ((0.6 : ℚ) / ((2 : ℤ) : ℚ)) ≤ round (1.0 : ℚ)) ∧
    (round64 (rnd 0.74)).le (round64 (rnd 0.74)) = true :=
  ⟨roundRobin_valid, by decide!,
    printed_min_le_mean_le_max.2 parseFloat 1 Schedule.roundRobin
      ⟨"A;1.0\nB;2.0\nA;-0.4\n".toList, 0, none⟩ roundRobin_valid "A".toList
      ⟨-0.4, 1.0, 0.6, 2⟩ (by decide!),
    printed_min_le_mean_le_max.1 ParseFloat64 chunkSizeMB Schedule64.roundRobin
      ⟨"A;0.74\nA;0.74\nA;0.74\n".toList, 0, none⟩ roundRobin64_valid noNaN_three_lines
      "A".toList ⟨rnd 0.74, rnd 0.74, rnd 2.2199999999999998, 3⟩ (by decide!)⟩

end Onebrc
